import Mathlib

/-
Verification development for the single-file on-disk B-tree of btree.c /
btree.h (the `otree` repository).

The development has two layers, matching the two subsystems the claims are
about:

* a functional model of the B-tree engine (`btree_find`, `btree_add`,
  `btree_add_nonfull`, `btree_split_child`): nodes become an inductive tree
  in which the on-disk child offsets are replaced by the subtrees they
  reference and the on-disk value offsets by the value bytes they reference.
  Keys are fixed 16-byte blobs compared with memcmp; since all keys have the
  same length, memcmp order coincides with the order of the big-endian
  numeric value of the 16 bytes, so keys are modelled as `Nat`.
  The `pointedby` mechanism of the C code (the disk offset of the 8-byte
  slot that references a node) becomes functional replacement of the child
  in the parent node.

* a state model of the disk-space allocator (`btree_alloc`, `btree_free`,
  `btree_alloc_freelist`, `btree_alloc_realsize`, header cursors, free-list
  blocks), with the file modelled as a map from byte offsets to the 64-bit
  big-endian cells the allocator reads and writes at those offsets.

All machine integers are modelled as `Nat`, with reduction mod 2^32 / 2^64
made explicit exactly where the C code can overflow (the `realsize` loop on
`uint32_t`, the `bt->free -= realsize` update on `uint64_t`, and `ptr - 8`
on `uint64_t`).
-/

namespace OTree

/-! ## Constants from btree.h -/

def BTREE_PREALLOC_SIZE : Nat := 1024 * 512

def BTREE_FREELIST_BLOCK_ITEMS : Nat := 252

def BTREE_MAX_KEYS : Nat := 7

def BTREE_HASHED_KEY_LEN : Nat := 16

def BTREE_FREELIST_COUNT : Nat := 28

/-- `(8*3)+(8*BTREE_FREELIST_BLOCK_ITEMS)` = 2040. -/
def BTREE_FREELIST_BLOCK_SIZE : Nat := 8 * 3 + 8 * BTREE_FREELIST_BLOCK_ITEMS

/-- `2^11 = 2048`, the size class of free-list blocks themselves. -/
def BTREE_FREELIST_SIZE_EXP : Nat := 11

/-- `4*4 + 7*16 + (7*2+1)*8 + 4` = 252. -/
def BTREE_NODE_SIZE : Nat :=
  4 * 4 + BTREE_MAX_KEYS * BTREE_HASHED_KEY_LEN + (BTREE_MAX_KEYS * 2 + 1) * 8 + 4

def BTREE_HDR_FREE_POS : Nat := 16

def BTREE_HDR_FREEOFF_POS : Nat := 24

/-- `32+(BTREE_FREELIST_BLOCK_SIZE*BTREE_FREELIST_COUNT)` = 57152. -/
def BTREE_HDR_ROOTPTR_POS : Nat := 32 + BTREE_FREELIST_BLOCK_SIZE * BTREE_FREELIST_COUNT

/-! ## B-tree engine: functional model

A node of btree.h's `struct btree_node` carries `numkeys`, `isleaf`, an
array of `BTREE_MAX_KEYS` 16-byte keys, `BTREE_MAX_KEYS` value offsets and
`BTREE_MAX_KEYS+1` child offsets; only the first `numkeys` keys/values
(and `numkeys+1` children, for an internal node) are meaningful, the unused
slots being zero.  The model keeps exactly the meaningful slots as lists
(so `numkeys` is `keys.length`), pulls the bytes referenced by a value
offset inline as `List Nat`, and replaces a child offset by the subtree it
references (a leaf's all-zero child slots become the empty list). -/

inductive BNode : Type where
  | node (isleaf : Bool) (keys : List Nat) (values : List (List Nat))
         (children : List BNode)

instance : Inhabited BNode := ⟨.node true [] [] []⟩

def BNode.isleaf : BNode → Bool
  | .node l _ _ _ => l

def BNode.keys : BNode → List Nat
  | .node _ k _ _ => k

def BNode.values : BNode → List (List Nat)
  | .node _ _ v _ => v

def BNode.children : BNode → List BNode
  | .node _ _ _ c => c

/-- `n->numkeys` of the model node. -/
def BNode.numkeys (n : BNode) : Nat := n.keys.length

/-- `btree_node_is_full`: `n->numkeys == BTREE_MAX_KEYS`. -/
def btree_node_is_full (n : BNode) : Bool := n.numkeys == BTREE_MAX_KEYS

/-- The forward scan inlined in `btree_find`:
`for (j = 0; j < numkeys; j++) { cmp = memcmp(key,keys[j]); if (cmp <= 0) break; }`.
Returns the final value of `j`: the number of leading keys that are `< key`. -/
def btree_find_scan (key : Nat) : List Nat → Nat
  | [] => 0
  | k :: ks => if key ≤ k then 0 else btree_find_scan key ks + 1

/-- `btree_find`, modulo the node/offset indirection: at each node run the
forward scan; on an exact match return the value paired with the key
(in the C code the value offset: here the bytes it references); otherwise
fail with `not_found` if the node is a leaf or the selected child slot is
empty (`children[j] == 0`), else descend into child `j`. -/
def btree_find (key : Nat) : BNode → Option (List Nat)
  | .node isleaf keys values children =>
    let j := btree_find_scan key keys
    if j < keys.length ∧ keys.getD j 0 = key then
      some (values.getD j [])
    else if isleaf then
      none
    else
      match hc : children[j]? with
      | some c => btree_find key c
      | none => none
termination_by n => sizeOf n
decreasing_by
  have := List.sizeOf_lt_of_mem (List.getElem?_mem hc)
  simp only [BNode.node.sizeOf_spec]
  omega

/-- `btree_node_insert_key_at`: insert `key`/`valoff` at position `i`,
shifting the later keys and values one slot to the right (children are not
touched; the C function is only used on leaves). -/
def btree_node_insert_key_at (n : BNode) (i : Nat) (key : Nat) (valoff : List Nat) : BNode :=
  .node n.isleaf
    (n.keys.take i ++ key :: n.keys.drop i)
    (n.values.take i ++ valoff :: n.values.drop i)
    n.children

/-- The backward scan at the top of `btree_add_nonfull`:
`i = numkeys-1; while(1){ if (i < 0) break; cmp = memcmp(key, keys[i]);
if (cmp == 0) { found = 1; break; } if (cmp >= 0) break; i--; }`.
The result `(some i, found)` corresponds to the C pair `(i, found)` with
`none` standing for `i == -1`. -/
def btree_seek_loop (key : Nat) (keys : List Nat) : Nat → Option Nat × Bool
  | 0 =>
    if key = keys.getD 0 0 then (some 0, true)
    else if keys.getD 0 0 < key then (some 0, false)
    else (none, false)
  | i + 1 =>
    if key = keys.getD (i + 1) 0 then (some (i + 1), true)
    else if keys.getD (i + 1) 0 < key then (some (i + 1), false)
    else btree_seek_loop key keys i

def btree_seek (key : Nat) (keys : List Nat) : Option Nat × Bool :=
  if keys.length = 0 then (none, false)
  else btree_seek_loop key keys (keys.length - 1)

/-- The child index `i+1` used by the internal-node branch (`i++` in C),
with `none` again standing for `i == -1`. -/
def childIdx : Option Nat → Nat
  | none => 0
  | some i => i + 1

/-- `btree_split_child` as a pure function on nodes.  `child` is the node
read from `parentoff`'s child slot `i` (the C function receives its offset
`childoff`).  Produces the updated parent: the child's median key/value is
inserted at slot `i` and the child is replaced by its two halves.
The C function asserts `child->numkeys == BTREE_MAX_KEYS` and
`parent->numkeys != BTREE_MAX_KEYS`; the model returns `none` where the C
program would abort. -/
def btree_split_child (parent : BNode) (i : Nat) (child : BNode) : Option BNode :=
  if child.numkeys = BTREE_MAX_KEYS ∧ ¬ parent.numkeys = BTREE_MAX_KEYS then
    let halflen := (BTREE_MAX_KEYS - 1) / 2
    let lnode : BNode := .node child.isleaf
      (child.keys.take halflen) (child.values.take halflen)
      (child.children.take (halflen + 1))
    let rnode : BNode := .node child.isleaf
      (child.keys.drop (halflen + 1)) (child.values.drop (halflen + 1))
      (child.children.drop (halflen + 1))
    some (.node parent.isleaf
      (parent.keys.take i ++ child.keys.getD halflen 0 :: parent.keys.drop i)
      (parent.values.take i ++ child.values.getD halflen [] :: parent.values.drop i)
      (parent.children.take i ++ lnode :: rnode :: parent.children.drop (i + 1)))
  else none

/-- Result of `btree_add` / `btree_add_nonfull`.  The C functions return 0,
or -1 with errno: `dup` is `EBUSY` (key already present, replace == 0),
`assertfail` marks the `assert` in `btree_split_child`, and `nofuel` is the
model's recursion bound (the C recursion is bounded by the tree height; the
theorems never rely on `nofuel` being reachable). -/
inductive AddErr : Type where
  | dup
  | assertfail
  | nofuel
deriving DecidableEq

/-- `btree_add_nonfull`.  The returned node is the tree now referenced by
`pointedby` — also when an error is returned, since the C code performs its
splits durably before descending (an `EBUSY` failure leaves any splits done
on the way in place).

Branches, in the order of the C code:
* key found and `!replace`: fail `EBUSY`, no write;
* key found and `replace`: overwrite the `values[i]` slot in place;
* leaf: insert key/value at `i+1`, write the node image afresh and repoint
  `pointedby` at it (functionally: return the updated node);
* internal: read child `i+1`; if it is full, split it — the split rewrites
  this node and the C code recurses on the rewritten node (`newnode` is the
  new parent, `pointedby` unchanged); otherwise recurse into the child,
  `pointedby` becoming the child slot inside this node's image
  (functionally: replace child `i+1` by the recursion's result). -/
def btree_add_nonfull (fuel : Nat) (n : BNode) (key : Nat) (val : List Nat)
    (replace : Bool) : Option AddErr × BNode :=
  match fuel with
  | 0 => (some .nofuel, n)
  | fuel + 1 =>
    let (i?, found) := btree_seek key n.keys
    if found then
      if !replace then (some .dup, n)
      else (none, .node n.isleaf n.keys (n.values.set (i?.getD 0) val) n.children)
    else if n.isleaf then
      (none, btree_node_insert_key_at n (childIdx i?) key val)
    else
      let i := childIdx i?
      let child := n.children.getD i default
      if btree_node_is_full child then
        match btree_split_child n i child with
        | none => (some .assertfail, n)
        | some newnode => btree_add_nonfull fuel newnode key val replace
      else
        let (e, c') := btree_add_nonfull fuel child key val replace
        (e, .node n.isleaf n.keys n.values (n.children.set i c'))

/-- `btree_add`: if the root is full, write a fresh empty non-leaf node and
split the old root as its child 0 (the header root pointer now references
the result); then run the non-full insert on the (possibly new) root. -/
def btree_add (fuel : Nat) (root : BNode) (key : Nat) (val : List Nat)
    (replace : Bool) : Option AddErr × BNode :=
  if btree_node_is_full root then
    match btree_split_child (.node false [] [] []) 0 root with
    | none => (some .assertfail, root)
    | some newroot => btree_add_nonfull fuel newroot key val replace
  else
    btree_add_nonfull fuel root key val replace

/-! ### Runs of adds (claim C1)

`runAdds` executes a list of `add` requests against the tree, giving call
number `k` the recursion allowance `b + 2k` (the C recursion depth is at
most `2·height + 2`; starting from the empty root with `b = 4` the
allowance always suffices, and the main theorems condition on each call's
actual outcome, so no theorem depends on the allowance being large enough).
It returns the final tree together with the success bit of every call
(`true` iff the C call returned 0).  `specMap` is the reference semantics:
an association list receiving the key/value of exactly the successful
calls. -/

structure AddOp : Type where
  key : Nat
  val : List Nat
  replace : Bool

def runAdds : Nat → BNode → List AddOp → BNode × List Bool
  | _, t, [] => (t, [])
  | b, t, op :: ops =>
    let (e, t') := btree_add b t op.key op.val op.replace
    let (tfin, outs) := runAdds (b + 2) t' ops
    (tfin, e.isNone :: outs)

/-- Reference semantics of one successful add on an association list. -/
def specInsert (m : List (Nat × List Nat)) (key : Nat) (val : List Nat) :
    List (Nat × List Nat) :=
  (key, val) :: m.filter (fun p => p.1 ≠ key)

/-- Reference semantics of a run: fold the key/value of exactly the
successful calls (in call order) over an association list. -/
def specRun (m : List (Nat × List Nat)) : List (AddOp × Bool) → List (Nat × List Nat)
  | [] => m
  | (op, ok) :: rest => specRun (if ok then specInsert m op.key op.val else m) rest

def specMap (l : List (AddOp × Bool)) : List (Nat × List Nat) := specRun [] l

/-- The empty leaf root written by `btree_open` when it creates a database. -/
def root0 : BNode := .node true [] [] []

/-! ### Well-formed trees

The invariant the library maintains on its node images: keys strictly
ascending (in 16-byte memcmp order, i.e. as big-endian numbers), every key
strictly between the bounds inherited from the ancestors, at most
`BTREE_MAX_KEYS` keys per node with one value per key, an internal node
having exactly one more child than keys, and every child the same height
(the tree grows only at the root). -/

/-- `lo < k` for an optional lower bound. -/
def optLtK : Option Nat → Nat → Prop
  | none, _ => True
  | some l, k => l < k

/-- `k < hi` for an optional upper bound. -/
def optKLt (k : Nat) : Option Nat → Prop
  | none => True
  | some h => k < h

/-- The key list is strictly ascending with every key in `(lo, hi)`. -/
def keysSorted : Option Nat → Option Nat → List Nat → Prop
  | _, _, [] => True
  | lo, hi, k :: ks => optLtK lo k ∧ optKLt k hi ∧ keysSorted (some k) hi ks

/-- The alternating chain `c0 k0 c1 k1 … kn c(n+1)` of an internal node:
each child satisfies the node predicate `P` on the key interval it is
responsible for, and the keys thread the bounds.  (Also forces
`values.length = keys.length` and `children.length = keys.length + 1`.) -/
def chainWF (P : Option Nat → Option Nat → BNode → Prop) :
    Option Nat → Option Nat → List Nat → List (List Nat) → List BNode → Prop
  | lo, hi, [], [], [c] => P lo hi c
  | lo, hi, k :: keys, _ :: values, c :: children =>
    P lo (some k) c ∧ optLtK lo k ∧ optKLt k hi ∧
    chainWF P (some k) hi keys values children
  | _, _, _, _, _ => False

/-- Well-formedness at height `h` with key bounds `(lo, hi)`: a leaf at
height 1, an internal node whose children form a chain of height-`h`
subtrees at height `h + 1`. -/
def WFB : Nat → Option Nat → Option Nat → BNode → Prop
  | 0, _, _, _ => False
  | 1, lo, hi, .node il keys values children =>
    il = true ∧ children = [] ∧ keysSorted lo hi keys ∧
    values.length = keys.length ∧ keys.length ≤ BTREE_MAX_KEYS
  | h + 2, lo, hi, .node il keys values children =>
    il = false ∧ keys.length ≤ BTREE_MAX_KEYS ∧
    chainWF (fun lo hi c => WFB (h + 1) lo hi c) lo hi keys values children

/-- Association-list lookup (reference semantics of `find`). -/
def alkup (k : Nat) : List (Nat × List Nat) → Option (List Nat)
  | [] => none
  | (a, b) :: rest => if k = a then some b else alkup k rest

/-- The behaviour of `btree_add_nonfull` on a non-full well-formed tree of
height `h` (see `add_nonfull_spec`): well-formedness at the same height is
preserved; on success `find` answers the new value at the key and is
unchanged elsewhere; the only error is the duplicate error, returned — with
the tree's `find` unchanged (splits performed on the way persist) — exactly
when the key is present and `replace` is off. -/
def AddSpec (h : Nat) : Prop :=
  ∀ fuel lo hi (t : BNode) (key : Nat) (val : List Nat) (replace : Bool),
    WFB h lo hi t → optLtK lo key → optKLt key hi →
    t.numkeys ≠ BTREE_MAX_KEYS → 2 * h ≤ fuel →
    WFB h lo hi (btree_add_nonfull fuel t key val replace).2 ∧
    ((btree_add_nonfull fuel t key val replace).1 = none →
      ∀ k, btree_find k (btree_add_nonfull fuel t key val replace).2 =
        if k = key then some val else btree_find k t) ∧
    (∀ e, (btree_add_nonfull fuel t key val replace).1 = some e →
      e = .dup ∧ replace = false ∧ btree_find key t ≠ none ∧
      ∀ k, btree_find k (btree_add_nonfull fuel t key val replace).2 =
        btree_find k t) ∧
    (btree_find key t = none →
      (btree_add_nonfull fuel t key val replace).1 = none) ∧
    (btree_find key t ≠ none → replace = false →
      (btree_add_nonfull fuel t key val replace).1 = some .dup)

/-! ## Disk-space allocator: state model

The file is modelled at the granularity at which the allocator accesses it:
a map from byte offset to the 64-bit value whose big-endian encoding the C
code reads/writes at that offset.  All cells the allocator uses are
mutually disjoint 8-byte fields (allocation length headers at `ptr-8`,
free-list block fields at `b`, `b+8`, `b+16`, `b+24+8*i`, header cursors at
16 and 24, the root pointer at `BTREE_HDR_ROOTPTR_POS`), and a freshly
resized region reads as zero, so the cell model is faithful.  `pread` with
a negative `off_t` (offset ≥ 2^63, which is how `btree_free(bt,0)` reads at
`(uint64_t)-8`) fails, as it does through the unistd VFS; writes are
modelled as always succeeding. -/

/-- In-memory free-list cache of one size class (`struct btree_freelist`).
`blocks` holds the block offsets oldest first (`numblocks` is
`blocks.length`, the newest block is the last element); `last_items` caches
the entry count of the newest block.  The `last_block` array of the C
struct is written but never read and is omitted. -/
structure btree_freelist : Type where
  blocks : List Nat
  last_items : Nat
deriving DecidableEq

/-- Model state of `struct btree` together with the underlying file. -/
structure Btree : Type where
  freelist : Nat → btree_freelist
  free : Nat
  freeoff : Nat
  rootptr : Nat
  disk : Nat → Nat
  filesize : Nat

/-- `a - b` on `uint64_t`. -/
def u64sub (a b : Nat) : Nat := (a + 2 ^ 64 - b % 2 ^ 64) % 2 ^ 64

/-- `btree_pread_u64` through the unistd VFS: fails when the offset is a
negative `off_t`. -/
def Btree.pread_u64 (bt : Btree) (off : Nat) : Option Nat :=
  if off < 2 ^ 63 then some (bt.disk off) else none

/-- `btree_pwrite_u64`: store the 64-bit value at the given cell. -/
def Btree.pwrite_u64 (bt : Btree) (off v : Nat) : Btree :=
  { bt with disk := fun o => if o = off then v % 2 ^ 64 else bt.disk o }

/-- Update the in-memory cache of one free-list class. -/
def Btree.setFreelist (bt : Btree) (fli : Nat) (fl : btree_freelist) : Btree :=
  { bt with freelist := fun j => if j = fli then fl else bt.freelist j }

/-- `btree_log_two`: `log = -1; while(n) { log++; n /= 2; }`.  The loop is
given 64 iterations of fuel, enough for any `uint32_t` argument (the C
function's parameter type). -/
def btree_log_two_go : Nat → Nat → Int → Int
  | 0, _, log => log
  | fuel + 1, n, log =>
    if n = 0 then log else btree_log_two_go fuel (n / 2) (log + 1)

def btree_log_two (n : Nat) : Int := btree_log_two_go 64 n (-1)

/-- `btree_freelist_index_by_exp`: `exponent - 4` (the C code asserts
`1 < exponent < 32`; every call site passes the log of a realsize ≥ 16). -/
def btree_freelist_index_by_exp (exponent : Int) : Int := exponent - 4

/-- The loop of `btree_alloc_realsize` with `uint32_t` semantics:
`realsize = 16; while (realsize < size+8) realsize *= 2;` where
`realsize *= 2` wraps mod 2^32 (the comparison is done in 64 bits because
`sizeof(uint64_t)` is a `size_t`).  `none` means the loop has not finished
within `fuel` iterations. -/
def btree_alloc_realsize_go (size : Nat) : Nat → Nat → Option Nat
  | 0, _ => none
  | fuel + 1, realsize =>
    if realsize < size + 8 then btree_alloc_realsize_go size fuel (realsize * 2 % 2 ^ 32)
    else some realsize

/-- `btree_alloc_realsize` (the argument is a `uint32_t`).  64 units of
fuel cover every terminating run of the loop: whenever the loop terminates
at all it does so within 28 doublings. -/
def btree_alloc_realsize (size : Nat) : Option Nat :=
  btree_alloc_realsize_go (size % 2 ^ 32) 64 16

/-- Result of `btree_alloc`: `ok` carries the new state and the returned
offset; `invalid` is the `errno = EINVAL; return 0` path for oversized
requests; `fail` covers every other way the C call returns 0 or -1, and
exhaustion of the model's recursion allowance. -/
inductive AllocResult : Type where
  | ok (bt : Btree) (ptr : Nat)
  | invalid
  | fail

/-- Calls of the allocator's three mutually recursive functions
(`btree_alloc` → `btree_alloc_freelist` → `btree_free` → `btree_alloc`).
They are modelled by the dispatcher `allocRun` below, structurally
recursive on its recursion allowance, so that the kernel can evaluate it;
the named wrappers after it recover the C signatures.  Return conventions:
a `.freelist` call answers `.ok bt ptr` for C's `return 0` (with
`*ptr = ptr`, 0 meaning no free-list hit) and `.fail` for -1; a `.free`
call answers `.ok bt 0` for C's 0 and `.fail` for -1; an `.alloc` call
answers `.ok bt ptr` for a successful allocation, `.invalid` for the
`errno = EINVAL` rejection, and `.fail` when the C call returns 0 for any
other reason (or the model's allowance runs out). -/
inductive AllocCall : Type where
  | alloc (bt : Btree) (size : Nat)
  | freelist (bt : Btree) (realsize : Nat)
  | free (bt : Btree) (ptr : Nat)

/-- The unlink step of `btree_alloc_freelist` (newest block empty): zero
the next pointer of the second-newest block on disk and drop the newest
block from the cache, resetting the cached count to a full block (`the
previous item must be full`).  Returns the new state and the unlinked
block's offset. -/
def btree_alloc_freelist_unlink (bt : Btree) (fli : Nat) : Btree × Nat :=
  let fl := bt.freelist fli
  let prevblock := fl.blocks.getD (fl.blocks.length - 2) 0
  let lastblock := fl.blocks.getD (fl.blocks.length - 1) 0
  let bt := bt.pwrite_u64 (prevblock + 8) 0
  let bt := bt.setFreelist fli ⟨fl.blocks.dropLast, BTREE_FREELIST_BLOCK_ITEMS⟩
  (bt, lastblock)

/-- The pop step of `btree_alloc_freelist`: decrement the cached count and
write it to the newest block's count field on disk. -/
def btree_alloc_freelist_pop (bt : Btree) (fli block : Nat) : Btree :=
  let fl := bt.freelist fli
  let bt := bt.setFreelist fli ⟨fl.blocks, fl.last_items - 1⟩
  let bt := bt.pwrite_u64 (block + 2 * 8) (fl.last_items - 1)
  bt

/-- Case analysis on an allocator result: `fOk` for `.ok`, `d` for both
failure results (rendering the C pattern of checking a call's return
against 0 or -1 and bailing out). -/
def AllocResult.elim {α : Type} (r : AllocResult) (fOk : Btree → Nat → α) (d : α) : α :=
  match r with
  | .ok bt p => fOk bt p
  | .invalid => d
  | .fail => d

/-- Body of `btree_alloc_freelist`, its call into `btree_free` abstracted
as `recFree`: try to satisfy an allocation of physical size `realsize`
from the free list of its class.  If the newest block is empty, unlink it
(the C code asserts `numblocks > 1`), and either return it directly (when
its class is the free-list blocks' own class) or hand it to `btree_free`;
then pop the top entry of the newest block.  Note that when no block was
unlinked the C code still calls `btree_free(bt,lastblock)` with
`lastblock == 0`, whose initial `pread` at `(uint64_t)-8` fails, so that
call is a no-op — its return value is ignored either way (the `.elim`
with both continuations taking the state unchanged on failure).  The C
`do-or-bail` control flow is rendered with `Option.elim` /
`AllocResult.elim` instead of `match` throughout the allocator bodies. -/
def btree_alloc_freelist_body (recFree : Btree → Nat → AllocResult)
    (bt : Btree) (realsize : Nat) : AllocResult :=
  let exp := btree_log_two realsize
  let fli := (btree_freelist_index_by_exp exp).toNat
  let fl := bt.freelist fli
  if fl.last_items = 0 ∧ fl.blocks.length = 1 then .ok bt 0
  else
    let unlinked : Option (Btree × Nat) :=
      if fl.last_items = 0 then
        -- last block empty: unlink it
        if 2 ≤ fl.blocks.length then some (btree_alloc_freelist_unlink bt fli)
        else none
      else some (bt, 0)
    unlinked.elim .fail (fun bl =>
      if bl.2 ≠ 0 ∧ exp = (BTREE_FREELIST_SIZE_EXP : Int) then
        .ok bl.1 bl.2
      else
        -- btree_free(bt,lastblock); return value ignored
        let bt := (recFree bl.1 bl.2).elim (fun bt _ => bt) bl.1
        let fl := bt.freelist fli
        (fl.blocks.getLast?).elim .fail (fun block =>
          (bt.pread_u64 (block + (2 + fl.last_items) * 8)).elim .fail (fun p =>
            .ok (btree_alloc_freelist_pop bt fli block) (p + 8))))

/-- The special-case step of `btree_free` (full newest block of the
free-list blocks' own class): the freed slot itself becomes the class's
new newest block — append it to the cache with count 0, initialize its
next/prev/count fields on disk, then (after the sync barrier) link it from
the previous newest block. -/
def btree_free_usenew (bt : Btree) (fli ptr : Nat) : Btree :=
  let fl := bt.freelist fli
  let oldlast := fl.blocks.getD (fl.blocks.length - 1) 0
  let bt := bt.setFreelist fli ⟨fl.blocks ++ [ptr], 0⟩
  let bt := bt.pwrite_u64 (ptr + 8) 0        -- next
  let bt := bt.pwrite_u64 ptr oldlast        -- prev
  let bt := bt.pwrite_u64 (ptr + 2 * 8) 0    -- numitems
  -- sync, then link it from the previous newest block
  let bt := bt.pwrite_u64 (oldlast + 8) ptr
  bt

/-- The grow step of `btree_free` (full newest block, ordinary class):
append the freshly allocated block to the cache with count 0, initialize
its fields on disk and link it, exactly as in `btree_free_usenew`. -/
def btree_free_linknew (bt : Btree) (fli newblock : Nat) : Btree :=
  let fl := bt.freelist fli
  let oldlast := fl.blocks.getD (fl.blocks.length - 1) 0
  let bt := bt.setFreelist fli ⟨fl.blocks ++ [newblock], 0⟩
  let bt := bt.pwrite_u64 (newblock + 8) 0       -- next
  let bt := bt.pwrite_u64 newblock oldlast       -- prev
  let bt := bt.pwrite_u64 (newblock + 2 * 8) 0   -- numitems
  let bt := bt.pwrite_u64 (oldlast + 8) newblock -- link
  bt

/-- The push step of `btree_free`: increment the cached count, write the
freed slot's offset (`ptr - 8`, the length header) into the newest block's
top entry slot, then write the new count (the write-only `last_block`
cache of the C struct is omitted). -/
def btree_free_additem (bt : Btree) (fli ptr : Nat) : Btree :=
  let fl := bt.freelist fli
  let li := fl.last_items + 1
  let last := fl.blocks.getD (fl.blocks.length - 1) 0
  let bt := bt.setFreelist fli ⟨fl.blocks, li⟩
  let bt := bt.pwrite_u64 (last + 8 * 3 + 8 * (li - 1)) (u64sub ptr 8)
  let bt := bt.pwrite_u64 (last + 8 * 2) li
  bt

/-- Body of `btree_free`, its call into `btree_alloc` abstracted as
`recAlloc`: read the allocation's length header, re-derive its size class,
and push the slot onto the class's newest free-list block — with the
special case for a full newest block of the free-list blocks' own class
(exponent 11), where the freed slot itself becomes the new newest block
and no allocation is performed. -/
def btree_free_body (recAlloc : Btree → Nat → AllocResult)
    (bt : Btree) (ptr : Nat) : AllocResult :=
  (bt.pread_u64 (u64sub ptr 8)).elim .fail (fun size =>
    -- `.elim .fail` on the realsize: the uint32_t loop would not terminate
    (btree_alloc_realsize size).elim .fail (fun realsize =>
      let exp := btree_log_two realsize
      let fli := (btree_freelist_index_by_exp exp).toNat
      let fl := bt.freelist fli
      if fl.last_items = BTREE_FREELIST_BLOCK_ITEMS ∧
          exp = (BTREE_FREELIST_SIZE_EXP : Int) then
        -- the freed allocation itself becomes the next free-list block
        .ok (btree_free_usenew bt fli ptr) 0
      else
        let grown : Option Btree :=
          if fl.last_items = BTREE_FREELIST_BLOCK_ITEMS then
            -- allocate a new block
            (recAlloc bt BTREE_FREELIST_BLOCK_SIZE).elim
              (fun bt newblock =>
                if newblock = 0 then none
                else some (btree_free_linknew bt fli newblock))
              none
          else some bt
        grown.elim .fail (fun bt => .ok (btree_free_additem bt fli ptr) 0)))

/-- The bump step of `btree_alloc`: when the free lists yield nothing,
resize the file by `BTREE_PREALLOC_SIZE` if `free < realsize` (by that
fixed amount only), take `ptr = freeoff`, advance the cursors
(`bt->free -= realsize` is a `uint64_t` subtraction), persist them, and
write the length header.  Returns the new state and `ptr + 8`. -/
def btree_alloc_bump (bt : Btree) (size realsize : Nat) : Btree × Nat :=
  let bt :=
    if bt.free < realsize then
      let currsize := bt.freeoff + bt.free
      { bt with filesize := currsize + BTREE_PREALLOC_SIZE,
                free := bt.free + BTREE_PREALLOC_SIZE }
    else bt
  let ptr := bt.freeoff
  let bt := { bt with free := u64sub bt.free realsize,
                      freeoff := (bt.freeoff + realsize) % 2 ^ 64 }
  let bt := bt.pwrite_u64 BTREE_HDR_FREE_POS bt.free
  let bt := bt.pwrite_u64 BTREE_HDR_FREEOFF_POS bt.freeoff
  let bt := bt.pwrite_u64 ptr size
  (bt, ptr + 8)

/-- Body of `btree_alloc`, its call into `btree_alloc_freelist` abstracted
as `recFl`: reject sizes above `(unsigned)(1<<31)`, compute the physical
size, try the free lists (fixing the stored length header of a hit if
needed), else bump-allocate at `freeoff`. -/
def btree_alloc_body (recFl : Btree → Nat → AllocResult)
    (bt : Btree) (size : Nat) : AllocResult :=
  if size > 2 ^ 31 then .invalid
  else
    -- `.elim .fail` on the realsize: the uint32_t loop would not terminate
    (btree_alloc_realsize size).elim .fail (fun realsize =>
      (recFl bt realsize).elim
        (fun bt ptr =>
          if ptr ≠ 0 then
            -- free-list hit: fix the stored length header if needed
            (bt.pread_u64 (u64sub ptr 8)).elim .fail (fun oldsize =>
              if oldsize ≠ size then .ok (bt.pwrite_u64 (u64sub ptr 8) size) ptr
              else .ok bt ptr)
          else
            let r := btree_alloc_bump bt size realsize
            .ok r.1 r.2)
        .fail)

/-- The dispatcher tying the three bodies together; `fuel` is the model's
recursion allowance (every cross-call consumes one unit; the C recursion
depth is at most 3). -/
def allocRun : Nat → AllocCall → AllocResult
  | 0, _ => .fail
  | fuel + 1, .freelist bt realsize =>
    btree_alloc_freelist_body (fun bt p => allocRun fuel (.free bt p)) bt realsize
  | fuel + 1, .free bt ptr =>
    btree_free_body (fun bt s => allocRun fuel (.alloc bt s)) bt ptr
  | fuel + 1, .alloc bt size =>
    btree_alloc_body (fun bt rs => allocRun fuel (.freelist bt rs)) bt size

/-- Decode a `.free` dispatcher answer into `btree_free`'s return value. -/
def AllocResult.toFree : AllocResult → Option Btree
  | .ok bt _ => some bt
  | _ => none

/-- Decode a `.freelist` dispatcher answer into `btree_alloc_freelist`'s
return value (state plus the `*ptr` out-parameter). -/
def AllocResult.toFreelist : AllocResult → Option (Btree × Nat)
  | .ok bt p => some (bt, p)
  | _ => none

/-- `btree_alloc` (see `allocRun`). -/
def btree_alloc (fuel : Nat) (bt : Btree) (size : Nat) : AllocResult :=
  allocRun fuel (.alloc bt size)

/-- `btree_alloc_freelist` (see `allocRun`): `some (bt, ptr)` is C's
return 0 with out-parameter `*ptr` (0 = no free-list hit). -/
def btree_alloc_freelist (fuel : Nat) (bt : Btree) (realsize : Nat) :
    Option (Btree × Nat) :=
  (allocRun fuel (.freelist bt realsize)).toFreelist

/-- `btree_free` (see `allocRun`). -/
def btree_free (fuel : Nat) (bt : Btree) (ptr : Nat) : Option Btree :=
  (allocRun fuel (.free bt ptr)).toFree

/-- `btree_alloc_size`: read back the user length stored at `ptr - 8`
(truncated to the `uint32_t` out-parameter). -/
def btree_alloc_size (bt : Btree) (ptr : Nat) : Option Nat :=
  (bt.pread_u64 (u64sub ptr 8)).map (· % 2 ^ 32)

/-! ### Create / open -/

/-- The file size `btree_create` resizes a fresh file to:
header (8*4) + free-list head blocks + root pointer + root node = 57412. -/
def btree_create_size : Nat :=
  8 * 4 + BTREE_FREELIST_COUNT * BTREE_FREELIST_BLOCK_SIZE + 8 + BTREE_NODE_SIZE

/-- The disk after `btree_create`: magic "REDBTREE00000000" in cells 0 and
8, `free = 0` at 16, `freeoff = btree_create_size` at 24, and every
free-list head block (prev, next, count) zero — which the zero-filled
resized file already provides. -/
def btree_create_disk : Nat → Nat := fun off =>
  if off = 0 then 0x5245444254524545
  else if off = 8 then 0x3030303030303030
  else if off = BTREE_HDR_FREE_POS then 0
  else if off = BTREE_HDR_FREEOFF_POS then btree_create_size
  else 0

/-- The `do { ... } while(ptr)` loop of `btree_read_metadata` for one size
class: walk the on-disk chain of `next` pointers starting at the head block
in the header, collecting the block offsets in order and the entry count of
the last block.  `fuel` bounds the walk (a corrupted disk could tie the
chain into a cycle). -/
def btree_read_metadata_walk (d : Nat → Nat) : Nat → Nat → Option btree_freelist
  | 0, _ => none
  | fuel + 1, ptr =>
    let nextptr := d (ptr + 8)
    let numitems := d (ptr + 16)
    if nextptr = 0 then some ⟨[ptr], numitems⟩
    else
      match btree_read_metadata_walk d fuel nextptr with
      | none => none
      | some fl => some ⟨ptr :: fl.blocks, fl.last_items⟩

/-- `btree_read_metadata`: load `free`, `freeoff`, the root pointer and all
28 free-list chains from the disk image. -/
def btree_read_metadata (d : Nat → Nat) (filesize : Nat) (fuel : Nat) : Option Btree :=
  let fls := (List.range BTREE_FREELIST_COUNT).map
    (fun j => btree_read_metadata_walk d fuel (32 + BTREE_FREELIST_BLOCK_SIZE * j))
  if fls.all Option.isSome then
    some { freelist := fun j => ((fls.getD j none).getD ⟨[], 0⟩),
           free := d BTREE_HDR_FREE_POS,
           freeoff := d BTREE_HDR_FREEOFF_POS,
           rootptr := d BTREE_HDR_ROOTPTR_POS,
           disk := d,
           filesize := filesize }
  else none

/-- `btree_open` with `BTREE_CREAT` on a path that does not exist:
`btree_create`, `btree_read_metadata`, then allocate the root node through
the normal allocator path, write an empty leaf node image there, and store
its offset in the header's root-pointer slot.  (The byte-level node image
is not modelled; only its placement matters to the claims.)  Returns the
resulting state; `bt.rootptr` is the offset of the root node image. -/
def btree_open_create (fuel : Nat) : Option Btree :=
  match btree_read_metadata btree_create_disk btree_create_size fuel with
  | none => none
  | some bt =>
    match btree_alloc fuel bt BTREE_NODE_SIZE with
    | .ok bt rootptr =>
      if rootptr = 0 then none
      else
        let bt := bt.pwrite_u64 BTREE_HDR_ROOTPTR_POS rootptr
        some { bt with rootptr := rootptr }
    | _ => none

/-! ### Reachable allocator states -/

/-- Allocator states reachable from a freshly created database by any
sequence of (successful) `btree_alloc` / `btree_free` calls.  The node and
value `pwrite`s the B-tree engine interleaves between allocator calls touch
neither the header cursors, nor the free-list caches, nor the file size,
so reachability of the allocator state after any `btree_add` is covered. -/
inductive Reach : Btree → Prop where
  | init (fuel : Nat) (bt : Btree) : btree_open_create fuel = some bt → Reach bt
  | alloc (fuel size : Nat) (bt bt' : Btree) (p : Nat) : Reach bt →
      btree_alloc fuel bt size = .ok bt' p → Reach bt'
  | free (fuel ptr : Nat) (bt bt' : Btree) : Reach bt →
      btree_free fuel bt ptr = some bt' → Reach bt'

/-- As `Reach`, but every allocation is at most `BTREE_PREALLOC_SIZE - 8`
bytes, so that its physical size never exceeds the pre-allocation
increment.  (Every allocation the B-tree engine itself performs is ≤ 2048
bytes plus values, which satisfy this whenever the caller's value fits.) -/
inductive ReachB : Btree → Prop where
  | init (fuel : Nat) (bt : Btree) : btree_open_create fuel = some bt → ReachB bt
  | alloc (fuel size : Nat) (bt bt' : Btree) (p : Nat) : ReachB bt →
      size ≤ BTREE_PREALLOC_SIZE - 8 →
      bt.filesize + fuel * BTREE_PREALLOC_SIZE ≤ 2 ^ 63 →
      btree_alloc fuel bt size = .ok bt' p → ReachB bt'
  | free (fuel ptr : Nat) (bt bt' : Btree) : ReachB bt →
      bt.filesize + fuel * BTREE_PREALLOC_SIZE ≤ 2 ^ 63 →
      btree_free fuel bt ptr = some bt' → ReachB bt'

/-- The allocator's cursor invariant (amended claim C6): the bump region
`freeoff ..< freeoff + free` ends exactly at the end of the file, and the
spare amount never exceeds 2^20 (one pre-allocation increment is 2^19, and
less than one physical slot of spare is left below a just-grown region). -/
def allocInv (bt : Btree) : Prop :=
  bt.free + bt.freeoff = bt.filesize ∧ bt.free ≤ 2 ^ 20

/-- The free-list shape invariant (claim C10): every size class's in-memory
chain is nonempty and its first block is the header-resident head block at
file offset `32 + class_index * BTREE_FREELIST_BLOCK_SIZE`. -/
def freelistHeads (bt : Btree) : Prop :=
  ∀ j, j < BTREE_FREELIST_COUNT →
    (bt.freelist j).blocks ≠ [] ∧
    (bt.freelist j).blocks.head? = some (32 + BTREE_FREELIST_BLOCK_SIZE * j)

/-- Number of entries a class's free list holds, through the in-memory
cache: every block except the newest is full (the C code relies on this:
on unlink it sets `last_items` to `BTREE_FREELIST_BLOCK_ITEMS` without
reading the disk), and `last_items` counts the newest block's entries. -/
def freelist_entries (bt : Btree) (fli : Nat) : Nat :=
  ((bt.freelist fli).blocks.length - 1) * BTREE_FREELIST_BLOCK_ITEMS +
    (bt.freelist fli).last_items

/-! ### Concrete states and runs used by individual claims -/

/-- Extract the state of a successful `btree_alloc`, with a default. -/
def allocStateD (r : AllocResult) (d : Btree) : Btree :=
  match r with
  | .ok bt _ => bt
  | _ => d

/-- Extract the offset returned by a successful `btree_alloc`. -/
def allocPtrD (r : AllocResult) (d : Nat) : Nat :=
  match r with
  | .ok _ p => p
  | _ => d

def AllocResult.isOk : AllocResult → Bool
  | .ok _ _ => true
  | _ => false

/-- A placeholder state (used only as the default of extractions that are
proved to succeed). -/
def btreeD : Btree :=
  { freelist := fun _ => ⟨[], 0⟩, free := 0, freeoff := 0, rootptr := 0,
    disk := fun _ => 0, filesize := 0 }

/-- The offset of the head block of size class index 7 (exponent 11):
`32 + 7·BTREE_FREELIST_BLOCK_SIZE` = 14312. -/
def head7 : Nat := 32 + BTREE_FREELIST_BLOCK_SIZE * 7

/-- Counterexample state for claim C5: size class 11 (free-list blocks'
own class) with a full head block and an empty newest block at offset
100000 whose length header records a 2040-byte allocation. -/
def c5state : Btree :=
  { freelist := fun j =>
      if j = 7 then ⟨[head7, 100000], 0⟩ else ⟨[32 + BTREE_FREELIST_BLOCK_SIZE * j], 0⟩,
    free := 0, freeoff := 200000, rootptr := 0,
    disk := fun o =>
      if o = 100000 - 8 then 2040
      else if o = head7 + 16 then BTREE_FREELIST_BLOCK_ITEMS else 0,
    filesize := 200000 }

def c5state1 : Btree := allocStateD (btree_alloc 10 c5state 2040) btreeD

def c5state2 : Btree := (btree_free 10 c5state1 100000).getD btreeD

/-- Witness state for claim C4: size class 11 with a full newest (head)
block; offset 50000 carries a 1500-byte allocation (physical size 2048). -/
def c4state : Btree :=
  { freelist := fun j =>
      if j = 7 then ⟨[head7], BTREE_FREELIST_BLOCK_ITEMS⟩
      else ⟨[32 + BTREE_FREELIST_BLOCK_SIZE * j], 0⟩,
    free := 55, freeoff := 300000, rootptr := 0,
    disk := fun o => if o = 50000 - 8 then 1500 else 0,
    filesize := 300008 }

/-- The state after `btree_open` with `BTREE_CREAT` on a fresh path. -/
def openState : Btree := (btree_open_create 10).getD btreeD

/-- `openState` after `btree_alloc(5)` (which returns offset 57932);
witness state for the amended claim C5. -/
def c5w_bt1 : Btree := allocStateD (btree_alloc 10 openState 5) btreeD

/-- Witness state for the amended claim C5's block-growing path: an
ordinary class (index 0, 16-byte slots) with a full newest (head) block;
offset 50000 carries a 5-byte allocation (physical size 16). -/
def c5g_bt1 : Btree :=
  { freelist := fun j =>
      if j = 0 then ⟨[32], BTREE_FREELIST_BLOCK_ITEMS⟩
      else ⟨[32 + BTREE_FREELIST_BLOCK_SIZE * j], 0⟩,
    free := 4096, freeoff := 300000, rootptr := 0,
    disk := fun o => if o = 50000 - 8 then 5 else 0,
    filesize := 304096 }

/-- `c5g_bt1` after the nested `btree_alloc(BTREE_FREELIST_BLOCK_SIZE)`
performed by the block-growing path of `btree_free` (it bump-allocates the
new free-list block, returning offset 300008). -/
def c5g_bt2 : Btree :=
  allocStateD (btree_alloc 2 c5g_bt1 BTREE_FREELIST_BLOCK_SIZE) btreeD

/-- `openState` after a 2^20-byte allocation (claim C6's counterexample). -/
def c6state : Btree := allocStateD (btree_alloc 10 openState (2 ^ 20)) btreeD

/-! ### Concrete B-tree runs used by individual claims

The end-to-end scenarios of the spec use 16-byte keys that are the ASCII
digit strings "001" … "008" left-padded with zero bytes; as 16-byte memcmp
blobs these are the big-endian numbers `0x303030 + d`. -/

def asciiKey (d : Nat) : Nat := 0x303030 + d

/-- Insert "001" … "008" in order, with the single-byte value `[d]` for
key `d` (claim C2, scenario 4 of the spec). -/
def c2ops : List AddOp := (List.range 8).map (fun i => ⟨asciiKey (i + 1), [i + 1], false⟩)

def c2tree : BNode := (runAdds 4 root0 c2ops).1

/-- A full single-node (root) tree holding keys "001" … "007", used to
witness claim C3's full-root case. -/
def c3tree : BNode :=
  .node true ((List.range 7).map (fun i => asciiKey (i + 1)))
    ((List.range 7).map (fun i => [i + 1])) []

/-! # Theorems -/

/-! ## Unfolding equations of the allocator dispatcher -/

theorem allocRun_zero (c : AllocCall) : allocRun 0 c = .fail := rfl

theorem allocRun_succ_alloc (fuel : Nat) (bt : Btree) (size : Nat) :
    allocRun (fuel + 1) (.alloc bt size) =
    btree_alloc_body (fun bt rs => allocRun fuel (.freelist bt rs)) bt size := rfl

theorem allocRun_succ_freelist (fuel : Nat) (bt : Btree) (realsize : Nat) :
    allocRun (fuel + 1) (.freelist bt realsize) =
    btree_alloc_freelist_body (fun bt p => allocRun fuel (.free bt p)) bt realsize := rfl

theorem allocRun_succ_free (fuel : Nat) (bt : Btree) (ptr : Nat) :
    allocRun (fuel + 1) (.free bt ptr) =
    btree_free_body (fun bt s => allocRun fuel (.alloc bt s)) bt ptr := rfl

theorem btree_alloc_def (fuel : Nat) (bt : Btree) (size : Nat) :
    btree_alloc fuel bt size = allocRun fuel (.alloc bt size) := rfl

theorem btree_alloc_freelist_def (fuel : Nat) (bt : Btree) (realsize : Nat) :
    btree_alloc_freelist fuel bt realsize =
    (allocRun fuel (.freelist bt realsize)).toFreelist := rfl

theorem btree_free_def (fuel : Nat) (bt : Btree) (ptr : Nat) :
    btree_free fuel bt ptr = (allocRun fuel (.free bt ptr)).toFree := rfl

theorem AllocResult.toFree_ok (bt : Btree) (p : Nat) :
    (AllocResult.ok bt p).toFree = some bt := rfl

theorem AllocResult.toFreelist_ok (bt : Btree) (p : Nat) :
    (AllocResult.ok bt p).toFreelist = some (bt, p) := rfl

theorem AllocResult.elim_ok {α : Type} (bt : Btree) (p : Nat)
    (f : Btree → Nat → α) (d : α) : (AllocResult.ok bt p).elim f d = f bt p := rfl

theorem AllocResult.elim_invalid {α : Type} (f : Btree → Nat → α) (d : α) :
    AllocResult.invalid.elim f d = d := rfl

theorem AllocResult.elim_fail {α : Type} (f : Btree → Nat → α) (d : α) :
    AllocResult.fail.elim f d = d := rfl

/-! ## Arithmetic helpers -/

theorem u64sub_eq_sub (a b : Nat) (hb : b ≤ a) (ha : a < 2 ^ 64) (hb64 : b < 2 ^ 64) :
    u64sub a b = a - b := by
  unfold u64sub
  rw [Nat.mod_eq_of_lt hb64]
  have h : a + 2 ^ 64 - b = (a - b) + 2 ^ 64 := by omega
  rw [h, Nat.add_mod_right, Nat.mod_eq_of_lt (by omega)]

theorem btree_log_two_go_zero : ∀ fuel log, btree_log_two_go fuel 0 log = log := by
  intro fuel log
  match fuel with
  | 0 => rfl
  | fuel + 1 => simp [btree_log_two_go]

theorem btree_log_two_go_pow (e : Nat) :
    ∀ fuel log, e < fuel → btree_log_two_go fuel (2 ^ e) log = log + 1 + e := by
  induction e with
  | zero =>
    intro fuel log hf
    match fuel with
    | fuel + 1 =>
      show btree_log_two_go (fuel + 1) 1 log = log + 1 + 0
      unfold btree_log_two_go
      rw [if_neg (by norm_num)]
      show btree_log_two_go fuel 0 (log + 1) = log + 1 + 0
      rw [btree_log_two_go_zero]
      ring
  | succ e ih =>
    intro fuel log hf
    match fuel with
    | fuel + 1 =>
      unfold btree_log_two_go
      have h2 : (2 : Nat) ^ (e + 1) ≠ 0 := by positivity
      rw [if_neg h2]
      have hdiv : 2 ^ (e + 1) / 2 = 2 ^ e := by
        rw [pow_succ, Nat.mul_div_cancel _ (by norm_num)]
      rw [hdiv, ih fuel (log + 1) (by omega)]
      push_cast
      ring

theorem btree_log_two_pow (e : Nat) (he : e < 63) : btree_log_two (2 ^ e) = e := by
  unfold btree_log_two
  rw [btree_log_two_go_pow e 64 (-1) (by omega)]
  ring

/-! ## The realsize loop -/

/-- Once the `uint32_t` `realsize` has wrapped to 0 the loop never exits. -/
theorem realsize_go_zero (s : Nat) : ∀ fuel, btree_alloc_realsize_go s fuel 0 = none := by
  intro fuel
  induction fuel with
  | zero => rfl
  | succ n ih =>
    unfold btree_alloc_realsize_go
    rw [if_pos (by omega)]
    simpa using ih

/-- For any size with `size + 8 > 2^31` the realsize loop never terminates:
`realsize` runs through `16·2^k` up to `2^31`, wraps to 0 and stays there. -/
theorem realsize_go_none_of_gt (s : Nat) (hs : 2 ^ 31 < s + 8) :
    ∀ fuel r, (r = 0 ∨ ∃ k, k ≤ 27 ∧ r = 16 * 2 ^ k) →
    btree_alloc_realsize_go s fuel r = none := by
  intro fuel
  induction fuel with
  | zero => intro r _; rfl
  | succ n ih =>
    intro r hr
    have hle : r ≤ 2 ^ 31 := by
      rcases hr with h0 | ⟨k, hk, hrk⟩
      · omega
      · subst hrk
        calc 16 * 2 ^ k ≤ 16 * 2 ^ 27 := by
              have := Nat.pow_le_pow_right (show 1 ≤ 2 by norm_num) hk
              omega
          _ = 2 ^ 31 := by norm_num
    unfold btree_alloc_realsize_go
    rw [if_pos (by omega)]
    apply ih
    rcases hr with h0 | ⟨k, hk, hrk⟩
    · left; simp [h0]
    · subst hrk
      by_cases hk27 : k = 27
      · left
        subst hk27
        norm_num
      · right
        refine ⟨k + 1, by omega, ?_⟩
        have hlt : 16 * 2 ^ (k + 1) < 2 ^ 32 := by
          calc 16 * 2 ^ (k + 1) ≤ 16 * 2 ^ 27 := by
                have := Nat.pow_le_pow_right (show 1 ≤ 2 by norm_num) (show k + 1 ≤ 27 by omega)
                omega
            _ < 2 ^ 32 := by norm_num
        rw [Nat.mod_eq_of_lt (by omega)]
        ring

/-- Full characterisation of a terminating run of the realsize loop,
starting from `16·2^k ≤ 2^31`: the result is the first `16·2^k' ≥ size+8`
at or after the start. -/
theorem realsize_go_spec (s : Nat) :
    ∀ fuel k r, 16 * 2 ^ k ≤ 2 ^ 31 →
    btree_alloc_realsize_go s fuel (16 * 2 ^ k) = some r →
    ∃ k', k ≤ k' ∧ 16 * 2 ^ k' ≤ 2 ^ 31 ∧ r = 16 * 2 ^ k' ∧
      s + 8 ≤ 16 * 2 ^ k' ∧ (∀ j, k ≤ j → j < k' → 16 * 2 ^ j < s + 8) := by
  intro fuel
  induction fuel with
  | zero => intro k r _ h; exact absurd h (by simp [btree_alloc_realsize_go])
  | succ n ih =>
    intro k r hk h
    unfold btree_alloc_realsize_go at h
    by_cases hlt : 16 * 2 ^ k < s + 8
    · rw [if_pos hlt] at h
      by_cases hk31 : 16 * 2 ^ k = 2 ^ 31
      · exfalso
        rw [hk31] at h
        have : 2 ^ 31 * 2 % 2 ^ 32 = 0 := by norm_num
        rw [this, realsize_go_zero] at h
        exact Option.noConfusion h
      · have hk2 : 16 * 2 ^ (k + 1) ≤ 2 ^ 31 := by
          have hdvd : (16 * 2 ^ k) ∣ 2 ^ 31 := by
            have : 16 * 2 ^ k = 2 ^ (k + 4) := by ring
            rw [this]
            exact pow_dvd_pow 2 (by
              by_contra hgt
              push_neg at hgt
              have := Nat.pow_le_pow_right (show 1 ≤ 2 by norm_num) (show 31 < k + 4 by omega)
              have h16 : (16 : Nat) * 2 ^ k = 2 ^ (k + 4) := by ring
              omega)
          have := Nat.le_of_dvd (by norm_num) hdvd
          rcases hdvd with ⟨c, hc⟩
          have hc2 : 2 ≤ c := by
            rcases Nat.lt_or_ge c 2 with hc1 | hc1
            · interval_cases c <;> omega
            · exact hc1
          calc 16 * 2 ^ (k + 1) = 16 * 2 ^ k * 2 := by ring
            _ ≤ 16 * 2 ^ k * c := by
                have := Nat.mul_le_mul_left (16 * 2 ^ k) hc2
                omega
            _ = 2 ^ 31 := hc.symm
        have hmod : 16 * 2 ^ k * 2 % 2 ^ 32 = 16 * 2 ^ (k + 1) := by
          have : 16 * 2 ^ k * 2 = 16 * 2 ^ (k + 1) := by ring
          rw [this, Nat.mod_eq_of_lt (by omega)]
        rw [hmod] at h
        obtain ⟨k', h1, h2, h3, h4, h5⟩ := ih (k + 1) r hk2 h
        exact ⟨k', by omega, h2, h3, h4, fun j hj hj' => by
          rcases Nat.eq_or_lt_of_le hj with hje | hjl
          · subst hje; exact hlt
          · exact h5 j (by omega) hj'⟩
    · rw [if_neg hlt] at h
      exact ⟨k, le_refl k, hk, by injection h with h; exact h.symm, by omega,
        fun j hj hj' => by omega⟩

/-- The rule of §3/§4.3 of the spec, as the code implements it for every
size whose realsize computation terminates: `btree_alloc_realsize size` is
the smallest power of two that is ≥ size+8 and not less than 16. -/
theorem btree_alloc_realsize_rule (s r : Nat) (hs : s < 2 ^ 32)
    (h : btree_alloc_realsize s = some r) :
    ∃ e, 4 ≤ e ∧ e ≤ 31 ∧ r = 2 ^ e ∧ max 16 (s + 8) ≤ r ∧
      ∀ e', 4 ≤ e' → max 16 (s + 8) ≤ 2 ^ e' → r ≤ 2 ^ e' := by
  unfold btree_alloc_realsize at h
  rw [Nat.mod_eq_of_lt hs] at h
  have h16 : (16 : Nat) = 16 * 2 ^ 0 := by norm_num
  rw [h16] at h
  obtain ⟨k', h1, h2, h3, h4, h5⟩ := realsize_go_spec s 64 0 r (by norm_num) h
  refine ⟨k' + 4, by omega, ?_, ?_, ?_, ?_⟩
  · have : 16 * 2 ^ k' = 2 ^ (k' + 4) := by ring
    have h31 : (2 : Nat) ^ 31 = 2 ^ 31 := rfl
    by_contra hgt
    push_neg at hgt
    have := Nat.pow_le_pow_right (show 1 ≤ 2 by norm_num) (show 32 ≤ k' + 4 by omega)
    omega
  · rw [h3]; ring
  · have hr16 : 16 ≤ r := by
      rw [h3]
      have := Nat.one_le_two_pow (n := k')
      omega
    omega
  · intro e' he4 hee
    by_contra hgt
    push_neg at hgt
    have hj : e' - 4 < k' := by
      rw [h3] at hgt
      have h24 : 16 * 2 ^ (e' - 4) = 2 ^ e' := by
        have : e' - 4 + 4 = e' := by omega
        calc 16 * 2 ^ (e' - 4) = 2 ^ (e' - 4 + 4) := by ring
          _ = 2 ^ e' := by rw [this]
      by_contra hge
      push_neg at hge
      have := Nat.pow_le_pow_right (show 1 ≤ 2 by norm_num) (show k' ≤ e' - 4 from hge)
      omega
    have := h5 (e' - 4) (by omega) hj
    have h24 : 16 * 2 ^ (e' - 4) = 2 ^ e' := by
      have he : e' - 4 + 4 = e' := by omega
      calc 16 * 2 ^ (e' - 4) = 2 ^ (e' - 4 + 4) := by ring
        _ = 2 ^ e' := by rw [he]
    omega

/-! ## Claim C8 -/

/-- C8, counterexample: the claim (with the spec's boundary table) says
`alloc(9)` consumes a 16-byte slot; but the physical size of a 9-byte
allocation is `btree_alloc_realsize 9 = 32` (the smallest power of two
≥ 9+8 = 17). -/
theorem c8_realsize_9_is_32 : btree_alloc_realsize 9 = some 32 ∧ (32 : Nat) ≠ 16 :=
  ⟨rfl, by decide⟩

/-- C8, amended: `alloc(8)` consumes a 16-byte slot, `alloc(9)` and
`alloc(17)` consume 32-byte slots — each the smallest power of two that is
≥ user_size + 8 and not less than 16, per `btree_alloc_realsize_rule`. -/
theorem c8_realsize_boundary_values :
    (btree_alloc_realsize 8 = some 16 ∧ max 16 (8 + 8) ≤ 16 ∧ 16 = 2 ^ 4) ∧
    (btree_alloc_realsize 9 = some 32 ∧ max 16 (9 + 8) ≤ 32 ∧ 32 = 2 ^ 5 ∧
      2 ^ 4 < max 16 (9 + 8)) ∧
    (btree_alloc_realsize 17 = some 32 ∧ max 16 (17 + 8) ≤ 32 ∧ 32 = 2 ^ 5 ∧
      2 ^ 4 < max 16 (17 + 8)) :=
  ⟨⟨rfl, by decide, by decide⟩, ⟨rfl, by decide, by decide, by decide⟩,
    ⟨rfl, by decide, by decide, by decide⟩⟩

/-! ## Claim C9 -/

/-- C9: the guard in `btree_alloc` is `size > (unsigned)(1<<31)`, i.e. it
only rejects sizes strictly above 2^31 — and for any size with
`size + 8 > 2^31` that passes it (in particular `(1<<31)-1` and `1<<31`,
which the claim says should succeed resp. fail with `invalid`), the
`uint32_t` realsize loop wraps `2^31 * 2` to 0 and never terminates, so
`btree_alloc` hangs instead of returning: the model returns `none`/`fail`
at every recursion allowance.  Sizes above 2^31 do take the `EINVAL`
path. -/
theorem c9_boundary_bug :
    (∀ fuel, btree_alloc_realsize_go (2 ^ 31 - 1) fuel 16 = none) ∧
    (∀ fuel, btree_alloc_realsize_go (2 ^ 31) fuel 16 = none) ∧
    (∀ fuel bt, btree_alloc fuel bt (2 ^ 31 - 1) = .fail) ∧
    (∀ fuel bt, btree_alloc fuel bt (2 ^ 31) = .fail) ∧
    (∀ fuel bt, btree_alloc (fuel + 1) bt (2 ^ 31 + 1) = .invalid) := by
  have hnone : ∀ s, 2 ^ 31 < s + 8 → ∀ fuel, btree_alloc_realsize_go s fuel 16 = none := by
    intro s hs fuel
    exact realsize_go_none_of_gt s hs fuel 16 (Or.inr ⟨0, by omega, by norm_num⟩)
  have h1 := hnone (2 ^ 31 - 1) (by norm_num)
  have h2 := hnone (2 ^ 31) (by norm_num)
  have hrs1 : btree_alloc_realsize (2 ^ 31 - 1) = none := by
    unfold btree_alloc_realsize
    rw [Nat.mod_eq_of_lt (by norm_num)]
    exact h1 64
  have hrs2 : btree_alloc_realsize (2 ^ 31) = none := by
    unfold btree_alloc_realsize
    rw [Nat.mod_eq_of_lt (by norm_num)]
    exact h2 64
  refine ⟨h1, h2, ?_, ?_, ?_⟩
  · intro fuel bt
    match fuel with
    | 0 => rfl
    | fuel + 1 =>
      rw [btree_alloc_def, allocRun_succ_alloc]
      unfold btree_alloc_body
      rw [if_neg (by norm_num), hrs1]
      rfl
  · intro fuel bt
    match fuel with
    | 0 => rfl
    | fuel + 1 =>
      rw [btree_alloc_def, allocRun_succ_alloc]
      unfold btree_alloc_body
      rw [if_neg (by norm_num), hrs2]
      rfl
  · intro fuel bt
    rw [btree_alloc_def, allocRun_succ_alloc]
    unfold btree_alloc_body
    rw [if_pos (by norm_num)]

/-! ## Extraction helpers -/

theorem option_eq_some_getD {α : Type} (o : Option α) (d : α) (h : o.isSome = true) :
    o = some (o.getD d) := by
  cases o with
  | none => exact absurd h (by simp)
  | some a => rfl

theorem allocResult_eq_ok (r : AllocResult) (d : Btree) (h : r.isOk = true) :
    r = .ok (allocStateD r d) (allocPtrD r 0) := by
  cases r with
  | ok bt p => rfl
  | invalid => exact absurd h (by simp [AllocResult.isOk])
  | fail => exact absurd h (by simp [AllocResult.isOk])

/-! ## Field lemmas: which state components each helper touches -/

theorem pwrite_free (bt : Btree) (off v : Nat) : (bt.pwrite_u64 off v).free = bt.free := rfl

theorem pwrite_freeoff (bt : Btree) (off v : Nat) :
    (bt.pwrite_u64 off v).freeoff = bt.freeoff := rfl

theorem pwrite_filesize (bt : Btree) (off v : Nat) :
    (bt.pwrite_u64 off v).filesize = bt.filesize := rfl

theorem pwrite_freelist (bt : Btree) (off v : Nat) :
    (bt.pwrite_u64 off v).freelist = bt.freelist := rfl

theorem setFreelist_free (bt : Btree) (fli : Nat) (fl : btree_freelist) :
    (bt.setFreelist fli fl).free = bt.free := rfl

theorem setFreelist_freeoff (bt : Btree) (fli : Nat) (fl : btree_freelist) :
    (bt.setFreelist fli fl).freeoff = bt.freeoff := rfl

theorem setFreelist_filesize (bt : Btree) (fli : Nat) (fl : btree_freelist) :
    (bt.setFreelist fli fl).filesize = bt.filesize := rfl

theorem setFreelist_disk (bt : Btree) (fli : Nat) (fl : btree_freelist) :
    (bt.setFreelist fli fl).disk = bt.disk := rfl

/-- The cursor fields that `btree_free_usenew`, `btree_free_linknew`,
`btree_free_additem`, `btree_alloc_freelist_unlink` and
`btree_alloc_freelist_pop` leave untouched: they only write free-list
cells and update the in-memory free-list cache. -/
theorem usenew_cursors (bt : Btree) (fli ptr : Nat) :
    (btree_free_usenew bt fli ptr).free = bt.free ∧
    (btree_free_usenew bt fli ptr).freeoff = bt.freeoff ∧
    (btree_free_usenew bt fli ptr).filesize = bt.filesize := ⟨rfl, rfl, rfl⟩

theorem linknew_cursors (bt : Btree) (fli newblock : Nat) :
    (btree_free_linknew bt fli newblock).free = bt.free ∧
    (btree_free_linknew bt fli newblock).freeoff = bt.freeoff ∧
    (btree_free_linknew bt fli newblock).filesize = bt.filesize := ⟨rfl, rfl, rfl⟩

theorem additem_cursors (bt : Btree) (fli ptr : Nat) :
    (btree_free_additem bt fli ptr).free = bt.free ∧
    (btree_free_additem bt fli ptr).freeoff = bt.freeoff ∧
    (btree_free_additem bt fli ptr).filesize = bt.filesize := ⟨rfl, rfl, rfl⟩

theorem unlink_cursors (bt : Btree) (fli : Nat) :
    (btree_alloc_freelist_unlink bt fli).1.free = bt.free ∧
    (btree_alloc_freelist_unlink bt fli).1.freeoff = bt.freeoff ∧
    (btree_alloc_freelist_unlink bt fli).1.filesize = bt.filesize := ⟨rfl, rfl, rfl⟩

theorem pop_cursors (bt : Btree) (fli block : Nat) :
    (btree_alloc_freelist_pop bt fli block).free = bt.free ∧
    (btree_alloc_freelist_pop bt fli block).freeoff = bt.freeoff ∧
    (btree_alloc_freelist_pop bt fli block).filesize = bt.filesize := ⟨rfl, rfl, rfl⟩

/-- How each helper transforms the free-list caches. -/
theorem freelist_additem (bt : Btree) (fli ptr j : Nat) :
    (btree_free_additem bt fli ptr).freelist j =
    if j = fli then ⟨(bt.freelist fli).blocks, (bt.freelist fli).last_items + 1⟩
    else bt.freelist j := rfl

theorem freelist_pop (bt : Btree) (fli block j : Nat) :
    (btree_alloc_freelist_pop bt fli block).freelist j =
    if j = fli then ⟨(bt.freelist fli).blocks, (bt.freelist fli).last_items - 1⟩
    else bt.freelist j := rfl

theorem freelist_usenew (bt : Btree) (fli ptr j : Nat) :
    (btree_free_usenew bt fli ptr).freelist j =
    if j = fli then ⟨(bt.freelist fli).blocks ++ [ptr], 0⟩
    else bt.freelist j := rfl

theorem freelist_linknew (bt : Btree) (fli newblock j : Nat) :
    (btree_free_linknew bt fli newblock).freelist j =
    if j = fli then ⟨(bt.freelist fli).blocks ++ [newblock], 0⟩
    else bt.freelist j := rfl

theorem freelist_unlink (bt : Btree) (fli j : Nat) :
    (btree_alloc_freelist_unlink bt fli).1.freelist j =
    if j = fli then ⟨(bt.freelist fli).blocks.dropLast, BTREE_FREELIST_BLOCK_ITEMS⟩
    else bt.freelist j := rfl

/-- What `btree_alloc_bump` does to each state component. -/
theorem bump_fields (bt : Btree) (size rs : Nat) :
    (btree_alloc_bump bt size rs).1.free =
      u64sub (if bt.free < rs then bt.free + BTREE_PREALLOC_SIZE else bt.free) rs ∧
    (btree_alloc_bump bt size rs).1.freeoff = (bt.freeoff + rs) % 2 ^ 64 ∧
    (btree_alloc_bump bt size rs).1.filesize =
      (if bt.free < rs then bt.freeoff + bt.free + BTREE_PREALLOC_SIZE
       else bt.filesize) ∧
    (btree_alloc_bump bt size rs).2 = bt.freeoff + 8 ∧
    (btree_alloc_bump bt size rs).1.freelist = bt.freelist := by
  unfold btree_alloc_bump
  by_cases h : bt.free < rs
  · refine ⟨?_, ?_, ?_, ?_, ?_⟩ <;> simp only [if_pos h] <;> rfl
  · refine ⟨?_, ?_, ?_, ?_, ?_⟩ <;> simp only [if_neg h] <;> rfl

/-- `allocInv` only looks at the cursor fields. -/
theorem allocInv_of_fields (bt bt' : Btree) (h1 : bt'.free = bt.free)
    (h2 : bt'.freeoff = bt.freeoff) (h3 : bt'.filesize = bt.filesize)
    (h : allocInv bt) : allocInv bt' := by
  unfold allocInv at *
  rw [h1, h2, h3]
  exact h

/-- Physical sizes of in-bounds requests: at least 16 and at most one
pre-allocation increment when the request fits in one. -/
theorem realsize_le_prealloc (s r : Nat) (hs : s + 8 ≤ 2 ^ 19)
    (h : btree_alloc_realsize s = some r) : 16 ≤ r ∧ r ≤ 524288 := by
  obtain ⟨e, he4, he31, hre, hmax, hmin⟩ := btree_alloc_realsize_rule s r (by omega) h
  refine ⟨le_trans (le_max_left 16 (s + 8)) hmax, ?_⟩
  have h19 := hmin 19 (by omega) (max_le (by norm_num) hs)
  calc r ≤ 2 ^ 19 := h19
  _ = 524288 := by norm_num

/-- The common tail of `btree_alloc_freelist`: pop the newest block's top
entry.  It preserves the cursor invariant and the file size. -/
theorem freelist_pop_tail (bt2 : Btree) (fli0 : Nat) (bt' : Btree) (p : Nat)
    (hI2 : allocInv bt2)
    (h : ((bt2.freelist fli0).blocks.getLast?).elim AllocResult.fail
        (fun block =>
          (bt2.pread_u64 (block + (2 + (bt2.freelist fli0).last_items) * 8)).elim
            AllocResult.fail
            (fun q => AllocResult.ok (btree_alloc_freelist_pop bt2 fli0 block) (q + 8)))
        = AllocResult.ok bt' p) :
    allocInv bt' ∧ bt'.filesize = bt2.filesize := by
  cases hgl : (bt2.freelist fli0).blocks.getLast? with
  | none =>
    rw [hgl] at h
    simp only [Option.elim_none] at h
    exact AllocResult.noConfusion h
  | some block =>
    rw [hgl] at h
    simp only [Option.elim_some] at h
    cases hq : bt2.pread_u64 (block + (2 + (bt2.freelist fli0).last_items) * 8) with
    | none =>
      rw [hq] at h
      simp only [Option.elim_none] at h
      exact AllocResult.noConfusion h
    | some q =>
      rw [hq] at h
      simp only [Option.elim_some] at h
      injection h with h4 h5
      subst h4
      exact ⟨allocInv_of_fields bt2 _ rfl rfl rfl hI2, rfl⟩

/-- Fuel induction for the cursor invariant: every successful allocator
call preserves `allocInv`, never shrinks the file, and grows it by at most
one pre-allocation increment (524288 = `BTREE_PREALLOC_SIZE` bytes) per
unit of recursion allowance — provided every explicit allocation request
fits in one increment and the file stays clear of the `off_t` sign bit. -/
theorem allocRun_allocInv : ∀ fuel : Nat,
    (∀ bt size bt' p, allocInv bt → size + 8 ≤ 2 ^ 19 →
      bt.filesize + fuel * 524288 ≤ 2 ^ 63 →
      allocRun fuel (.alloc bt size) = .ok bt' p →
      allocInv bt' ∧ bt.filesize ≤ bt'.filesize ∧
        bt'.filesize ≤ bt.filesize + fuel * 524288) ∧
    (∀ bt rs bt' p, allocInv bt →
      bt.filesize + fuel * 524288 ≤ 2 ^ 63 →
      allocRun fuel (.freelist bt rs) = .ok bt' p →
      allocInv bt' ∧ bt.filesize ≤ bt'.filesize ∧
        bt'.filesize ≤ bt.filesize + fuel * 524288) ∧
    (∀ bt ptr bt' p, allocInv bt →
      bt.filesize + fuel * 524288 ≤ 2 ^ 63 →
      allocRun fuel (.free bt ptr) = .ok bt' p →
      allocInv bt' ∧ bt.filesize ≤ bt'.filesize ∧
        bt'.filesize ≤ bt.filesize + fuel * 524288) := by
  intro fuel
  induction fuel with
  | zero =>
    refine ⟨?_, ?_, ?_⟩
    · intro bt size bt' p _ _ _ h
      rw [allocRun_zero] at h
      exact AllocResult.noConfusion h
    · intro bt rs bt' p _ _ h
      rw [allocRun_zero] at h
      exact AllocResult.noConfusion h
    · intro bt ptr bt' p _ _ h
      rw [allocRun_zero] at h
      exact AllocResult.noConfusion h
  | succ fuel ih =>
    obtain ⟨ihA, ihQ, ihR⟩ := ih
    refine ⟨?_, ?_, ?_⟩
    · -- btree_alloc
      intro bt size bt' p hI hsz hfs h
      rw [allocRun_succ_alloc] at h
      unfold btree_alloc_body at h
      rw [if_neg (by omega)] at h
      cases hre : btree_alloc_realsize size with
      | none =>
        rw [hre] at h
        simp only [Option.elim_none] at h
        exact AllocResult.noConfusion h
      | some rs =>
        rw [hre] at h
        simp only [Option.elim_some] at h
        obtain ⟨h16, hle⟩ := realsize_le_prealloc size rs hsz hre
        cases hfl : allocRun fuel (.freelist bt rs) with
        | invalid =>
          rw [hfl, AllocResult.elim_invalid] at h
          exact AllocResult.noConfusion h
        | fail =>
          rw [hfl, AllocResult.elim_fail] at h
          exact AllocResult.noConfusion h
        | ok bt1 ptr =>
          rw [hfl] at h
          simp only [AllocResult.elim_ok] at h
          obtain ⟨hI1, hg1, hg2⟩ := ihQ bt rs bt1 ptr hI (by omega) hfl
          by_cases hp0 : ptr ≠ 0
          · rw [if_pos hp0] at h
            cases hpr : bt1.pread_u64 (u64sub ptr 8) with
            | none =>
              rw [hpr] at h
              simp only [Option.elim_none] at h
              exact AllocResult.noConfusion h
            | some oldsize =>
              rw [hpr] at h
              simp only [Option.elim_some] at h
              by_cases hos : oldsize ≠ size
              · rw [if_pos hos] at h
                injection h with h4 h5
                subst h4
                refine ⟨allocInv_of_fields bt1 _ rfl rfl rfl hI1, hg1, ?_⟩
                have he : (bt1.pwrite_u64 (u64sub ptr 8) size).filesize = bt1.filesize := rfl
                omega
              · rw [if_neg hos] at h
                injection h with h4 h5
                subst h4
                exact ⟨hI1, hg1, by omega⟩
          · rw [if_neg hp0] at h
            injection h with h4 h5
            subst h4
            obtain ⟨hbf, hbo, hbs, hb2, hbl⟩ := bump_fields bt1 size rs
            obtain ⟨hs1, hf1⟩ := hI1
            simp only [show BTREE_PREALLOC_SIZE = 524288 from rfl] at hbf hbs
            refine ⟨⟨?_, ?_⟩, ?_, ?_⟩
            · show (btree_alloc_bump bt1 size rs).1.free +
                (btree_alloc_bump bt1 size rs).1.freeoff =
                (btree_alloc_bump bt1 size rs).1.filesize
              rw [hbf, hbo, hbs]
              unfold u64sub
              split_ifs <;> omega
            · show (btree_alloc_bump bt1 size rs).1.free ≤ 2 ^ 20
              rw [hbf]
              unfold u64sub
              split_ifs <;> omega
            · rw [hbs]
              split_ifs <;> omega
            · rw [hbs]
              split_ifs <;> omega
    · -- btree_alloc_freelist
      intro bt rs bt' p hI hfs h
      rw [allocRun_succ_freelist] at h
      unfold btree_alloc_freelist_body at h
      dsimp only at h
      set fli0 := (btree_freelist_index_by_exp (btree_log_two rs)).toNat with hfli0
      by_cases h1 : (bt.freelist fli0).last_items = 0 ∧ (bt.freelist fli0).blocks.length = 1
      · rw [if_pos h1] at h
        injection h with h4 h5
        subst h4
        exact ⟨hI, le_refl _, by omega⟩
      · rw [if_neg h1] at h
        by_cases h2 : (bt.freelist fli0).last_items = 0
        · rw [if_pos h2] at h
          by_cases h3 : 2 ≤ (bt.freelist fli0).blocks.length
          · rw [if_pos h3] at h
            simp only [Option.elim_some] at h
            have hI1 : allocInv (btree_alloc_freelist_unlink bt fli0).1 :=
              allocInv_of_fields bt _ rfl rfl rfl hI
            have hfs1 : (btree_alloc_freelist_unlink bt fli0).1.filesize = bt.filesize := rfl
            by_cases hc : (btree_alloc_freelist_unlink bt fli0).2 ≠ 0 ∧
                btree_log_two rs = (BTREE_FREELIST_SIZE_EXP : Int)
            · rw [if_pos hc] at h
              injection h with h4 h5
              subst h4
              exact ⟨hI1, le_of_eq hfs1.symm, by omega⟩
            · rw [if_neg hc] at h
              cases hfr : allocRun fuel
                  (.free (btree_alloc_freelist_unlink bt fli0).1
                    (btree_alloc_freelist_unlink bt fli0).2) with
              | ok btf q =>
                rw [hfr] at h
                simp only [AllocResult.elim_ok] at h
                obtain ⟨hIf, hgf1, hgf2⟩ := ihR _ _ btf q hI1 (by omega) hfr
                obtain ⟨hI', hfs'⟩ := freelist_pop_tail btf fli0 bt' p hIf h
                exact ⟨hI', by omega, by omega⟩
              | invalid =>
                rw [hfr] at h
                simp only [AllocResult.elim_invalid] at h
                obtain ⟨hI', hfs'⟩ := freelist_pop_tail _ fli0 bt' p hI1 h
                exact ⟨hI', by omega, by omega⟩
              | fail =>
                rw [hfr] at h
                simp only [AllocResult.elim_fail] at h
                obtain ⟨hI', hfs'⟩ := freelist_pop_tail _ fli0 bt' p hI1 h
                exact ⟨hI', by omega, by omega⟩
          · rw [if_neg h3] at h
            simp only [Option.elim_none] at h
            exact AllocResult.noConfusion h
        · rw [if_neg h2] at h
          simp only [Option.elim_some] at h
          rw [if_neg (by simp)] at h
          cases hfr : allocRun fuel (.free bt 0) with
          | ok btf q =>
            rw [hfr] at h
            simp only [AllocResult.elim_ok] at h
            obtain ⟨hIf, hgf1, hgf2⟩ := ihR _ _ btf q hI (by omega) hfr
            obtain ⟨hI', hfs'⟩ := freelist_pop_tail btf fli0 bt' p hIf h
            exact ⟨hI', by omega, by omega⟩
          | invalid =>
            rw [hfr] at h
            simp only [AllocResult.elim_invalid] at h
            obtain ⟨hI', hfs'⟩ := freelist_pop_tail _ fli0 bt' p hI h
            exact ⟨hI', by omega, by omega⟩
          | fail =>
            rw [hfr] at h
            simp only [AllocResult.elim_fail] at h
            obtain ⟨hI', hfs'⟩ := freelist_pop_tail _ fli0 bt' p hI h
            exact ⟨hI', by omega, by omega⟩
    · -- btree_free
      intro bt ptr bt' p hI hfs h
      rw [allocRun_succ_free] at h
      unfold btree_free_body at h
      dsimp only at h
      cases hpr : bt.pread_u64 (u64sub ptr 8) with
      | none =>
        rw [hpr] at h
        simp only [Option.elim_none] at h
        exact AllocResult.noConfusion h
      | some size =>
        rw [hpr] at h
        simp only [Option.elim_some] at h
        cases hre : btree_alloc_realsize size with
        | none =>
          rw [hre] at h
          simp only [Option.elim_none] at h
          exact AllocResult.noConfusion h
        | some rsz =>
          rw [hre] at h
          simp only [Option.elim_some] at h
          set fli0 := (btree_freelist_index_by_exp (btree_log_two rsz)).toNat with hfli0
          by_cases hsp : (bt.freelist fli0).last_items = BTREE_FREELIST_BLOCK_ITEMS ∧
              btree_log_two rsz = (BTREE_FREELIST_SIZE_EXP : Int)
          · rw [if_pos hsp] at h
            injection h with h4 h5
            subst h4
            refine ⟨allocInv_of_fields bt _ rfl rfl rfl hI, le_of_eq rfl, ?_⟩
            have he : (btree_free_usenew bt fli0 ptr).filesize = bt.filesize := rfl
            omega
          · rw [if_neg hsp] at h
            by_cases hfull : (bt.freelist fli0).last_items = BTREE_FREELIST_BLOCK_ITEMS
            · rw [if_pos hfull] at h
              cases hal : allocRun fuel (.alloc bt BTREE_FREELIST_BLOCK_SIZE) with
              | invalid =>
                rw [hal] at h
                simp only [AllocResult.elim_invalid, Option.elim_none] at h
                exact AllocResult.noConfusion h
              | fail =>
                rw [hal] at h
                simp only [AllocResult.elim_fail, Option.elim_none] at h
                exact AllocResult.noConfusion h
              | ok bta nb =>
                rw [hal] at h
                simp only [AllocResult.elim_ok] at h
                by_cases hnb : nb = 0
                · rw [if_pos hnb] at h
                  simp only [Option.elim_none] at h
                  exact AllocResult.noConfusion h
                · rw [if_neg hnb] at h
                  simp only [Option.elim_some] at h
                  injection h with h4 h5
                  subst h4
                  obtain ⟨hIa, hga1, hga2⟩ :=
                    ihA bt BTREE_FREELIST_BLOCK_SIZE bta nb hI (by decide) (by omega) hal
                  refine ⟨allocInv_of_fields bta _ rfl rfl rfl hIa, ?_, ?_⟩
                  · have he : (btree_free_additem (btree_free_linknew bta fli0 nb)
                        fli0 ptr).filesize = bta.filesize := rfl
                    omega
                  · have he : (btree_free_additem (btree_free_linknew bta fli0 nb)
                        fli0 ptr).filesize = bta.filesize := rfl
                    omega
            · rw [if_neg hfull] at h
              simp only [Option.elim_some] at h
              injection h with h4 h5
              subst h4
              refine ⟨allocInv_of_fields bt _ rfl rfl rfl hI, le_of_eq rfl, ?_⟩
              have he : (btree_free_additem bt fli0 ptr).filesize = bt.filesize := rfl
              omega

/-- On the freshly created disk image every class's chain walk finds the
single, empty head block. -/
theorem walk_create (fuel j : Nat) :
    btree_read_metadata_walk btree_create_disk (fuel + 1)
      (32 + BTREE_FREELIST_BLOCK_SIZE * j) =
    some ⟨[32 + BTREE_FREELIST_BLOCK_SIZE * j], 0⟩ := by
  have hBS : BTREE_FREELIST_BLOCK_SIZE = 2040 := rfl
  unfold btree_read_metadata_walk
  have h1 : btree_create_disk (32 + BTREE_FREELIST_BLOCK_SIZE * j + 8) = 0 := by
    unfold btree_create_disk
    rw [hBS]
    rw [if_neg (by omega), if_neg (by omega),
      if_neg (by simp only [BTREE_HDR_FREE_POS]; omega),
      if_neg (by simp only [BTREE_HDR_FREEOFF_POS]; omega)]
  have h2 : btree_create_disk (32 + BTREE_FREELIST_BLOCK_SIZE * j + 16) = 0 := by
    unfold btree_create_disk
    rw [hBS]
    rw [if_neg (by omega), if_neg (by omega),
      if_neg (by simp only [BTREE_HDR_FREE_POS]; omega),
      if_neg (by simp only [BTREE_HDR_FREEOFF_POS]; omega)]
  rw [h1, h2]
  rw [if_pos rfl]

/-- `btree_read_metadata` of the freshly created image: cursors `free = 0`,
`freeoff = 57412` (= the created file's size), and every class's cache is
its own empty head block. -/
theorem read_metadata_create (fuel : Nat) (mbt : Btree)
    (h : btree_read_metadata btree_create_disk btree_create_size fuel = some mbt) :
    mbt.free = 0 ∧ mbt.freeoff = 57412 ∧ mbt.filesize = 57412 ∧
    ∀ j, j < 28 → mbt.freelist j = ⟨[32 + BTREE_FREELIST_BLOCK_SIZE * j], 0⟩ := by
  cases fuel with
  | zero =>
    rw [show btree_read_metadata btree_create_disk btree_create_size 0 = none from rfl] at h
    exact Option.noConfusion h
  | succ f =>
    unfold btree_read_metadata at h
    rw [if_pos (by
      simp only [List.all_eq_true, List.mem_map, List.mem_range]
      rintro o ⟨j, hj, rfl⟩
      rw [walk_create f j]
      rfl)] at h
    injection h with h2
    subst h2
    refine ⟨rfl, rfl, rfl, ?_⟩
    intro j hj
    show ((((List.range BTREE_FREELIST_COUNT).map
        (fun j => btree_read_metadata_walk btree_create_disk (f + 1)
          (32 + BTREE_FREELIST_BLOCK_SIZE * j))).getD j none).getD ⟨[], 0⟩) = _
    rw [List.getD_eq_getElem?_getD, List.getElem?_map,
      List.getElem?_range (show j < BTREE_FREELIST_COUNT from hj)]
    simp only [Option.map_some']
    rw [walk_create f j]
    rfl

set_option maxRecDepth 4000 in
/-- The state `btree_open` (with create) hands back: concrete cursors and
file size (the root-node allocation triggered one pre-allocation), with
every free-list class still exactly its own empty head block. -/
theorem open_create_spec (fuel : Nat) (bt : Btree)
    (h : btree_open_create fuel = some bt) :
    bt.free = 523776 ∧ bt.freeoff = 57924 ∧ bt.filesize = 581700 ∧
    ∀ j, j < 28 → bt.freelist j = ⟨[32 + BTREE_FREELIST_BLOCK_SIZE * j], 0⟩ := by
  have hre512 : btree_alloc_realsize BTREE_NODE_SIZE = some 512 := by decide
  unfold btree_open_create at h
  cases hm : btree_read_metadata btree_create_disk btree_create_size fuel with
  | none =>
    rw [hm] at h
    exact Option.noConfusion h
  | some mbt =>
    rw [hm] at h
    dsimp only at h
    obtain ⟨hfree, hfoff, hfs, hflj⟩ := read_metadata_create fuel mbt hm
    cases hal : btree_alloc fuel mbt BTREE_NODE_SIZE with
    | invalid =>
      rw [hal] at h
      simp at h
    | fail =>
      rw [hal] at h
      simp at h
    | ok bta rp =>
      rw [hal] at h
      dsimp only at h
      -- pin down the allocation's result
      cases fuel with
      | zero =>
        rw [btree_alloc_def, allocRun_zero] at hal
        exact AllocResult.noConfusion hal
      | succ f =>
        rw [btree_alloc_def, allocRun_succ_alloc] at hal
        unfold btree_alloc_body at hal
        rw [if_neg (by decide)] at hal
        rw [hre512] at hal
        simp only [Option.elim_some] at hal
        cases f with
        | zero =>
          rw [allocRun_zero, AllocResult.elim_fail] at hal
          exact AllocResult.noConfusion hal
        | succ g =>
          have hfl : allocRun (g + 1) (.freelist mbt 512) = .ok mbt 0 := by
            rw [allocRun_succ_freelist]
            unfold btree_alloc_freelist_body
            dsimp only
            rw [show ((btree_freelist_index_by_exp (btree_log_two 512)).toNat) = 5 from rfl]
            rw [hflj 5 (by norm_num)]
            rw [if_pos ⟨rfl, rfl⟩]
          rw [hfl] at hal
          simp only [AllocResult.elim_ok] at hal
          rw [if_neg (by simp)] at hal
          injection hal with ha1 ha2
          subst ha1
          subst ha2
          obtain ⟨hbf, hbo, hbs, hb2, hbl⟩ := bump_fields mbt BTREE_NODE_SIZE 512
          rw [hb2, hfoff] at h
          rw [if_neg (by norm_num)] at h
          injection h with h2
          subst h2
          refine ⟨?_, ?_, ?_, ?_⟩
          · dsimp only
            rw [pwrite_free, hbf, hfree]
            rw [if_pos (by norm_num)]
            decide
          · dsimp only
            rw [pwrite_freeoff, hbo, hfoff]
            norm_num
          · dsimp only
            rw [pwrite_filesize, hbs, hfree, hfoff]
            rw [if_pos (by norm_num)]
            decide
          · intro j hj
            dsimp only
            rw [pwrite_freelist, hbl]
            exact hflj j hj

/-- Every `ReachB`-reachable state satisfies the cursor invariant. -/
theorem reachB_allocInv (bt : Btree) (h : ReachB bt) : allocInv bt := by
  induction h with
  | init fuel bt h0 =>
    obtain ⟨h1, h2, h3, _⟩ := open_create_spec fuel bt h0
    unfold allocInv
    rw [h1, h2, h3]
    norm_num
  | alloc fuel size bt bt' p hR hsz hfs hal ih =>
    rw [btree_alloc_def] at hal
    obtain ⟨hI, _, _⟩ := (allocRun_allocInv fuel).1 bt size bt' p ih
      (by
        have hP : BTREE_PREALLOC_SIZE = 524288 := rfl
        omega)
      (by rw [show BTREE_PREALLOC_SIZE = 524288 from rfl] at hfs; exact hfs)
      hal
    exact hI
  | free fuel ptr bt bt' hR hfs hfr ih =>
    rw [btree_free_def] at hfr
    cases hrun : allocRun fuel (.free bt ptr) with
    | ok bt2 q =>
      rw [hrun, AllocResult.toFree_ok] at hfr
      injection hfr with he
      subst he
      obtain ⟨hI, _, _⟩ := (allocRun_allocInv fuel).2.2 bt ptr bt2 q ih
        (by rw [show BTREE_PREALLOC_SIZE = 524288 from rfl] at hfs; exact hfs)
        hrun
      exact hI
    | invalid =>
      rw [hrun] at hfr
      exact Option.noConfusion hfr
    | fail =>
      rw [hrun] at hfr
      exact Option.noConfusion hfr

/-! ## Claim C6 (amended theorem) -/

/-- C6 (amended): at every state reachable from open/create by successful
`btree_alloc` and `btree_free` calls — provided each allocation request is
at most `BTREE_PREALLOC_SIZE - 8` bytes (every node or free-list block the
engine allocates is far below this) and the file stays clear of the
`off_t` sign bit — the header cursors satisfy
`free + freeoff ≤ filesize`, and in fact the equality
`free + freeoff = filesize`: the bump region lies inside the file and
ends exactly at its end.  (Without the size restriction the claim is
false: see the counterexample, where a single oversized allocation makes
`free + freeoff` overrun the file size.) -/
theorem c6_cursor_equality_amended (bt : Btree) (h : ReachB bt) :
    bt.free + bt.freeoff ≤ bt.filesize ∧ bt.free + bt.freeoff = bt.filesize :=
  have hI := reachB_allocInv bt h
  ⟨le_of_eq hI.1, hI.1⟩

/-- Witness for `c6_cursor_equality_amended` at the freshly opened state. -/
theorem c6_cursor_equality_amended_witness :
    openState.free + openState.freeoff ≤ openState.filesize ∧
    openState.free + openState.freeoff = openState.filesize :=
  c6_cursor_equality_amended openState
    (ReachB.init 10 openState
      (option_eq_some_getD (btree_open_create 10) btreeD (by decide)))

/-! ## The free-list shape invariant (claim C10) -/

theorem head_append_single {α : Type} (l : List α) (x : α) (h : l ≠ []) :
    (l ++ [x]).head? = l.head? := by
  cases l with
  | nil => exact absurd rfl h
  | cons a t => rfl

theorem append_single_ne_nil {α : Type} (l : List α) (x : α) : l ++ [x] ≠ [] := by
  cases l <;> simp

theorem dropLast_head_of_two_le {α : Type} (l : List α) (h : 2 ≤ l.length) :
    l.dropLast ≠ [] ∧ l.dropLast.head? = l.head? := by
  rcases l with _ | ⟨a, _ | ⟨b, t⟩⟩
  · simp at h
  · simp at h
  · exact ⟨by simp, rfl⟩

theorem freelistHeads_pop (bt : Btree) (fli block : Nat) (h : freelistHeads bt) :
    freelistHeads (btree_alloc_freelist_pop bt fli block) := by
  intro j hj
  rw [freelist_pop]
  by_cases hjf : j = fli
  · rw [if_pos hjf]
    subst hjf
    exact h j hj
  · rw [if_neg hjf]
    exact h j hj

theorem freelistHeads_additem (bt : Btree) (fli ptr : Nat) (h : freelistHeads bt) :
    freelistHeads (btree_free_additem bt fli ptr) := by
  intro j hj
  rw [freelist_additem]
  by_cases hjf : j = fli
  · rw [if_pos hjf]
    subst hjf
    exact h j hj
  · rw [if_neg hjf]
    exact h j hj

theorem freelistHeads_usenew (bt : Btree) (fli ptr : Nat) (h : freelistHeads bt) :
    freelistHeads (btree_free_usenew bt fli ptr) := by
  intro j hj
  rw [freelist_usenew]
  by_cases hjf : j = fli
  · rw [if_pos hjf]
    subst hjf
    obtain ⟨h1, h2⟩ := h j hj
    exact ⟨append_single_ne_nil _ _, by rw [head_append_single _ _ h1]; exact h2⟩
  · rw [if_neg hjf]
    exact h j hj

theorem freelistHeads_linknew (bt : Btree) (fli newblock : Nat) (h : freelistHeads bt) :
    freelistHeads (btree_free_linknew bt fli newblock) := by
  intro j hj
  rw [freelist_linknew]
  by_cases hjf : j = fli
  · rw [if_pos hjf]
    subst hjf
    obtain ⟨h1, h2⟩ := h j hj
    exact ⟨append_single_ne_nil _ _, by rw [head_append_single _ _ h1]; exact h2⟩
  · rw [if_neg hjf]
    exact h j hj

/-- Unlinking the newest block (which the C code only does when the chain
has at least two blocks) keeps the chain nonempty and its head unchanged:
the head block is never the one unlinked. -/
theorem freelistHeads_unlink (bt : Btree) (fli : Nat)
    (hlen : 2 ≤ (bt.freelist fli).blocks.length) (h : freelistHeads bt) :
    freelistHeads (btree_alloc_freelist_unlink bt fli).1 := by
  intro j hj
  rw [freelist_unlink]
  by_cases hjf : j = fli
  · rw [if_pos hjf]
    subst hjf
    obtain ⟨hne, hhd⟩ := dropLast_head_of_two_le _ hlen
    exact ⟨hne, by rw [hhd]; exact (h j hj).2⟩
  · rw [if_neg hjf]
    exact h j hj

theorem freelistHeads_bump (bt : Btree) (size rs : Nat) (h : freelistHeads bt) :
    freelistHeads (btree_alloc_bump bt size rs).1 := by
  intro j hj
  rw [(bump_fields bt size rs).2.2.2.2]
  exact h j hj

theorem freelistHeads_pwrite (bt : Btree) (off v : Nat) (h : freelistHeads bt) :
    freelistHeads (bt.pwrite_u64 off v) := by
  intro j hj
  rw [pwrite_freelist]
  exact h j hj

/-- The pop tail of `btree_alloc_freelist` preserves the shape invariant. -/
theorem freelist_pop_tail_heads (bt2 : Btree) (fli0 : Nat) (bt' : Btree) (p : Nat)
    (hH : freelistHeads bt2)
    (h : ((bt2.freelist fli0).blocks.getLast?).elim AllocResult.fail
        (fun block =>
          (bt2.pread_u64 (block + (2 + (bt2.freelist fli0).last_items) * 8)).elim
            AllocResult.fail
            (fun q => AllocResult.ok (btree_alloc_freelist_pop bt2 fli0 block) (q + 8)))
        = AllocResult.ok bt' p) :
    freelistHeads bt' := by
  cases hgl : (bt2.freelist fli0).blocks.getLast? with
  | none =>
    rw [hgl] at h
    simp only [Option.elim_none] at h
    exact AllocResult.noConfusion h
  | some block =>
    rw [hgl] at h
    simp only [Option.elim_some] at h
    cases hq : bt2.pread_u64 (block + (2 + (bt2.freelist fli0).last_items) * 8) with
    | none =>
      rw [hq] at h
      simp only [Option.elim_none] at h
      exact AllocResult.noConfusion h
    | some q =>
      rw [hq] at h
      simp only [Option.elim_some] at h
      injection h with h4 h5
      subst h4
      exact freelistHeads_pop bt2 fli0 block hH

/-- Fuel induction for the shape invariant: every successful allocator
call preserves `freelistHeads`. -/
theorem allocRun_freelistHeads : ∀ fuel : Nat,
    (∀ bt size bt' p, freelistHeads bt →
      allocRun fuel (.alloc bt size) = .ok bt' p → freelistHeads bt') ∧
    (∀ bt rs bt' p, freelistHeads bt →
      allocRun fuel (.freelist bt rs) = .ok bt' p → freelistHeads bt') ∧
    (∀ bt ptr bt' p, freelistHeads bt →
      allocRun fuel (.free bt ptr) = .ok bt' p → freelistHeads bt') := by
  intro fuel
  induction fuel with
  | zero =>
    refine ⟨?_, ?_, ?_⟩ <;>
      · intro bt x bt' p _ h
        rw [allocRun_zero] at h
        exact AllocResult.noConfusion h
  | succ fuel ih =>
    obtain ⟨ihA, ihQ, ihR⟩ := ih
    refine ⟨?_, ?_, ?_⟩
    · -- btree_alloc
      intro bt size bt' p hH h
      rw [allocRun_succ_alloc] at h
      unfold btree_alloc_body at h
      by_cases hsz : size > 2 ^ 31
      · rw [if_pos hsz] at h
        exact AllocResult.noConfusion h
      · rw [if_neg hsz] at h
        cases hre : btree_alloc_realsize size with
        | none =>
          rw [hre] at h
          simp only [Option.elim_none] at h
          exact AllocResult.noConfusion h
        | some rs =>
          rw [hre] at h
          simp only [Option.elim_some] at h
          cases hfl : allocRun fuel (.freelist bt rs) with
          | invalid =>
            rw [hfl, AllocResult.elim_invalid] at h
            exact AllocResult.noConfusion h
          | fail =>
            rw [hfl, AllocResult.elim_fail] at h
            exact AllocResult.noConfusion h
          | ok bt1 ptr =>
            rw [hfl] at h
            simp only [AllocResult.elim_ok] at h
            have hH1 := ihQ bt rs bt1 ptr hH hfl
            by_cases hp0 : ptr ≠ 0
            · rw [if_pos hp0] at h
              cases hpr : bt1.pread_u64 (u64sub ptr 8) with
              | none =>
                rw [hpr] at h
                simp only [Option.elim_none] at h
                exact AllocResult.noConfusion h
              | some oldsize =>
                rw [hpr] at h
                simp only [Option.elim_some] at h
                by_cases hos : oldsize ≠ size
                · rw [if_pos hos] at h
                  injection h with h4 h5
                  subst h4
                  exact freelistHeads_pwrite bt1 _ _ hH1
                · rw [if_neg hos] at h
                  injection h with h4 h5
                  subst h4
                  exact hH1
            · rw [if_neg hp0] at h
              injection h with h4 h5
              subst h4
              exact freelistHeads_bump bt1 size rs hH1
    · -- btree_alloc_freelist
      intro bt rs bt' p hH h
      rw [allocRun_succ_freelist] at h
      unfold btree_alloc_freelist_body at h
      dsimp only at h
      set fli0 := (btree_freelist_index_by_exp (btree_log_two rs)).toNat with hfli0
      by_cases h1 : (bt.freelist fli0).last_items = 0 ∧ (bt.freelist fli0).blocks.length = 1
      · rw [if_pos h1] at h
        injection h with h4 h5
        subst h4
        exact hH
      · rw [if_neg h1] at h
        by_cases h2 : (bt.freelist fli0).last_items = 0
        · rw [if_pos h2] at h
          by_cases h3 : 2 ≤ (bt.freelist fli0).blocks.length
          · rw [if_pos h3] at h
            simp only [Option.elim_some] at h
            have hH1 : freelistHeads (btree_alloc_freelist_unlink bt fli0).1 :=
              freelistHeads_unlink bt fli0 h3 hH
            by_cases hc : (btree_alloc_freelist_unlink bt fli0).2 ≠ 0 ∧
                btree_log_two rs = (BTREE_FREELIST_SIZE_EXP : Int)
            · rw [if_pos hc] at h
              injection h with h4 h5
              subst h4
              exact hH1
            · rw [if_neg hc] at h
              cases hfr : allocRun fuel
                  (.free (btree_alloc_freelist_unlink bt fli0).1
                    (btree_alloc_freelist_unlink bt fli0).2) with
              | ok btf q =>
                rw [hfr] at h
                simp only [AllocResult.elim_ok] at h
                exact freelist_pop_tail_heads btf fli0 bt' p (ihR _ _ btf q hH1 hfr) h
              | invalid =>
                rw [hfr] at h
                simp only [AllocResult.elim_invalid] at h
                exact freelist_pop_tail_heads _ fli0 bt' p hH1 h
              | fail =>
                rw [hfr] at h
                simp only [AllocResult.elim_fail] at h
                exact freelist_pop_tail_heads _ fli0 bt' p hH1 h
          · rw [if_neg h3] at h
            simp only [Option.elim_none] at h
            exact AllocResult.noConfusion h
        · rw [if_neg h2] at h
          simp only [Option.elim_some] at h
          rw [if_neg (by simp)] at h
          cases hfr : allocRun fuel (.free bt 0) with
          | ok btf q =>
            rw [hfr] at h
            simp only [AllocResult.elim_ok] at h
            exact freelist_pop_tail_heads btf fli0 bt' p (ihR _ _ btf q hH hfr) h
          | invalid =>
            rw [hfr] at h
            simp only [AllocResult.elim_invalid] at h
            exact freelist_pop_tail_heads _ fli0 bt' p hH h
          | fail =>
            rw [hfr] at h
            simp only [AllocResult.elim_fail] at h
            exact freelist_pop_tail_heads _ fli0 bt' p hH h
    · -- btree_free
      intro bt ptr bt' p hH h
      rw [allocRun_succ_free] at h
      unfold btree_free_body at h
      dsimp only at h
      cases hpr : bt.pread_u64 (u64sub ptr 8) with
      | none =>
        rw [hpr] at h
        simp only [Option.elim_none] at h
        exact AllocResult.noConfusion h
      | some size =>
        rw [hpr] at h
        simp only [Option.elim_some] at h
        cases hre : btree_alloc_realsize size with
        | none =>
          rw [hre] at h
          simp only [Option.elim_none] at h
          exact AllocResult.noConfusion h
        | some rsz =>
          rw [hre] at h
          simp only [Option.elim_some] at h
          set fli0 := (btree_freelist_index_by_exp (btree_log_two rsz)).toNat with hfli0
          by_cases hsp : (bt.freelist fli0).last_items = BTREE_FREELIST_BLOCK_ITEMS ∧
              btree_log_two rsz = (BTREE_FREELIST_SIZE_EXP : Int)
          · rw [if_pos hsp] at h
            injection h with h4 h5
            subst h4
            exact freelistHeads_usenew bt fli0 ptr hH
          · rw [if_neg hsp] at h
            by_cases hfull : (bt.freelist fli0).last_items = BTREE_FREELIST_BLOCK_ITEMS
            · rw [if_pos hfull] at h
              cases hal : allocRun fuel (.alloc bt BTREE_FREELIST_BLOCK_SIZE) with
              | invalid =>
                rw [hal] at h
                simp only [AllocResult.elim_invalid, Option.elim_none] at h
                exact AllocResult.noConfusion h
              | fail =>
                rw [hal] at h
                simp only [AllocResult.elim_fail, Option.elim_none] at h
                exact AllocResult.noConfusion h
              | ok bta nb =>
                rw [hal] at h
                simp only [AllocResult.elim_ok] at h
                by_cases hnb : nb = 0
                · rw [if_pos hnb] at h
                  simp only [Option.elim_none] at h
                  exact AllocResult.noConfusion h
                · rw [if_neg hnb] at h
                  simp only [Option.elim_some] at h
                  injection h with h4 h5
                  subst h4
                  exact freelistHeads_additem _ fli0 ptr
                    (freelistHeads_linknew bta fli0 nb
                      (ihA bt BTREE_FREELIST_BLOCK_SIZE bta nb hH hal))
            · rw [if_neg hfull] at h
              simp only [Option.elim_some] at h
              injection h with h4 h5
              subst h4
              exact freelistHeads_additem bt fli0 ptr hH

/-- Every `Reach`-reachable state satisfies the shape invariant. -/
theorem reach_freelistHeads (bt : Btree) (h : Reach bt) : freelistHeads bt := by
  induction h with
  | init fuel bt h0 =>
    obtain ⟨_, _, _, hflj⟩ := open_create_spec fuel bt h0
    intro j hj
    rw [hflj j hj]
    exact ⟨by simp, rfl⟩
  | alloc fuel size bt bt' p hR hal ih =>
    rw [btree_alloc_def] at hal
    exact (allocRun_freelistHeads fuel).1 bt size bt' p ih hal
  | free fuel ptr bt bt' hR hfr ih =>
    rw [btree_free_def] at hfr
    cases hrun : allocRun fuel (.free bt ptr) with
    | ok bt2 q =>
      rw [hrun, AllocResult.toFree_ok] at hfr
      injection hfr with he
      subst he
      exact (allocRun_freelistHeads fuel).2.2 bt ptr bt2 q ih hrun
    | invalid =>
      rw [hrun] at hfr
      exact Option.noConfusion hfr
    | fail =>
      rw [hrun] at hfr
      exact Option.noConfusion hfr

/-! ## Claim C7 -/

/-- C7, counterexample: after create, the root node image is *not* at
`H+8` (the slot the header layout table reserves for it): the root pointer
written into the header references offset 57420 = H+268 instead. -/
theorem c7_rootptr_counterexample :
    (btree_open_create 10).map Btree.rootptr = some 57420 ∧
    57420 ≠ BTREE_HDR_ROOTPTR_POS + 8 :=
  ⟨by decide, by decide⟩

/-- C7, amended: `btree_create` reserves `H+8 .. H+8+N` for the root node
and puts `freeoff` *after* it, but `btree_open` then allocates the root
through the normal allocator path, which bump-allocates at `freeoff`; so
the initial root node image actually occupies
`H+8+N+8 .. H+8+2N+8` (the 8 being its allocation length header), the
reserved slot stays unused, and the header root pointer references
`H+8+N+8 = 57420`, inside the resized file. -/
theorem c7_rootptr_location :
    (btree_open_create 10).map
        (fun bt => (bt.rootptr, bt.disk BTREE_HDR_ROOTPTR_POS, bt.filesize)) =
      some (57420, 57420, 581700) ∧
    57420 = BTREE_HDR_ROOTPTR_POS + 8 + BTREE_NODE_SIZE + 8 ∧
    57420 + BTREE_NODE_SIZE ≤ 581700 :=
  ⟨by decide, by decide, by decide⟩

/-! ## Claim C6 -/

/-- C6, counterexample: a single 1 MiB allocation on a freshly created
database reaches a state where `free + freeoff` exceeds the file size:
`free < realsize` triggers a resize by the *fixed* `BTREE_PREALLOC_SIZE`
(512 KiB), which is smaller than the 2 MiB physical size, so
`bt->free -= realsize` wraps around the `uint64_t` and `freeoff` runs past
the end of the file. -/
theorem c6_bump_overruns_file :
    Reach c6state ∧ c6state.filesize < c6state.free + c6state.freeoff := by
  constructor
  · have h0 : btree_open_create 10 = some openState :=
      option_eq_some_getD _ btreeD (by decide)
    have h1 := allocResult_eq_ok (btree_alloc 10 openState (2 ^ 20)) btreeD (by decide)
    exact Reach.alloc 10 (2 ^ 20) openState c6state
      (allocPtrD (btree_alloc 10 openState (2 ^ 20)) 0)
      (Reach.init 10 openState h0) h1
  · decide

/-! ## Claim C4 -/

/-- C4: in any state whose class-11 (free-list-block-sized) newest block is
full, freeing an allocation of physical size 2048 takes the special-case
path: no allocation happens (`free`, `freeoff`, the file size and every
other class are untouched), and the freed slot itself becomes the class's
new newest block, initialized with count 0, prev = the previous newest
block and next = 0, and linked by overwriting the previous newest block's
next pointer. -/
theorem c4_freelist_block_special_case
    (bt : Btree) (ptr size oldlast fuel : Nat)
    (hp8 : 8 ≤ ptr) (hpb : ptr ≤ 2 ^ 62)
    (hread : bt.disk (ptr - 8) = size)
    (hsz : btree_alloc_realsize size = some 2048)
    (hfull : (bt.freelist 7).last_items = BTREE_FREELIST_BLOCK_ITEMS)
    (holdlast : (bt.freelist 7).blocks.getD ((bt.freelist 7).blocks.length - 1) 0 = oldlast)
    (hol64 : oldlast < 2 ^ 64)
    (hd1 : oldlast ≠ ptr) (hd2 : oldlast + 8 ≠ ptr) (hd3 : oldlast + 8 ≠ ptr + 16) :
    ∃ bt', btree_free (fuel + 1) bt ptr = some bt' ∧
      bt'.free = bt.free ∧ bt'.freeoff = bt.freeoff ∧ bt'.filesize = bt.filesize ∧
      (bt'.freelist 7).blocks = (bt.freelist 7).blocks ++ [ptr] ∧
      (bt'.freelist 7).last_items = 0 ∧
      (∀ j, j ≠ 7 → bt'.freelist j = bt.freelist j) ∧
      bt'.disk (ptr + 8) = 0 ∧ bt'.disk ptr = oldlast ∧
      bt'.disk (ptr + 16) = 0 ∧ bt'.disk (oldlast + 8) = ptr ∧
      (∀ o, o ≠ ptr → o ≠ ptr + 8 → o ≠ ptr + 16 → o ≠ oldlast + 8 →
        bt'.disk o = bt.disk o) := by
  have hu : u64sub ptr 8 = ptr - 8 :=
    u64sub_eq_sub ptr 8 (by omega) (by omega) (by norm_num)
  have hexp : btree_log_two 2048 = (11 : Int) := by
    have h := btree_log_two_pow 11 (by omega)
    norm_num at h
    exact h
  rw [btree_free_def, allocRun_succ_free]
  unfold btree_free_body
  rw [hu]
  unfold Btree.pread_u64
  rw [if_pos (show ptr - 8 < 2 ^ 63 by omega), hread]
  simp only [Option.elim_some, hsz, hexp]
  rw [show (Int.toNat (btree_freelist_index_by_exp 11)) = 7 from by decide]
  rw [if_pos (show (bt.freelist 7).last_items = BTREE_FREELIST_BLOCK_ITEMS ∧
      (11 : Int) = (BTREE_FREELIST_SIZE_EXP : Int) from ⟨hfull, by decide⟩)]
  rw [AllocResult.toFree_ok]
  refine ⟨_, rfl, rfl, rfl, rfl, ?_, ?_, ?_, ?_, ?_, ?_, ?_, ?_⟩
  · simp [btree_free_usenew, Btree.pwrite_u64, Btree.setFreelist]
  · simp [btree_free_usenew, Btree.pwrite_u64, Btree.setFreelist]
  · intro j hj
    simp [btree_free_usenew, Btree.pwrite_u64, Btree.setFreelist, hj]
  · -- next pointer of the new block
    simp only [btree_free_usenew, Btree.pwrite_u64, Btree.setFreelist, holdlast]
    split_ifs <;> omega
  · -- prev pointer of the new block
    simp only [btree_free_usenew, Btree.pwrite_u64, Btree.setFreelist, holdlast]
    split_ifs <;> omega
  · -- count of the new block
    simp only [btree_free_usenew, Btree.pwrite_u64, Btree.setFreelist, holdlast]
    split_ifs <;> omega
  · -- next pointer of the previous newest block
    simp only [btree_free_usenew, Btree.pwrite_u64, Btree.setFreelist, holdlast]
    split_ifs <;> omega
  · intro o h1 h2 h3 h4
    simp only [btree_free_usenew, Btree.pwrite_u64, Btree.setFreelist, holdlast]
    split_ifs <;> omega

/-- C4, witness: the special case fires on the concrete state `c4state`
(class 11 full at 252 entries, an allocation of user size 1500 at offset
50000). -/
theorem c4_witness :
    ∃ bt', btree_free 1 c4state 50000 = some bt' ∧
      bt'.free = c4state.free ∧ bt'.freeoff = c4state.freeoff ∧
      bt'.filesize = c4state.filesize ∧
      (bt'.freelist 7).blocks = (c4state.freelist 7).blocks ++ [50000] ∧
      (bt'.freelist 7).last_items = 0 ∧
      (∀ j, j ≠ 7 → bt'.freelist j = c4state.freelist j) ∧
      bt'.disk (50000 + 8) = 0 ∧ bt'.disk 50000 = head7 ∧
      bt'.disk (50000 + 16) = 0 ∧ bt'.disk (head7 + 8) = 50000 ∧
      (∀ o, o ≠ 50000 → o ≠ 50000 + 8 → o ≠ 50000 + 16 → o ≠ head7 + 8 →
        bt'.disk o = c4state.disk o) :=
  c4_freelist_block_special_case c4state 50000 1500 head7 0
    (by decide) (by decide) (by decide) (by decide) (by decide) (by decide)
    (by decide) (by decide) (by decide) (by decide)

/-! ## Claim C5 -/

/-- C5, counterexample: the claim says that after `alloc(s) = p; free(p)`
the class's free list always holds one more entry than before the free.
On `c5state` (class 11: full head block, empty newest block) the
allocation unlinks the empty newest block and returns it as `p`
(`last_items` becomes 252), and `free(p)` then takes the special-case
path, which creates a fresh *empty* newest block instead of pushing an
entry: the class holds 252 entries both before and after the free. -/
theorem c5_entry_count_counterexample :
    btree_alloc 10 c5state 2040 = .ok c5state1 100000 ∧
    btree_free 10 c5state1 100000 = some c5state2 ∧
    freelist_entries c5state1 7 = 252 ∧
    freelist_entries c5state2 7 = 252 ∧ 252 ≠ 252 + 1 := by
  refine ⟨?_, ?_, by decide, by decide, by decide⟩
  · have h := allocResult_eq_ok (btree_alloc 10 c5state 2040) btreeD (by decide)
    have hp : allocPtrD (btree_alloc 10 c5state 2040) 0 = 100000 := by decide
    rw [hp] at h
    exact h
  · exact option_eq_some_getD _ btreeD (by decide)

/-- `btree_free(bt, 0)` — which `btree_alloc_freelist` calls whenever no
block was unlinked — fails without touching the state: its first `pread`
is at offset `(uint64_t)(0 - 8)`, a negative `off_t`. -/
theorem allocRun_free_zero (fuel : Nat) (bt : Btree) :
    allocRun fuel (.free bt 0) = .fail := by
  match fuel with
  | 0 => rfl
  | fuel + 1 =>
    rw [allocRun_succ_free]
    unfold btree_free_body
    have hu : u64sub 0 8 = 2 ^ 64 - 8 := by unfold u64sub; norm_num
    rw [hu]
    unfold Btree.pread_u64
    rw [if_neg (by norm_num)]
    rfl

/-- C5, amended: after `alloc(s) = p; free(p)`, in both non-special paths
of `btree_free` — the class's newest block not full (any class: plain
push), or full for a class other than the free-list blocks' own (the
block-growing path: the free first allocates a fresh free-list block,
links it as the class's new newest block, then pushes the entry) — the
class holds exactly one more entry than before the free, and the next
allocation of the same class pops that entry and returns exactly `p`
(LIFO).  The sole exception is the special case refuted by the
counterexample: the free-list blocks' own class (exponent 11) with a full
newest block, where the freed slot itself becomes the class's new empty
newest block and the entry count stays unchanged.  `p` is characterised by
its on-disk length header recording `s`; the growing path's nested
allocation is described by its result (it succeeds returning a nonzero
block and, being for another class, leaves the freed class's cache
untouched). -/
theorem c5_lifo_amended
    (fuel2 fuel3 : Nat) (bt1 bt2 : Btree) (s n p rs fli last nb : Nat)
    (hs : btree_alloc_realsize s = some rs) (hn : btree_alloc_realsize n = some rs)
    (hnz : n ≤ 2 ^ 31)
    (hp8 : 8 ≤ p) (hpb : p ≤ 2 ^ 62)
    (hhd : bt1.disk (p - 8) = s)
    (hfli : (btree_freelist_index_by_exp (btree_log_two rs)).toNat = fli)
    (hlast : (bt1.freelist fli).blocks.getLast? = some last)
    (hlb : last ≤ 2 ^ 61) (hnb : nb ≤ 2 ^ 61)
    (hcase :
      (bt2 = bt1 ∧
        (bt1.freelist fli).last_items < BTREE_FREELIST_BLOCK_ITEMS) ∨
      ((bt1.freelist fli).last_items = BTREE_FREELIST_BLOCK_ITEMS ∧
        btree_log_two rs ≠ (BTREE_FREELIST_SIZE_EXP : Int) ∧
        btree_alloc fuel2 bt1 BTREE_FREELIST_BLOCK_SIZE = .ok bt2 nb ∧
        nb ≠ 0 ∧ bt2.freelist fli = bt1.freelist fli)) :
    ∃ bt2', btree_free (fuel2 + 1) bt1 p = some bt2' ∧
      freelist_entries bt2' fli = freelist_entries bt1 fli + 1 ∧
      ∃ bt3, btree_alloc (fuel3 + 2) bt2' n = .ok bt3 p := by
  have h252 : BTREE_FREELIST_BLOCK_ITEMS = 252 := rfl
  have hu : u64sub p 8 = p - 8 :=
    u64sub_eq_sub p 8 (by omega) (by omega) (by norm_num)
  have hlen1 : 1 ≤ (bt1.freelist fli).blocks.length := by
    cases hbl : (bt1.freelist fli).blocks with
    | nil => rw [hbl] at hlast; exact Option.noConfusion hlast
    | cons a l => simp [hbl]
  rcases hcase with ⟨-, hnotfull⟩ | ⟨hfull, hne, hga, hnb0, hfl2⟩
  · -- plain push path
    have hnf : (bt1.freelist fli).last_items ≠ BTREE_FREELIST_BLOCK_ITEMS := by
      omega
    refine ⟨btree_free_additem bt1 fli p, ?_, ?_, ?_⟩
    · -- the free takes the plain push path
      rw [btree_free_def, allocRun_succ_free]
      unfold btree_free_body
      rw [hu]
      unfold Btree.pread_u64
      rw [if_pos (by omega), hhd]
      simp only [Option.elim_some, hs, hfli]
      rw [if_neg (by
        intro hc
        exact hnf hc.1)]
      rw [if_neg hnf]
      simp only [Option.elim_some]
      rw [AllocResult.toFree_ok]
    · -- one more entry, through the cache
      simp [freelist_entries, btree_free_additem, Btree.pwrite_u64,
        Btree.setFreelist]
      omega
    · -- the next allocation of the class pops exactly this entry
      have hfl2 : (btree_free_additem bt1 fli p).freelist fli =
          ⟨(bt1.freelist fli).blocks, (bt1.freelist fli).last_items + 1⟩ := by
        simp [btree_free_additem, Btree.pwrite_u64, Btree.setFreelist]
      have hcell : (btree_free_additem bt1 fli p).disk
          (last + (2 + ((bt1.freelist fli).last_items + 1)) * 8) = p - 8 := by
        have hgetD : (bt1.freelist fli).blocks.getD
            ((bt1.freelist fli).blocks.length - 1) 0 = last := by
          rw [List.getLast?_eq_getElem?] at hlast
          rw [List.getD_eq_getElem?_getD, hlast]
          rfl
        simp only [btree_free_additem, Btree.pwrite_u64, Btree.setFreelist, hgetD]
        rw [if_neg (by omega), if_pos (by omega), hu, Nat.mod_eq_of_lt (by omega)]
      rw [btree_alloc_def, allocRun_succ_alloc]
      unfold btree_alloc_body
      rw [if_neg (by omega)]
      simp only [hn, Option.elim_some]
      rw [allocRun_succ_freelist]
      unfold btree_alloc_freelist_body
      simp only [hfli, hfl2]
      rw [if_neg (by simp)]
      rw [if_neg (by simp)]
      simp only [Option.elim_some]
      rw [if_neg (by simp)]
      rw [allocRun_free_zero]
      simp only [AllocResult.elim_fail, hfl2, hlast, Option.elim_some]
      unfold Btree.pread_u64
      rw [if_pos (by omega), hcell]
      simp only [Option.elim_some]
      rw [show p - 8 + 8 = p from by omega]
      rw [AllocResult.elim_ok]
      rw [if_pos (by omega)]
      rw [hu]
      rw [if_pos (by omega)]
      simp only [Option.elim_some]
      by_cases hold : (btree_alloc_freelist_pop (btree_free_additem bt1 fli p) fli
          last).disk (p - 8) ≠ n
      · rw [if_pos hold]
        exact ⟨_, rfl⟩
      · rw [if_neg hold]
        exact ⟨_, rfl⟩
  · -- block-growing path
    have hga' : allocRun fuel2 (.alloc bt1 BTREE_FREELIST_BLOCK_SIZE) =
        .ok bt2 nb := hga
    have hflL : (btree_free_linknew bt2 fli nb).freelist fli =
        ⟨(bt1.freelist fli).blocks ++ [nb], 0⟩ := by
      simp [btree_free_linknew, Btree.pwrite_u64, Btree.setFreelist, hfl2]
    have hflA : (btree_free_additem (btree_free_linknew bt2 fli nb) fli p).freelist
        fli = ⟨(bt1.freelist fli).blocks ++ [nb], 1⟩ := by
      simp [btree_free_additem, Btree.pwrite_u64, Btree.setFreelist, hflL]
    have hgl : ((bt1.freelist fli).blocks ++ [nb]).getLast? = some nb :=
      List.getLast?_concat _
    have hgetD : ((bt1.freelist fli).blocks ++ [nb]).getD
        (((bt1.freelist fli).blocks ++ [nb]).length - 1) 0 = nb := by
      rw [show ((bt1.freelist fli).blocks ++ [nb]).length - 1 =
        (bt1.freelist fli).blocks.length from by simp]
      rw [List.getD_eq_getElem?_getD, List.getElem?_concat_length]
      rfl
    have hcell : (btree_free_additem (btree_free_linknew bt2 fli nb) fli p).disk
        (nb + (2 + 1) * 8) = p - 8 := by
      simp only [btree_free_additem, Btree.pwrite_u64, Btree.setFreelist, hflL,
        hgetD]
      rw [if_neg (by omega), if_pos trivial, hu, Nat.mod_eq_of_lt (by omega)]
    refine ⟨btree_free_additem (btree_free_linknew bt2 fli nb) fli p, ?_, ?_, ?_⟩
    · -- the free grows the class with the fresh block, then pushes
      rw [btree_free_def, allocRun_succ_free]
      unfold btree_free_body
      rw [hu]
      unfold Btree.pread_u64
      rw [if_pos (by omega), hhd]
      simp only [Option.elim_some, hs, hfli]
      rw [if_neg (by
        intro hc
        exact hne hc.2)]
      rw [if_pos hfull]
      rw [hga']
      rw [AllocResult.elim_ok]
      rw [if_neg hnb0]
      simp only [Option.elim_some]
      rw [AllocResult.toFree_ok]
    · -- one more entry: a new block with a single entry, the old one full
      rw [freelist_entries, freelist_entries, hflA, hfull]
      simp only [List.length_append, List.length_singleton, h252]
      omega
    · -- the next allocation pops the sole entry of the new newest block
      rw [btree_alloc_def, allocRun_succ_alloc]
      unfold btree_alloc_body
      rw [if_neg (by omega)]
      simp only [hn, Option.elim_some]
      rw [allocRun_succ_freelist]
      unfold btree_alloc_freelist_body
      simp only [hfli, hflA]
      rw [if_neg (by simp)]
      rw [if_neg (by simp)]
      simp only [Option.elim_some]
      rw [if_neg (by simp)]
      rw [allocRun_free_zero]
      simp only [AllocResult.elim_fail, hflA, hgl, Option.elim_some]
      unfold Btree.pread_u64
      rw [if_pos (by omega), hcell]
      simp only [Option.elim_some]
      rw [show p - 8 + 8 = p from by omega]
      rw [AllocResult.elim_ok]
      rw [if_pos (by omega)]
      rw [hu]
      rw [if_pos (by omega)]
      simp only [Option.elim_some]
      by_cases hold : (btree_alloc_freelist_pop
          (btree_free_additem (btree_free_linknew bt2 fli nb) fli p) fli
          nb).disk (p - 8) ≠ n
      · rw [if_pos hold]
        exact ⟨_, rfl⟩
      · rw [if_neg hold]
        exact ⟨_, rfl⟩

/-- Witness for `c5_lifo_amended`, exercising both paths.  Plain push: in
the state reached from a fresh `btree_open` by `btree_alloc(5)` (which
returned offset 57932), freeing 57932 pushes it onto class 0 (entry count
0 becomes 1) and a subsequent `btree_alloc(6)` returns 57932 again.
Block-growing: on `c5g_bt1` (class 0 full at 252 entries) freeing the
16-byte slot at 50000 allocates and links a fresh free-list block at
300008, the class's entry count goes 252 to 253, and the next
`btree_alloc(6)` returns 50000. -/
theorem c5_lifo_amended_witness :
    (∃ bt2', btree_free 1 c5w_bt1 57932 = some bt2' ∧
      freelist_entries bt2' 0 = freelist_entries c5w_bt1 0 + 1 ∧
      ∃ bt3, btree_alloc 2 bt2' 6 = .ok bt3 57932) ∧
    (∃ bt2', btree_free 3 c5g_bt1 50000 = some bt2' ∧
      freelist_entries bt2' 0 = freelist_entries c5g_bt1 0 + 1 ∧
      ∃ bt3, btree_alloc 2 bt2' 6 = .ok bt3 50000) := by
  constructor
  · exact c5_lifo_amended 0 0 c5w_bt1 c5w_bt1 5 6 57932 16 0 32 0 (by decide)
      (by decide) (by decide) (by decide) (by decide) (by decide) (by decide)
      (by decide) (by decide) (by decide) (Or.inl ⟨rfl, by decide⟩)
  · have hga : btree_alloc 2 c5g_bt1 BTREE_FREELIST_BLOCK_SIZE =
        .ok c5g_bt2 300008 := by
      have h := allocResult_eq_ok (btree_alloc 2 c5g_bt1 BTREE_FREELIST_BLOCK_SIZE)
        btreeD (by decide)
      have hp : allocPtrD (btree_alloc 2 c5g_bt1 BTREE_FREELIST_BLOCK_SIZE) 0 =
          300008 := by decide
      rw [hp] at h
      exact h
    exact c5_lifo_amended 2 0 c5g_bt1 c5g_bt2 5 6 50000 16 0 32 300008 (by decide)
      (by decide) (by decide) (by decide) (by decide) (by decide) (by decide)
      (by decide) (by decide) (by decide)
      (Or.inr ⟨by decide, by decide, hga, by decide, by decide⟩)

/-! ## Claim C10 -/

/-- C10: at every state reachable from `btree_open` by successful
`btree_alloc` and `btree_free` calls, every size class's in-memory chain
contains at least one block, and its first block is the header-resident
head block at file offset `32 + class_index * BTREE_FREELIST_BLOCK_SIZE`.
In particular the head block is never unlinked (the pop path's unlink
requires at least two cached blocks and removes only the newest, i.e. the
last of the cached list) and never handed back to `btree_free`. -/
theorem c10_freelist_head_blocks (bt : Btree) (h : Reach bt) :
    ∀ j, j < BTREE_FREELIST_COUNT →
      (bt.freelist j).blocks ≠ [] ∧
      (bt.freelist j).blocks.head? = some (32 + BTREE_FREELIST_BLOCK_SIZE * j) :=
  reach_freelistHeads bt h

/-- Witness for `c10_freelist_head_blocks`: the freshly opened state,
class 11 (the free-list blocks' own class). -/
theorem c10_freelist_head_blocks_witness :
    (openState.freelist 11).blocks ≠ [] ∧
    (openState.freelist 11).blocks.head? = some (32 + BTREE_FREELIST_BLOCK_SIZE * 11) :=
  c10_freelist_head_blocks openState
    (Reach.init 10 openState
      (option_eq_some_getD (btree_open_create 10) btreeD (by decide)))
    11 (by decide)

/-! ## B-tree engine: scan and seek on sorted key lists -/

theorem find_scan_le (key : Nat) (ks : List Nat) :
    btree_find_scan key ks ≤ ks.length := by
  induction ks with
  | nil => simp [btree_find_scan]
  | cons k ks ih =>
    unfold btree_find_scan
    split_ifs
    · simp
    · simpa using ih

theorem find_scan_lt (key : Nat) (ks : List Nat) :
    ∀ p, p < btree_find_scan key ks → ks.getD p 0 < key := by
  induction ks with
  | nil => simp [btree_find_scan]
  | cons k ks ih =>
    unfold btree_find_scan
    split_ifs with hk
    · omega
    · intro p hp
      cases p with
      | zero => simpa using (by omega : ¬ key ≤ k)
      | succ p => simpa using ih p (by omega)

theorem find_scan_ge (key : Nat) (ks : List Nat) :
    btree_find_scan key ks < ks.length →
    key ≤ ks.getD (btree_find_scan key ks) 0 := by
  induction ks with
  | nil => simp [btree_find_scan]
  | cons k ks ih =>
    unfold btree_find_scan
    split_ifs with hk
    · intro _
      simpa using hk
    · intro hlen
      simpa using ih (by simpa using hlen)

/-- Every key of a sorted list respects the bounds. -/
theorem keysSorted_mem (lo hi : Option Nat) (ks : List Nat)
    (h : keysSorted lo hi ks) : ∀ x ∈ ks, optLtK lo x ∧ optKLt x hi := by
  induction ks generalizing lo with
  | nil => simp
  | cons k ks ih =>
    obtain ⟨h1, h2, h3⟩ := h
    intro x hx
    rcases List.mem_cons.mp hx with rfl | hx
    · exact ⟨h1, h2⟩
    · obtain ⟨hx1, hx2⟩ := ih (some k) h3 x hx
      refine ⟨?_, hx2⟩
      cases lo with
      | none => trivial
      | some l =>
        have : l < k := h1
        have : k < x := hx1
        show l < x
        omega

/-- Strict monotonicity of a sorted list, in `getD` form. -/
theorem keysSorted_getD (lo hi : Option Nat) (ks : List Nat)
    (h : keysSorted lo hi ks) :
    ∀ a b, a < b → b < ks.length → ks.getD a 0 < ks.getD b 0 := by
  induction ks generalizing lo with
  | nil => intro a b _ hb; simp at hb
  | cons k ks ih =>
    obtain ⟨h1, h2, h3⟩ := h
    intro a b hab hb
    cases a with
    | zero =>
      cases b with
      | zero => omega
      | succ b =>
        have hmem : ks.getD b 0 ∈ ks := by
          have hb' : b < ks.length := by simpa using hb
          rw [List.getD_eq_getElem ks 0 hb']
          exact List.getElem_mem hb'
        have := (keysSorted_mem (some k) hi ks h3 _ hmem).1
        simpa using this
    | succ a =>
      cases b with
      | zero => omega
      | succ b =>
        have := ih (some k) h3 a b (by omega) (by simpa using hb)
        simpa using this

/-- On a sorted list, a present key sits exactly at the scan position. -/
theorem find_scan_present (key : Nat) (ks : List Nat)
    (hs : ∀ a b, a < b → b < ks.length → ks.getD a 0 < ks.getD b 0)
    (p : Nat) (hp : p < ks.length)
    (he : ks.getD p 0 = key) : btree_find_scan key ks = p := by
  have h1 := find_scan_le key ks
  have h2 := find_scan_lt key ks
  have h3 := find_scan_ge key ks
  by_contra hne
  rcases Nat.lt_or_ge p (btree_find_scan key ks) with hlt | hge
  · have := h2 p hlt
    omega
  · have hlt2 : btree_find_scan key ks < p := by omega
    have ha := h3 (by omega)
    have := hs (btree_find_scan key ks) p hlt2 hp
    omega

/-- Backward-seek characterization on a sorted segment: on the range
`0 … i` the loop finds the key exactly when the scan position carries it
and lies in the range; otherwise it stops just below the scan position
(clipped to the range). -/
theorem seek_loop_char (key : Nat) (ks : List Nat)
    (hs : ∀ a b, a < b → b < ks.length → ks.getD a 0 < ks.getD b 0) :
    ∀ i, i < ks.length →
      (btree_find_scan key ks ≤ i → ks.getD (btree_find_scan key ks) 0 = key →
        btree_seek_loop key ks i = (some (btree_find_scan key ks), true)) ∧
      ((ks.getD (btree_find_scan key ks) 0 = key → i < btree_find_scan key ks) →
        btree_seek_loop key ks i =
          if min (btree_find_scan key ks) (i + 1) = 0 then (none, false)
          else (some (min (btree_find_scan key ks) (i + 1) - 1), false)) := by
  intro i
  induction i with
  | zero =>
    intro hi
    constructor
    · intro hle he
      have hj0 : btree_find_scan key ks = 0 := by omega
      rw [hj0] at he
      unfold btree_seek_loop
      rw [if_pos he.symm, hj0]
    · intro hne
      unfold btree_seek_loop
      by_cases he : key = ks.getD 0 0
      · exfalso
        have h0 := find_scan_present key ks hs 0 hi he.symm
        have := hne (by rw [h0]; exact he.symm)
        omega
      · rw [if_neg he]
        by_cases hlt : ks.getD 0 0 < key
        · rw [if_pos hlt]
          have hj : 1 ≤ btree_find_scan key ks := by
            by_contra hc
            have hj0 : btree_find_scan key ks = 0 := by omega
            have := find_scan_ge key ks (by omega)
            rw [hj0] at this
            omega
          rw [if_neg (by omega)]
          congr 2
          omega
        · rw [if_neg hlt]
          have hj0 : btree_find_scan key ks = 0 := by
            by_contra hc
            have := find_scan_lt key ks 0 (by omega)
            omega
          rw [if_pos (by omega)]
  | succ i ih =>
    intro hi
    have ihh := ih (by omega)
    constructor
    · intro hle he
      unfold btree_seek_loop
      by_cases heq : key = ks.getD (i + 1) 0
      · rw [if_pos heq]
        have h0 : btree_find_scan key ks = i + 1 :=
          find_scan_present key ks hs (i + 1) hi heq.symm
        rw [h0]
      · rw [if_neg heq]
        have hjne : btree_find_scan key ks ≠ i + 1 := by
          intro hc
          rw [hc] at he
          exact heq he.symm
        have hjlt : btree_find_scan key ks ≤ i := by omega
        by_cases hlt : ks.getD (i + 1) 0 < key
        · exfalso
          have := find_scan_ge key ks (by omega)
          have := hs (btree_find_scan key ks) (i + 1) (by omega) hi
          omega
        · rw [if_neg hlt]
          exact ihh.1 hjlt he
    · intro hne
      unfold btree_seek_loop
      by_cases heq : key = ks.getD (i + 1) 0
      · exfalso
        have h0 : btree_find_scan key ks = i + 1 :=
          find_scan_present key ks hs (i + 1) hi heq.symm
        have := hne (by rw [h0]; exact heq.symm)
        omega
      · rw [if_neg heq]
        by_cases hlt : ks.getD (i + 1) 0 < key
        · rw [if_pos hlt]
          have hj : i + 2 ≤ btree_find_scan key ks := by
            by_contra hc
            have hj2 : btree_find_scan key ks ≤ i + 1 := by omega
            have := find_scan_ge key ks
            rcases Nat.lt_or_ge (btree_find_scan key ks) ks.length with h9 | h9
            · have h10 := find_scan_ge key ks h9
              rcases Nat.eq_or_lt_of_le hj2 with h11 | h11
              · rw [h11] at h10
                omega
              · have := hs (btree_find_scan key ks) (i + 1) (by omega) hi
                omega
            · omega
          rw [if_neg (by omega)]
          congr 2
          omega
        · rw [if_neg hlt]
          have hj2 : btree_find_scan key ks ≤ i + 1 := by
            by_contra hc
            have := find_scan_lt key ks (i + 1) (by omega)
            omega
          have := ihh.2 (by
            intro he
            have := hne he
            omega)
          rw [this]
          have hjne : btree_find_scan key ks ≠ i + 2 := by omega
          by_cases hj0 : btree_find_scan key ks = 0
          · rw [if_pos (by omega), if_pos (by omega)]
          · rw [if_neg (by omega), if_neg (by omega)]
            congr 2
            omega

/-- Top-level characterization of the backward seek on a sorted key list:
when it reports `found` the carried index is the scan position and holds
the key; when it does not, the key is absent and the derived child index
agrees with the forward scan of `btree_find` — the two functions route a
key to the same child. -/
theorem seek_char (key : Nat) (lo hi : Option Nat) (ks : List Nat)
    (hs : keysSorted lo hi ks) :
    ((btree_seek key ks).2 = true →
      (btree_seek key ks).1 = some (btree_find_scan key ks) ∧
      btree_find_scan key ks < ks.length ∧
      ks.getD (btree_find_scan key ks) 0 = key) ∧
    ((btree_seek key ks).2 = false →
      childIdx (btree_seek key ks).1 = btree_find_scan key ks ∧
      ∀ p, p < ks.length → ks.getD p 0 ≠ key) := by
  have hg := keysSorted_getD lo hi ks hs
  unfold btree_seek
  by_cases hlen : ks.length = 0
  · rw [if_pos hlen]
    constructor
    · intro h
      exact absurd h (by simp)
    · intro _
      constructor
      · have : ks = [] := List.eq_nil_of_length_eq_zero hlen
        subst this
        rfl
      · intro p hp
        omega
  · rw [if_neg hlen]
    obtain ⟨hc1, hc2⟩ := seek_loop_char key ks hg (ks.length - 1) (by omega)
    by_cases hfound : btree_find_scan key ks < ks.length ∧
        ks.getD (btree_find_scan key ks) 0 = key
    · rw [hc1 (by omega) hfound.2]
      constructor
      · intro _
        exact ⟨rfl, hfound.1, hfound.2⟩
      · intro h
        simp at h
    · rw [hc2 (by
        intro he
        by_contra hc
        push_neg at hc
        exact hfound ⟨by omega, he⟩)]
      have hjle := find_scan_le key ks
      have hmin : min (btree_find_scan key ks) (ks.length - 1 + 1) =
          btree_find_scan key ks := by omega
      constructor
      · intro h
        split_ifs at h <;> simp at h
      · intro _
        constructor
        · split_ifs with h0
          · rw [hmin] at h0
            simp only [childIdx]
            omega
          · rw [hmin] at h0 ⊢
            simp only [childIdx]
            omega
        · intro p hp he
          have := find_scan_present key ks hg p hp he
          exact hfound ⟨by omega, by rw [this]; exact he⟩

/-! ### Positional lemmas for insertion and splicing -/

theorem getD_take {α : Type} (l : List α) (j i : Nat) (d : α) (h : i < j) :
    (l.take j).getD i d = l.getD i d := by
  rw [List.getD_eq_getElem?_getD, List.getD_eq_getElem?_getD,
    List.getElem?_take_of_lt h]

theorem getD_drop {α : Type} (l : List α) (j i : Nat) (d : α) :
    (l.drop j).getD i d = l.getD (j + i) d := by
  rw [List.getD_eq_getElem?_getD, List.getD_eq_getElem?_getD, List.getElem?_drop]

theorem length_insertAt {α : Type} (l : List α) (j : Nat) (x : α)
    (hj : j ≤ l.length) :
    (l.take j ++ x :: l.drop j).length = l.length + 1 := by
  simp [List.length_take]
  omega

theorem getD_insertAt_lt {α : Type} (l : List α) (j : Nat) (x : α) (p : Nat)
    (d : α) (hp : p < j) (hj : j ≤ l.length) :
    (l.take j ++ x :: l.drop j).getD p d = l.getD p d := by
  rw [List.getD_append _ _ _ _ (by rw [List.length_take]; omega)]
  exact getD_take l j p d hp

theorem getD_insertAt_self {α : Type} (l : List α) (j : Nat) (x : α) (d : α)
    (hj : j ≤ l.length) :
    (l.take j ++ x :: l.drop j).getD j d = x := by
  rw [List.getD_append_right _ _ _ _ (by rw [List.length_take]; omega)]
  rw [List.length_take]
  have h0 : j - min j l.length = 0 := by omega
  rw [h0]
  rfl

theorem getD_insertAt_gt {α : Type} (l : List α) (j : Nat) (x : α) (p : Nat)
    (d : α) (hp : j < p) (hj : j ≤ l.length) :
    (l.take j ++ x :: l.drop j).getD p d = l.getD (p - 1) d := by
  rw [List.getD_append_right _ _ _ _ (by rw [List.length_take]; omega)]
  rw [List.length_take]
  have h1 : p - min j l.length = (p - j - 1) + 1 := by omega
  rw [h1, List.getD_cons_succ, getD_drop]
  congr 1
  omega

theorem length_splice {α : Type} (l : List α) (j : Nat) (a b : α)
    (hj : j < l.length) :
    (l.take j ++ a :: b :: l.drop (j + 1)).length = l.length + 1 := by
  simp [List.length_take]
  omega

theorem getD_splice_lt {α : Type} (l : List α) (j : Nat) (a b : α) (p : Nat)
    (d : α) (hp : p < j) (hj : j < l.length) :
    (l.take j ++ a :: b :: l.drop (j + 1)).getD p d = l.getD p d := by
  rw [List.getD_append _ _ _ _ (by rw [List.length_take]; omega)]
  exact getD_take l j p d hp

theorem getD_splice_self {α : Type} (l : List α) (j : Nat) (a b : α) (d : α)
    (hj : j < l.length) :
    (l.take j ++ a :: b :: l.drop (j + 1)).getD j d = a := by
  rw [List.getD_append_right _ _ _ _ (by rw [List.length_take]; omega)]
  rw [List.length_take]
  have h0 : j - min j l.length = 0 := by omega
  rw [h0]
  rfl

theorem getD_splice_succ {α : Type} (l : List α) (j : Nat) (a b : α) (d : α)
    (hj : j < l.length) :
    (l.take j ++ a :: b :: l.drop (j + 1)).getD (j + 1) d = b := by
  rw [List.getD_append_right _ _ _ _ (by rw [List.length_take]; omega)]
  rw [List.length_take]
  have h0 : j + 1 - min j l.length = 1 := by omega
  rw [h0]
  rfl

theorem getD_splice_gt {α : Type} (l : List α) (j : Nat) (a b : α) (p : Nat)
    (d : α) (hp : j + 1 < p) (hj : j < l.length) :
    (l.take j ++ a :: b :: l.drop (j + 1)).getD p d = l.getD (p - 1) d := by
  rw [List.getD_append_right _ _ _ _ (by rw [List.length_take]; omega)]
  rw [List.length_take]
  have h1 : p - min j l.length = (p - j - 2) + 1 + 1 := by omega
  rw [h1, List.getD_cons_succ, List.getD_cons_succ, getD_drop]
  congr 1
  omega

/-! ### The forward scan under take, drop and insertion -/

theorem scan_take_eq (k : Nat) (ks : List Nat) (j : Nat) (hj : j ≤ ks.length) :
    btree_find_scan k (ks.take j) = min (btree_find_scan k ks) j := by
  induction ks generalizing j with
  | nil =>
    simp at hj
    subst hj
    simp [btree_find_scan]
  | cons a ks ih =>
    cases j with
    | zero => simp [btree_find_scan]
    | succ j =>
      rw [List.take_succ_cons]
      unfold btree_find_scan
      split_ifs with h
      · simp
      · rw [ih j (by simpa using hj)]
        omega

theorem scan_drop_eq (k : Nat) (ks : List Nat) (j : Nat)
    (hj : j ≤ btree_find_scan k ks) :
    btree_find_scan k (ks.drop j) = btree_find_scan k ks - j := by
  induction ks generalizing j with
  | nil => simp [btree_find_scan]
  | cons a ks ih =>
    cases j with
    | zero => simp
    | succ j =>
      have hscons : btree_find_scan k (a :: ks) =
          if k ≤ a then 0 else btree_find_scan k ks + 1 := rfl
      rw [hscons] at hj
      split_ifs at hj with h
      · omega
      · rw [List.drop_succ_cons, ih j (by omega), hscons, if_neg h]
        omega

theorem scan_insertAt (k m : Nat) (ks : List Nat) (j : Nat) (hj : j ≤ ks.length)
    (hlow : ∀ p, p < j → ks.getD p 0 < m)
    (hhigh : ∀ p, j ≤ p → p < ks.length → m < ks.getD p 0) :
    btree_find_scan k (ks.take j ++ m :: ks.drop j) =
      if k ≤ m then btree_find_scan k ks else btree_find_scan k ks + 1 := by
  induction ks generalizing j with
  | nil =>
    simp at hj
    subst hj
    simp [btree_find_scan]
  | cons a ks ih =>
    cases j with
    | zero =>
      simp only [List.take_zero, List.drop_zero, List.nil_append]
      have ham : m < a := by simpa using hhigh 0 (by omega) (by simp)
      have h1 : btree_find_scan k (m :: a :: ks) =
          if k ≤ m then 0 else btree_find_scan k (a :: ks) + 1 := rfl
      have h2 : btree_find_scan k (a :: ks) =
          if k ≤ a then 0 else btree_find_scan k ks + 1 := rfl
      rw [h1]
      split_ifs with hkm
      · rw [h2, if_pos (by omega)]
      · rfl
    | succ j =>
      rw [List.take_succ_cons, List.drop_succ_cons, List.cons_append]
      have ham : a < m := by simpa using hlow 0 (by omega)
      have hih := ih j (by simpa using hj)
        (fun p hp => by simpa using hlow (p + 1) (by omega))
        (fun p hp1 hp2 => by simpa using hhigh (p + 1) (by omega) (by simpa using hp2))
      have h1 : btree_find_scan k (a :: (List.take j ks ++ m :: List.drop j ks)) =
          if k ≤ a then 0
          else btree_find_scan k (List.take j ks ++ m :: List.drop j ks) + 1 := rfl
      have h2 : btree_find_scan k (a :: ks) =
          if k ≤ a then 0 else btree_find_scan k ks + 1 := rfl
      rw [h1, h2, hih]
      split_ifs <;> omega

theorem getD_set_self {α : Type} (l : List α) (i : Nat) (x d : α)
    (h : i < l.length) : (l.set i x).getD i d = x := by
  rw [List.getD_eq_getElem?_getD, List.getElem?_set_self (by simpa using h)]
  rfl

theorem getD_set_ne {α : Type} (l : List α) (i j : Nat) (x d : α) (h : i ≠ j) :
    (l.set i x).getD j d = l.getD j d := by
  rw [List.getD_eq_getElem?_getD, List.getD_eq_getElem?_getD,
    List.getElem?_set_ne h]

/-! ### Unfolding `btree_find` at a leaf and at an internal node -/

theorem find_leaf (key : Nat) (keys : List Nat) (values : List (List Nat))
    (children : List BNode) :
    btree_find key (.node true keys values children) =
    if btree_find_scan key keys < keys.length ∧
        keys.getD (btree_find_scan key keys) 0 = key then
      some (values.getD (btree_find_scan key keys) [])
    else none := by
  rw [btree_find]
  split_ifs with hf h2
  · rfl
  · rfl
  · exact absurd rfl h2

theorem find_internal (key : Nat) (keys : List Nat) (values : List (List Nat))
    (children : List BNode) (hlen : children.length = keys.length + 1) :
    btree_find key (.node false keys values children) =
    if btree_find_scan key keys < keys.length ∧
        keys.getD (btree_find_scan key keys) 0 = key then
      some (values.getD (btree_find_scan key keys) [])
    else
      btree_find key (children.getD (btree_find_scan key keys) default) := by
  have hjlt : btree_find_scan key keys < children.length := by
    have := find_scan_le key keys
    omega
  rw [btree_find]
  split_ifs with hf h2
  · rfl
  · exact h2.elim
  · split
    · rename_i c hc
      rw [List.getElem?_eq_getElem hjlt] at hc
      injection hc with hc
      rw [List.getD_eq_getElem _ _ hjlt, hc]
    · rename_i hc
      rw [List.getElem?_eq_getElem hjlt] at hc
      exact Option.noConfusion hc

/-! ### Pointwise effect of the in-place value overwrite -/

theorem find_value_set (key : Nat) (il : Bool) (ks : List Nat)
    (vs : List (List Nat)) (ch : List BNode) (val : List Nat)
    (hf1 : btree_find_scan key ks < ks.length)
    (hf2 : ks.getD (btree_find_scan key ks) 0 = key)
    (hvl : vs.length = ks.length)
    (hlen : il = false → ch.length = ks.length + 1) :
    ∀ k, btree_find k (.node il ks (vs.set (btree_find_scan key ks) val) ch) =
      if k = key then some val else btree_find k (.node il ks vs ch) := by
  intro k
  by_cases hk : k = key
  · subst hk
    rw [if_pos rfl]
    cases il with
    | true =>
      rw [find_leaf, if_pos ⟨hf1, hf2⟩]
      rw [getD_set_self _ _ _ _ (by omega)]
    | false =>
      rw [find_internal _ _ _ _ (hlen rfl), if_pos ⟨hf1, hf2⟩]
      rw [getD_set_self _ _ _ _ (by omega)]
  · rw [if_neg hk]
    have hne : btree_find_scan k ks < ks.length →
        ks.getD (btree_find_scan k ks) 0 = k →
        btree_find_scan k ks ≠ btree_find_scan key ks := by
      intro _ h2 hc
      rw [hc, hf2] at h2
      exact hk h2.symm
    cases il with
    | true =>
      rw [find_leaf, find_leaf]
      split_ifs with hf
      · rw [getD_set_ne _ _ _ _ _ (Ne.symm (hne hf.1 hf.2))]
      · rfl
    | false =>
      rw [find_internal _ _ _ _ (hlen rfl), find_internal _ _ _ _ (hlen rfl)]
      split_ifs with hf
      · rw [getD_set_ne _ _ _ _ _ (Ne.symm (hne hf.1 hf.2))]
      · rfl

/-! ### Pointwise effect of replacing the routed child -/

theorem find_set_child (key : Nat) (ks : List Nat) (vs : List (List Nat))
    (ch : List BNode) (c' : BNode) (res : Option (List Nat))
    (hlen : ch.length = ks.length + 1)
    (hnotin : ∀ p, p < ks.length → ks.getD p 0 ≠ key)
    (hrep : ∀ k, btree_find k c' =
      if k = key then res else btree_find k (ch.getD (btree_find_scan key ks) default)) :
    ∀ k, btree_find k (.node false ks vs (ch.set (btree_find_scan key ks) c')) =
      if k = key then res else btree_find k (.node false ks vs ch) := by
  intro k
  have hjle := find_scan_le key ks
  rw [find_internal _ _ _ _ (by simpa using hlen),
    find_internal _ _ _ _ hlen]
  by_cases hk : k = key
  · subst hk
    rw [if_neg (by
      intro hf
      exact hnotin _ hf.1 hf.2)]
    rw [if_pos rfl]
    rw [getD_set_self _ _ _ _ (by omega)]
    rw [hrep k, if_pos rfl]
  · rw [if_neg hk]
    split_ifs with hf
    · rfl
    · by_cases hroute : btree_find_scan k ks = btree_find_scan key ks
      · rw [hroute, getD_set_self _ _ _ _ (by omega)]
        rw [hrep k, if_neg hk]
      · rw [getD_set_ne _ _ _ _ _ (Ne.symm hroute)]

/-! ### Bound and sortedness helpers -/

theorem optLtK_trans (lo : Option Nat) (k x : Nat) (h1 : optLtK lo k)
    (h2 : k < x) : optLtK lo x := by
  cases lo with
  | none => trivial
  | some l =>
    have h3 : l < k := h1
    show l < x
    omega

theorem optKLt_trans (m k : Nat) (hi : Option Nat) (h1 : m < k)
    (h2 : optKLt k hi) : optKLt m hi := by
  cases hi with
  | none => trivial
  | some h =>
    have h3 : k < h := h2
    show m < h
    omega

theorem keysSorted_take_mid (lo hi : Option Nat) (ks : List Nat)
    (hs : keysSorted lo hi ks) :
    ∀ j, j < ks.length → keysSorted lo (some (ks.getD j 0)) (ks.take j) := by
  induction ks generalizing lo with
  | nil => intro j hj; simp at hj
  | cons k ks ih =>
    obtain ⟨h1, h2, h3⟩ := hs
    intro j hj
    cases j with
    | zero => trivial
    | succ j =>
      have hj' : j < ks.length := by simpa using hj
      have hmem : ks.getD j 0 ∈ ks := by
        rw [List.getD_eq_getElem ks 0 hj']
        exact List.getElem_mem hj'
      refine ⟨h1, ?_, ih (some k) h3 j hj'⟩
      exact (keysSorted_mem (some k) hi ks h3 _ hmem).1

theorem keysSorted_drop_mid (lo hi : Option Nat) (ks : List Nat)
    (hs : keysSorted lo hi ks) :
    ∀ j, j < ks.length → keysSorted (some (ks.getD j 0)) hi (ks.drop (j + 1)) := by
  induction ks generalizing lo with
  | nil => intro j hj; simp at hj
  | cons k ks ih =>
    obtain ⟨h1, h2, h3⟩ := hs
    intro j hj
    cases j with
    | zero => exact h3
    | succ j => exact ih (some k) h3 j (by simpa using hj)

theorem keysSorted_insertAt (lo hi : Option Nat) (ks : List Nat) (key j : Nat)
    (hs : keysSorted lo hi ks) (hj : j ≤ ks.length)
    (hklo : optLtK lo key) (hkhi : optKLt key hi)
    (hlow : ∀ p, p < j → ks.getD p 0 < key)
    (hhigh : ∀ p, j ≤ p → p < ks.length → key < ks.getD p 0) :
    keysSorted lo hi (ks.take j ++ key :: ks.drop j) := by
  induction ks generalizing lo j with
  | nil =>
    simp at hj
    subst hj
    exact ⟨hklo, hkhi, trivial⟩
  | cons k ks ih =>
    obtain ⟨h1, h2, h3⟩ := hs
    cases j with
    | zero =>
      have hik : key < k := by simpa using hhigh 0 (by omega) (by simp)
      exact ⟨hklo, hkhi, hik, h2, h3⟩
    | succ j =>
      have hk : k < key := by simpa using hlow 0 (by omega)
      refine ⟨h1, h2, ?_⟩
      exact ih (some k) j h3 (by simpa using hj) hk
        (fun p hp => by simpa using hlow (p + 1) (by omega))
        (fun p hp1 hp2 => by simpa using hhigh (p + 1) (by omega) (by simpa using hp2))

/-! ### Structure of internal-node chains -/

theorem chain_lengths {P : Option Nat → Option Nat → BNode → Prop} :
    ∀ lo hi ks vs cs, chainWF P lo hi ks vs cs →
      vs.length = ks.length ∧ cs.length = ks.length + 1 := by
  intro lo hi ks
  induction ks generalizing lo with
  | nil =>
    intro vs cs hw
    cases vs with
    | cons v vs => exact hw.elim
    | nil =>
      cases cs with
      | nil => exact hw.elim
      | cons c cs =>
        cases cs with
        | cons d cs => exact hw.elim
        | nil => simp
  | cons k ks ih =>
    intro vs cs hw
    cases vs with
    | nil => exact hw.elim
    | cons v vs =>
      cases cs with
      | nil => exact hw.elim
      | cons c cs =>
        obtain ⟨hc, hlk, hkh, hrest⟩ := hw
        have := ih (some k) vs cs hrest
        constructor
        · simpa using this.1
        · simpa using this.2

theorem chain_keysSorted {P : Option Nat → Option Nat → BNode → Prop} :
    ∀ lo hi ks vs cs, chainWF P lo hi ks vs cs → keysSorted lo hi ks := by
  intro lo hi ks
  induction ks generalizing lo with
  | nil => intro vs cs _; trivial
  | cons k ks ih =>
    intro vs cs hw
    cases vs with
    | nil => exact hw.elim
    | cons v vs =>
      cases cs with
      | nil => exact hw.elim
      | cons c cs =>
        obtain ⟨hc, hlk, hkh, hrest⟩ := hw
        exact ⟨hlk, hkh, ih (some k) vs cs hrest⟩

theorem chain_value_set {P : Option Nat → Option Nat → BNode → Prop} :
    ∀ lo hi ks vs cs p val, chainWF P lo hi ks vs cs →
      chainWF P lo hi ks (vs.set p val) cs := by
  intro lo hi ks
  induction ks generalizing lo with
  | nil =>
    intro vs cs p val hw
    cases vs with
    | cons v vs => exact hw.elim
    | nil => simpa using hw
  | cons k ks ih =>
    intro vs cs p val hw
    cases vs with
    | nil => exact hw.elim
    | cons v vs =>
      cases cs with
      | nil => exact hw.elim
      | cons c cs =>
        obtain ⟨hc, hlk, hkh, hrest⟩ := hw
        cases p with
        | zero => exact ⟨hc, hlk, hkh, hrest⟩
        | succ p => exact ⟨hc, hlk, hkh, ih (some k) vs cs p val hrest⟩

theorem chain_split {P : Option Nat → Option Nat → BNode → Prop} :
    ∀ lo hi ks vs cs j, chainWF P lo hi ks vs cs → j < ks.length →
      chainWF P lo (some (ks.getD j 0)) (ks.take j) (vs.take j) (cs.take (j + 1)) ∧
      chainWF P (some (ks.getD j 0)) hi (ks.drop (j + 1)) (vs.drop (j + 1))
        (cs.drop (j + 1)) := by
  intro lo hi ks
  induction ks generalizing lo with
  | nil => intro vs cs j _ hj; simp at hj
  | cons k ks ih =>
    intro vs cs j hw hj
    cases vs with
    | nil => exact hw.elim
    | cons v vs =>
      cases cs with
      | nil => exact hw.elim
      | cons c cs =>
        obtain ⟨hc, hlk, hkh, hrest⟩ := hw
        cases j with
        | zero => exact ⟨hc, hrest⟩
        | succ j =>
          have hj' : j < ks.length := by simpa using hj
          have hih := ih (some k) vs cs j hrest hj'
          have hmem : ks.getD j 0 ∈ ks := by
            rw [List.getD_eq_getElem ks 0 hj']
            exact List.getElem_mem hj'
          have hkj : k < ks.getD j 0 :=
            (keysSorted_mem (some k) hi ks
              (chain_keysSorted (some k) hi ks vs cs hrest) _ hmem).1
          exact ⟨⟨hc, hlk, hkj, hih.1⟩, hih.2⟩

/-- Routing through an internal chain: the child at the scan position of an
absent key is responsible for an interval containing the key, the chain can
be rebuilt with that child replaced, or with that child split into two
halves around a median; the child's interval is contained in the chain's,
and anything inside it separates the surrounding keys. -/
theorem chain_route {P : Option Nat → Option Nat → BNode → Prop} (key : Nat) :
    ∀ lo hi ks vs cs, chainWF P lo hi ks vs cs →
    optLtK lo key → optKLt key hi →
    (∀ p, p < ks.length → ks.getD p 0 ≠ key) →
    ∃ lo' hi',
      P lo' hi' (cs.getD (btree_find_scan key ks) default) ∧
      optLtK lo' key ∧ optKLt key hi' ∧
      (∀ c', P lo' hi' c' →
        chainWF P lo hi ks vs (cs.set (btree_find_scan key ks) c')) ∧
      (∀ m mv ln rn, optLtK lo' m → optKLt m hi' →
        P lo' (some m) ln → P (some m) hi' rn →
        chainWF P lo hi
          (ks.take (btree_find_scan key ks) ++ m :: ks.drop (btree_find_scan key ks))
          (vs.take (btree_find_scan key ks) ++ mv :: vs.drop (btree_find_scan key ks))
          (cs.take (btree_find_scan key ks) ++ ln :: rn ::
            cs.drop (btree_find_scan key ks + 1))) ∧
      (∀ x, optLtK lo' x → optLtK lo x) ∧
      (∀ x, optKLt x hi' → optKLt x hi) ∧
      (∀ x, optLtK lo' x → ∀ p, p < btree_find_scan key ks → ks.getD p 0 < x) ∧
      (∀ x, optKLt x hi' → ∀ p, btree_find_scan key ks ≤ p → p < ks.length →
        x < ks.getD p 0) := by
  intro lo hi ks
  induction ks generalizing lo with
  | nil =>
    intro vs cs hw hklo hkhi hnotin
    cases vs with
    | cons v vs => exact hw.elim
    | nil =>
      cases cs with
      | nil => exact hw.elim
      | cons c cs =>
        cases cs with
        | cons d cs => exact hw.elim
        | nil =>
          refine ⟨lo, hi, hw, hklo, hkhi, ?_, ?_, fun x hx => hx, fun x hx => hx,
            ?_, ?_⟩
          · intro c' hc'
            exact hc'
          · intro m mv ln rn h1 h2 h3 h4
            exact ⟨h3, h1, h2, h4⟩
          · intro x _ p hp
            simp [btree_find_scan] at hp
          · intro x _ p _ hp
            simp at hp
  | cons k ks ih =>
    intro vs cs hw hklo hkhi hnotin
    cases vs with
    | nil => exact hw.elim
    | cons v vs =>
      cases cs with
      | nil => exact hw.elim
      | cons c cs =>
        obtain ⟨hc, hlk, hkh, hrest⟩ := hw
        have hkne : key ≠ k := fun h => hnotin 0 (by simp) h.symm
        have hscons : btree_find_scan key (k :: ks) =
            if key ≤ k then 0 else btree_find_scan key ks + 1 := rfl
        have hrestsort := chain_keysSorted (some k) hi ks vs cs hrest
        by_cases hkk : key ≤ k
        · have hkltk : key < k := by omega
          rw [hscons, if_pos hkk]
          refine ⟨lo, some k, hc, hklo, hkltk, ?_, ?_, fun x hx => hx, ?_, ?_, ?_⟩
          · intro c' hc'
            exact ⟨hc', hlk, hkh, hrest⟩
          · intro m mv ln rn h1 h2 h3 h4
            exact ⟨h3, h1, optKLt_trans m k hi h2 hkh, h4, h2, hkh, hrest⟩
          · intro x hx
            exact optKLt_trans x k hi hx hkh
          · intro x _ p hp
            omega
          · intro x hx p _ hp
            have hxk : x < k := hx
            cases p with
            | zero => exact hxk
            | succ p =>
              have hp' : p < ks.length := by simpa using hp
              have hmem : ks.getD p 0 ∈ ks := by
                rw [List.getD_eq_getElem ks 0 hp']
                exact List.getElem_mem hp'
              have := (keysSorted_mem (some k) hi ks hrestsort _ hmem).1
              show x < ks.getD p 0
              have hkp : k < ks.getD p 0 := this
              omega
        · have hkgt : k < key := by omega
          rw [hscons, if_neg hkk]
          obtain ⟨lo', hi', hP, hlo', hhi', hset, hsplice, hm1, hm2, hlowr, hhighr⟩ :=
            ih (some k) vs cs hrest hkgt hkhi
              (fun p hp => by simpa using hnotin (p + 1) (by simpa using hp))
          refine ⟨lo', hi', hP, hlo', hhi', ?_, ?_, ?_, hm2, ?_, ?_⟩
          · intro c' hc'
            exact ⟨hc, hlk, hkh, hset c' hc'⟩
          · intro m mv ln rn h1 h2 h3 h4
            exact ⟨hc, hlk, hkh, hsplice m mv ln rn h1 h2 h3 h4⟩
          · intro x hx
            have hkx : k < x := hm1 x hx
            exact optLtK_trans lo k x hlk hkx
          · intro x hx p hp
            cases p with
            | zero => exact hm1 x hx
            | succ p =>
              have := hlowr x hx p (by omega)
              simpa using this
          · intro x hx p hp1 hp2
            cases p with
            | zero => omega
            | succ p =>
              have := hhighr x hx p (by omega) (by simpa using hp2)
              simpa using this

/-! ### Splitting a full node: the two halves -/

/-- `btree_find` through a full 7-key node against its two 3-key halves:
keys below the median find the same result in the left half, the median is
found at the node itself, keys above find the same result in the right
half. -/
theorem split_partition (il : Bool) (ks : List Nat) (vs : List (List Nat))
    (cs : List BNode)
    (hg : ∀ a b, a < b → b < ks.length → ks.getD a 0 < ks.getD b 0)
    (hlen : ks.length = 7)
    (hcs : il = false → cs.length = 8) :
    (∀ k, k < ks.getD 3 0 →
      btree_find k (.node il ks vs cs) =
      btree_find k (.node il (ks.take 3) (vs.take 3) (cs.take 4))) ∧
    (btree_find (ks.getD 3 0) (.node il ks vs cs) = some (vs.getD 3 [])) ∧
    (∀ k, ks.getD 3 0 < k →
      btree_find k (.node il ks vs cs) =
      btree_find k (.node il (ks.drop 4) (vs.drop 4) (cs.drop 4))) := by
  refine ⟨?_, ?_, ?_⟩
  · intro k hk
    have hjle : btree_find_scan k ks ≤ 3 := by
      by_contra hc
      have := find_scan_lt k ks 3 (by omega)
      omega
    have htake : btree_find_scan k (ks.take 3) = btree_find_scan k ks := by
      rw [scan_take_eq k ks 3 (by omega)]
      omega
    have hlent : (ks.take 3).length = 3 := by simp [hlen]
    cases il with
    | true =>
      rw [find_leaf, find_leaf, htake]
      by_cases hjs : btree_find_scan k ks < 3
      · rw [getD_take _ _ _ _ hjs]
        by_cases hke : ks.getD (btree_find_scan k ks) 0 = k
        · rw [if_pos ⟨by omega, hke⟩, if_pos ⟨by omega, hke⟩,
            getD_take _ _ _ _ hjs]
        · rw [if_neg (by intro hc; exact hke hc.2),
            if_neg (by intro hc; exact hke hc.2)]
      · have hj3 : btree_find_scan k ks = 3 := by omega
        rw [hj3]
        rw [if_neg (by intro hc; omega), if_neg (by intro hc; omega)]
    | false =>
      have hlc : cs.length = ks.length + 1 := by rw [hcs rfl, hlen]
      have hlc' : (cs.take 4).length = (ks.take 3).length + 1 := by
        simp [hcs rfl, hlen]
      rw [find_internal _ _ _ _ hlc, find_internal _ _ _ _ hlc', htake]
      by_cases hjs : btree_find_scan k ks < 3
      · rw [getD_take _ _ _ _ hjs]
        by_cases hke : ks.getD (btree_find_scan k ks) 0 = k
        · rw [if_pos ⟨by omega, hke⟩, if_pos ⟨by omega, hke⟩,
            getD_take _ _ _ _ hjs]
        · rw [if_neg (by intro hc; exact hke hc.2),
            if_neg (by intro hc; exact hke hc.2),
            getD_take _ _ _ _ (by omega : btree_find_scan k ks < 4)]
      · have hj3 : btree_find_scan k ks = 3 := by omega
        rw [hj3]
        rw [if_neg (by intro hc; omega), if_neg (by intro hc; omega),
          getD_take _ _ _ _ (by omega : (3 : Nat) < 4)]
  · have hj := find_scan_present (ks.getD 3 0) ks hg 3 (by omega) rfl
    cases il with
    | true =>
      rw [find_leaf, hj, if_pos ⟨by omega, rfl⟩]
    | false =>
      have hlc : cs.length = ks.length + 1 := by rw [hcs rfl, hlen]
      rw [find_internal _ _ _ _ hlc, hj, if_pos ⟨by omega, rfl⟩]
  · intro k hk
    have hjge : 4 ≤ btree_find_scan k ks := by
      by_contra hc
      have h1 := find_scan_ge k ks (by omega)
      rcases Nat.lt_or_ge (btree_find_scan k ks) 3 with h2 | h2
      · have := hg _ 3 h2 (by omega)
        omega
      · have h3 : btree_find_scan k ks = 3 := by omega
        rw [h3] at h1
        omega
    have hjlek := find_scan_le k ks
    have hdrop : btree_find_scan k (ks.drop 4) = btree_find_scan k ks - 4 :=
      scan_drop_eq k ks 4 hjge
    have hgd : (ks.drop 4).getD (btree_find_scan k ks - 4) 0 =
        ks.getD (btree_find_scan k ks) 0 := by
      rw [getD_drop]
      congr 1
      omega
    have hgv : (vs.drop 4).getD (btree_find_scan k ks - 4) [] =
        vs.getD (btree_find_scan k ks) [] := by
      rw [getD_drop]
      congr 1
      omega
    have hlend : (ks.drop 4).length = 3 := by simp [hlen]
    cases il with
    | true =>
      rw [find_leaf, find_leaf, hdrop]
      by_cases hke : btree_find_scan k ks < ks.length ∧
          ks.getD (btree_find_scan k ks) 0 = k
      · rw [if_pos hke,
          if_pos ⟨by omega, by rw [hgd]; exact hke.2⟩, hgv]
      · rw [if_neg hke,
          if_neg (by
            intro hc
            rw [hgd] at hc
            exact hke ⟨by omega, hc.2⟩)]
    | false =>
      have hlc : cs.length = ks.length + 1 := by rw [hcs rfl, hlen]
      have hlc' : (cs.drop 4).length = (ks.drop 4).length + 1 := by
        simp [hcs rfl, hlen]
      have hgc : (cs.drop 4).getD (btree_find_scan k ks - 4) default =
          cs.getD (btree_find_scan k ks) default := by
        rw [getD_drop]
        congr 1
        omega
      rw [find_internal _ _ _ _ hlc, find_internal _ _ _ _ hlc', hdrop]
      by_cases hke : btree_find_scan k ks < ks.length ∧
          ks.getD (btree_find_scan k ks) 0 = k
      · rw [if_pos hke,
          if_pos ⟨by omega, by rw [hgd]; exact hke.2⟩, hgv]
      · rw [if_neg hke,
          if_neg (by
            intro hc
            rw [hgd] at hc
            exact hke ⟨by omega, hc.2⟩), hgc]

/-- Splitting the child at slot `j` into two halves around a median `m`
(and inserting the median key/value at slot `j`) does not change the result
of `btree_find` for any key. -/
theorem find_splice (ks : List Nat) (vs : List (List Nat)) (cs : List BNode)
    (j m : Nat) (mv : List Nat) (ln rn : BNode)
    (hlen : cs.length = ks.length + 1) (hvl : vs.length = ks.length)
    (hj : j ≤ ks.length)
    (hlow : ∀ p, p < j → ks.getD p 0 < m)
    (hhigh : ∀ p, j ≤ p → p < ks.length → m < ks.getD p 0)
    (hpl : ∀ k, k < m → btree_find k (cs.getD j default) = btree_find k ln)
    (hpm : btree_find m (cs.getD j default) = some mv)
    (hpr : ∀ k, m < k → btree_find k (cs.getD j default) = btree_find k rn) :
    ∀ k, btree_find k (.node false (ks.take j ++ m :: ks.drop j)
        (vs.take j ++ mv :: vs.drop j)
        (cs.take j ++ ln :: rn :: cs.drop (j + 1))) =
      btree_find k (.node false ks vs cs) := by
  intro k
  have hlen' : (cs.take j ++ ln :: rn :: cs.drop (j + 1)).length =
      (ks.take j ++ m :: ks.drop j).length + 1 := by
    rw [length_splice _ _ _ _ (by omega), length_insertAt _ _ _ hj]
    omega
  have hleni := length_insertAt ks j m hj
  rw [find_internal _ _ _ _ hlen', find_internal _ _ _ _ hlen]
  have hsc := scan_insertAt k m ks j hj hlow hhigh
  have hjlek := find_scan_le k ks
  by_cases hke : k = m
  · subst hke
    have hjk : btree_find_scan k ks = j := by
      have h1 := find_scan_le k ks
      have h2 := find_scan_lt k ks
      have h3 := find_scan_ge k ks
      by_contra hc
      rcases Nat.lt_or_ge (btree_find_scan k ks) j with hlt | hge
      · have := hlow _ hlt
        have := h3 (by omega)
        omega
      · have hgt : j < btree_find_scan k ks := by omega
        have := h2 j hgt
        have := hhigh j (by omega) (by omega)
        omega
    rw [hsc, if_pos (le_refl k), hjk]
    rw [if_pos ⟨by omega, getD_insertAt_self ks j k 0 hj⟩]
    rw [getD_insertAt_self vs j mv [] (by omega)]
    rw [if_neg (by
      intro hc
      have := hhigh j (by omega) (by omega)
      omega)]
    exact hpm.symm
  · rcases Nat.lt_or_ge k m with hkm | hkm'
    · -- k below the median
      have hkm' : k ≤ m := by omega
      rw [hsc, if_pos hkm']
      have hjle : btree_find_scan k ks ≤ j := by
        by_contra hc
        have h2 := find_scan_lt k ks j (by omega)
        have := hhigh j (by omega) (by omega)
        omega
      rcases Nat.lt_or_ge (btree_find_scan k ks) j with hlt | hge
      · -- routed strictly left of the split slot
        rw [getD_insertAt_lt ks j m _ 0 hlt hj]
        by_cases hf : btree_find_scan k ks < ks.length ∧
            ks.getD (btree_find_scan k ks) 0 = k
        · rw [if_pos ⟨by omega, hf.2⟩, if_pos hf,
            getD_insertAt_lt vs j mv _ [] hlt (by omega)]
        · rw [if_neg (by intro hc; exact hf ⟨by omega, hc.2⟩), if_neg hf,
            getD_splice_lt cs j ln rn _ default hlt (by omega)]
      · -- routed exactly at the split slot
        have hjj : btree_find_scan k ks = j := by omega
        rw [hjj, getD_insertAt_self ks j m 0 hj]
        rw [if_neg (by intro hc; exact hke hc.2.symm)]
        rw [if_neg (by
          intro hc
          have := hhigh j (by omega) hc.1
          omega)]
        rw [getD_splice_self cs j ln rn default (by omega)]
        exact (hpl k hkm).symm
    · -- k above the median
      have hkm2 : ¬ k ≤ m := by omega
      rw [hsc, if_neg hkm2]
      have hge : j ≤ btree_find_scan k ks := by
        by_contra hc
        have h3 := find_scan_ge k ks (by omega)
        have := hlow _ (by omega : btree_find_scan k ks < j)
        omega
      rcases Nat.eq_or_lt_of_le hge with hjj | hgt
      · -- routed exactly at the split slot: descend into the right half
        rw [← hjj]
        rw [getD_insertAt_gt ks j m (j + 1) 0 (by omega) hj,
          getD_insertAt_gt vs j mv (j + 1) [] (by omega) (by omega),
          getD_splice_succ cs j ln rn default (by omega),
          show j + 1 - 1 = j from by omega, hleni]
        by_cases hf : j < ks.length ∧ ks.getD j 0 = k
        · rw [if_pos ⟨by omega, hf.2⟩, if_pos hf]
        · rw [if_neg (by intro hc; exact hf ⟨by omega, hc.2⟩), if_neg hf]
          exact (hpr k (by omega)).symm
      · -- routed strictly right of the split slot
        rw [getD_insertAt_gt ks j m (btree_find_scan k ks + 1) 0 (by omega) hj,
          getD_insertAt_gt vs j mv (btree_find_scan k ks + 1) [] (by omega)
            (by omega),
          getD_splice_gt cs j ln rn (btree_find_scan k ks + 1) default
            (by omega) (by omega),
          show btree_find_scan k ks + 1 - 1 = btree_find_scan k ks from by omega,
          hleni]
        by_cases hf : btree_find_scan k ks < ks.length ∧
            ks.getD (btree_find_scan k ks) 0 = k
        · rw [if_pos ⟨by omega, hf.2⟩, if_pos hf]
        · rw [if_neg (by intro hc; exact hf ⟨by omega, hc.2⟩), if_neg hf]

/-- Inserting an absent key at its scan position in a leaf: `find` answers
`val` at the new key and is unchanged elsewhere. -/
theorem find_leaf_insert (ks : List Nat) (vs : List (List Nat)) (key : Nat)
    (val : List Nat) (ch : List BNode) (hvl : vs.length = ks.length)
    (hhigh : ∀ p, btree_find_scan key ks ≤ p → p < ks.length →
      key < ks.getD p 0) :
    ∀ k, btree_find k (.node true
        (ks.take (btree_find_scan key ks) ++ key ::
          ks.drop (btree_find_scan key ks))
        (vs.take (btree_find_scan key ks) ++ val ::
          vs.drop (btree_find_scan key ks)) ch) =
      if k = key then some val else btree_find k (.node true ks vs ch) := by
  intro k
  have hj := find_scan_le key ks
  have hsc := scan_insertAt k key ks (btree_find_scan key ks) hj
    (find_scan_lt key ks) hhigh
  have hleni := length_insertAt ks (btree_find_scan key ks) key hj
  rw [find_leaf, find_leaf, hleni]
  by_cases hke : k = key
  · subst hke
    have hsc' : btree_find_scan k (ks.take (btree_find_scan k ks) ++ k ::
        ks.drop (btree_find_scan k ks)) = btree_find_scan k ks := by
      rw [hsc, if_pos (le_refl k)]
    rw [hsc', getD_insertAt_self ks _ k 0 hj,
      getD_insertAt_self vs _ val [] (by omega)]
    rw [if_pos ⟨by omega, rfl⟩, if_pos rfl]
  · rw [if_neg hke]
    rcases Nat.lt_or_ge k key with hkk | hkk
    · have hsc' : btree_find_scan k (ks.take (btree_find_scan key ks) ++ key ::
          ks.drop (btree_find_scan key ks)) = btree_find_scan k ks := by
        rw [hsc, if_pos (by omega)]
      rw [hsc']
      have hrle : btree_find_scan k ks ≤ btree_find_scan key ks := by
        by_contra hc
        have h1 := find_scan_lt k ks (btree_find_scan key ks) (by omega)
        have h2 := hhigh (btree_find_scan key ks) (le_refl _)
          (by have := find_scan_le k ks; omega)
        omega
      rcases Nat.eq_or_lt_of_le hrle with hreq | hrlt
      · rw [hreq, getD_insertAt_self ks _ key 0 hj]
        rw [if_neg (by intro hc; exact hke hc.2.symm)]
        rw [if_neg (by
          intro hc
          rw [← hreq] at hc
          have := hhigh _ (by omega) hc.1
          omega)]
      · rw [getD_insertAt_lt ks _ key _ 0 hrlt hj,
          getD_insertAt_lt vs _ val _ [] hrlt (by omega)]
        by_cases hf : btree_find_scan k ks < ks.length ∧
            ks.getD (btree_find_scan k ks) 0 = k
        · rw [if_pos ⟨by omega, hf.2⟩, if_pos hf]
        · rw [if_neg (by intro hc; exact hf ⟨by omega, hc.2⟩), if_neg hf]
    · have hkk2 : key < k := by omega
      have hsc' : btree_find_scan k (ks.take (btree_find_scan key ks) ++ key ::
          ks.drop (btree_find_scan key ks)) = btree_find_scan k ks + 1 := by
        rw [hsc, if_neg (by omega)]
      rw [hsc']
      have hrge : btree_find_scan key ks ≤ btree_find_scan k ks := by
        by_contra hc
        have h1 := find_scan_ge k ks (by have := find_scan_le key ks; omega)
        have h2 := find_scan_lt key ks (btree_find_scan k ks) (by omega)
        omega
      rw [getD_insertAt_gt ks _ key (btree_find_scan k ks + 1) 0 (by omega) hj,
        getD_insertAt_gt vs _ val (btree_find_scan k ks + 1) [] (by omega)
          (by omega),
        show btree_find_scan k ks + 1 - 1 = btree_find_scan k ks from by omega]
      by_cases hf : btree_find_scan k ks < ks.length ∧
          ks.getD (btree_find_scan k ks) 0 = k
      · rw [if_pos ⟨by omega, hf.2⟩, if_pos hf]
      · rw [if_neg (by intro hc; exact hf ⟨by omega, hc.2⟩), if_neg hf]

/-- The full package for splitting a full (7-key) well-formed node: both
halves are well formed at the same height on the two sub-intervals around
the median, the median lies strictly inside the node's interval, and
`btree_find` partitions accordingly. -/
theorem split_halves (h : Nat) (lo hi : Option Nat) (c : BNode)
    (hw : WFB h lo hi c) (hfull : c.numkeys = BTREE_MAX_KEYS) :
    WFB h lo (some (c.keys.getD 3 0))
      (.node c.isleaf (c.keys.take 3) (c.values.take 3) (c.children.take 4)) ∧
    WFB h (some (c.keys.getD 3 0)) hi
      (.node c.isleaf (c.keys.drop 4) (c.values.drop 4) (c.children.drop 4)) ∧
    optLtK lo (c.keys.getD 3 0) ∧ optKLt (c.keys.getD 3 0) hi ∧
    (∀ k, k < c.keys.getD 3 0 → btree_find k c =
      btree_find k (.node c.isleaf (c.keys.take 3) (c.values.take 3)
        (c.children.take 4))) ∧
    btree_find (c.keys.getD 3 0) c = some (c.values.getD 3 []) ∧
    (∀ k, c.keys.getD 3 0 < k → btree_find k c =
      btree_find k (.node c.isleaf (c.keys.drop 4) (c.values.drop 4)
        (c.children.drop 4))) := by
  cases c with
  | node il ks vs cs =>
    simp only [BNode.isleaf, BNode.keys, BNode.values, BNode.children,
      BNode.numkeys] at hfull ⊢
    cases h with
    | zero => exact hw.elim
    | succ h =>
      cases h with
      | zero =>
        -- leaf
        obtain ⟨hil, hch, hsort, hvl, hmax⟩ := hw
        subst hil
        have hlen : ks.length = 7 := hfull
        have hg := keysSorted_getD lo hi ks hsort
        have hm3 : ks.getD 3 0 ∈ ks := by
          rw [List.getD_eq_getElem ks 0 (by omega)]
          exact List.getElem_mem (by omega)
        obtain ⟨hmlo, hmhi⟩ := keysSorted_mem lo hi ks hsort _ hm3
        obtain ⟨hp1, hp2, hp3⟩ := split_partition true ks vs cs hg hlen
          (fun hc => Bool.noConfusion hc)
        refine ⟨?_, ?_, hmlo, hmhi, hp1, hp2, hp3⟩
        · show WFB 1 lo (some (ks.getD 3 0)) _
          refine ⟨rfl, by simp [hch], ?_, ?_, ?_⟩
          · exact keysSorted_take_mid lo hi ks hsort 3 (by omega)
          · simp [hvl, hlen]
          · simp [hlen]
            decide
        · show WFB 1 (some (ks.getD 3 0)) hi _
          have hdrop4 : ks.drop 4 = ks.drop (3 + 1) := rfl
          refine ⟨rfl, by simp [hch], ?_, ?_, ?_⟩
          · rw [hdrop4]
            exact keysSorted_drop_mid lo hi ks hsort 3 (by omega)
          · simp [hvl, hlen]
          · simp [hlen]
            decide
      | succ g =>
        -- internal
        obtain ⟨hil, hmax, hchain⟩ := hw
        subst hil
        have hsort := chain_keysSorted lo hi ks vs cs hchain
        obtain ⟨hvl, hcl⟩ := chain_lengths lo hi ks vs cs hchain
        have hlen : ks.length = 7 := hfull
        have hg := keysSorted_getD lo hi ks hsort
        have hm3 : ks.getD 3 0 ∈ ks := by
          rw [List.getD_eq_getElem ks 0 (by omega)]
          exact List.getElem_mem (by omega)
        obtain ⟨hmlo, hmhi⟩ := keysSorted_mem lo hi ks hsort _ hm3
        obtain ⟨hp1, hp2, hp3⟩ := split_partition false ks vs cs hg hlen
          (fun _ => by omega)
        obtain ⟨hct, hcd⟩ := chain_split lo hi ks vs cs 3 hchain (by omega)
        refine ⟨?_, ?_, hmlo, hmhi, hp1, hp2, hp3⟩
        · show WFB (g + 2) lo (some (ks.getD 3 0)) _
          refine ⟨rfl, ?_, ?_⟩
          · simp [hlen]
            decide
          · exact hct
        · show WFB (g + 2) (some (ks.getD 3 0)) hi _
          refine ⟨rfl, ?_, ?_⟩
          · simp [hlen]
            decide
          · exact hcd

/-- `btree_split_child` on a full child under a non-full parent: the
explicit result. -/
theorem split_child_eq (il : Bool) (ks : List Nat) (vs : List (List Nat))
    (cs : List BNode) (j : Nat) (c : BNode)
    (hfull : c.numkeys = BTREE_MAX_KEYS)
    (hnf : ¬ ks.length = BTREE_MAX_KEYS) :
    btree_split_child (.node il ks vs cs) j c =
    some (.node il
      (ks.take j ++ c.keys.getD 3 0 :: ks.drop j)
      (vs.take j ++ c.values.getD 3 [] :: vs.drop j)
      (cs.take j ++
        (.node c.isleaf (c.keys.take 3) (c.values.take 3) (c.children.take 4)) ::
        (.node c.isleaf (c.keys.drop 4) (c.values.drop 4) (c.children.drop 4)) ::
        cs.drop (j + 1))) := by
  unfold btree_split_child
  rw [if_pos ⟨hfull, hnf⟩]
  rfl

/-- Descending into a non-full child of an internal node: the add-spec of
the children's height lifts through the rebuilt node. -/
theorem add_descend_step (g f2 : Nat) (lo hi : Option Nat) (ks : List Nat)
    (vs : List (List Nat)) (cs : List BNode) (key : Nat) (val : List Nat)
    (replace : Bool)
    (ih : AddSpec (g + 1))
    (hchain : chainWF (fun lo hi c => WFB (g + 1) lo hi c) lo hi ks vs cs)
    (hmax : ks.length ≤ BTREE_MAX_KEYS)
    (hklo : optLtK lo key) (hkhi : optKLt key hi)
    (hnotin : ∀ p, p < ks.length → ks.getD p 0 ≠ key)
    (hnotfull : (cs.getD (btree_find_scan key ks) default).numkeys ≠
      BTREE_MAX_KEYS)
    (hfuel : 2 * (g + 1) ≤ f2) :
    WFB (g + 2) lo hi (.node false ks vs (cs.set (btree_find_scan key ks)
      (btree_add_nonfull f2 (cs.getD (btree_find_scan key ks) default)
        key val replace).2)) ∧
    ((btree_add_nonfull f2 (cs.getD (btree_find_scan key ks) default)
        key val replace).1 = none → ∀ k,
      btree_find k (.node false ks vs (cs.set (btree_find_scan key ks)
        (btree_add_nonfull f2 (cs.getD (btree_find_scan key ks) default)
          key val replace).2)) =
        if k = key then some val else btree_find k (.node false ks vs cs)) ∧
    (∀ e, (btree_add_nonfull f2 (cs.getD (btree_find_scan key ks) default)
        key val replace).1 = some e → e = .dup ∧ replace = false ∧
      btree_find key (.node false ks vs cs) ≠ none ∧
      ∀ k, btree_find k (.node false ks vs (cs.set (btree_find_scan key ks)
        (btree_add_nonfull f2 (cs.getD (btree_find_scan key ks) default)
          key val replace).2)) =
        btree_find k (.node false ks vs cs)) ∧
    (btree_find key (.node false ks vs cs) = none →
      (btree_add_nonfull f2 (cs.getD (btree_find_scan key ks) default)
        key val replace).1 = none) ∧
    (btree_find key (.node false ks vs cs) ≠ none → replace = false →
      (btree_add_nonfull f2 (cs.getD (btree_find_scan key ks) default)
        key val replace).1 = some .dup) := by
  obtain ⟨hvl, hcl⟩ := chain_lengths lo hi ks vs cs hchain
  obtain ⟨lo', hi', hP, hlo', hhi', hset, hsplice, hm1, hm2, hlowr, hhighr⟩ :=
    chain_route key lo hi ks vs cs hchain hklo hkhi hnotin
  have hjle := find_scan_le key ks
  have hdesc : btree_find key (.node false ks vs cs) =
      btree_find key (cs.getD (btree_find_scan key ks) default) := by
    rw [find_internal _ _ _ _ hcl,
      if_neg (fun hc => hnotin _ hc.1 hc.2)]
  obtain ⟨ih1, ih2, ih3, ih4, ih5⟩ :=
    ih f2 lo' hi' (cs.getD (btree_find_scan key ks) default) key val replace
      hP hlo' hhi' hnotfull hfuel
  refine ⟨⟨rfl, hmax, hset _ ih1⟩, ?_, ?_, ?_, ?_⟩
  · intro he k
    exact find_set_child key ks vs cs _ (some val) hcl hnotin (ih2 he) k
  · intro e he
    obtain ⟨he1, he2, he3, he4⟩ := ih3 e he
    refine ⟨he1, he2, by rw [hdesc]; exact he3, ?_⟩
    intro k
    have hrep : ∀ k', btree_find k'
        (btree_add_nonfull f2 (cs.getD (btree_find_scan key ks) default)
          key val replace).2 =
        if k' = key then
          btree_find key (cs.getD (btree_find_scan key ks) default)
        else btree_find k' (cs.getD (btree_find_scan key ks) default) := by
      intro k'
      by_cases hk' : k' = key
      · rw [if_pos hk', hk']
        exact he4 key
      · rw [if_neg hk']
        exact he4 k'
    rw [find_set_child key ks vs cs _
      (btree_find key (cs.getD (btree_find_scan key ks) default))
      hcl hnotin hrep k]
    by_cases hk : k = key
    · rw [if_pos hk, hk, hdesc]
    · rw [if_neg hk]
  · intro habs
    rw [hdesc] at habs
    exact ih4 habs
  · intro hpres hrep
    rw [hdesc] at hpres
    exact ih5 hpres hrep

/-- Correctness of `btree_add_nonfull` at every height (see `AddSpec`). -/
theorem add_nonfull_spec : ∀ h : Nat, AddSpec h := by
  intro h
  induction h with
  | zero =>
    intro fuel lo hi t key val replace hw
    exact hw.elim
  | succ h ih =>
    intro fuel lo hi t key val replace hw hklo hkhi hnf hfuel
    cases fuel with
    | zero => exact absurd hfuel (by omega)
    | succ f =>
      cases t with
      | node il ks vs cs =>
        have hnf' : ¬ ks.length = BTREE_MAX_KEYS := hnf
        cases h with
        | zero =>
          -- leaf
          obtain ⟨hil, hch, hsort, hvl, hmax⟩ := id hw
          subst hil
          have hg := keysSorted_getD lo hi ks hsort
          obtain ⟨sc1, sc2⟩ := seek_char key lo hi ks hsort
          cases hsp : btree_seek key ks with
          | mk iv fv =>
            simp only [hsp] at sc1 sc2
            cases fv with
            | true =>
              obtain ⟨hs1, hs2, hs3⟩ := sc1 rfl
              subst hs1
              have hfind : btree_find key (.node true ks vs cs) =
                  some (vs.getD (btree_find_scan key ks) []) := by
                rw [find_leaf, if_pos ⟨hs2, hs3⟩]
              cases replace with
              | false =>
                have hE : btree_add_nonfull (f + 1) (.node true ks vs cs)
                    key val false = (some .dup, .node true ks vs cs) := by
                  simp only [btree_add_nonfull, BNode.keys, BNode.isleaf,
                    BNode.children, BNode.values, hsp, ite_true, ite_false,
                    eq_self_iff_true, Bool.false_eq_true, if_true, if_false,
                    Bool.not_false, Bool.not_true, Option.getD_some]
                rw [hE]
                refine ⟨hw, ?_, ?_, ?_, ?_⟩
                · intro h0
                  exact Option.noConfusion h0
                · intro e he
                  cases he
                  refine ⟨rfl, rfl, ?_, fun k => rfl⟩
                  rw [hfind]
                  simp
                · intro habs
                  rw [hfind] at habs
                  exact Option.noConfusion habs
                · intro _ _
                  rfl
              | true =>
                have hE : btree_add_nonfull (f + 1) (.node true ks vs cs)
                    key val true = (none, .node true ks
                      (vs.set (btree_find_scan key ks) val) cs) := by
                  simp only [btree_add_nonfull, BNode.keys, BNode.isleaf,
                    BNode.children, BNode.values, hsp, ite_true, ite_false,
                    eq_self_iff_true, Bool.false_eq_true, if_true, if_false,
                    Bool.not_false, Bool.not_true, Option.getD_some]
                rw [hE]
                refine ⟨?_, ?_, ?_, ?_, ?_⟩
                · exact ⟨rfl, hch, hsort, by simpa using hvl, hmax⟩
                · intro _ k
                  exact find_value_set key true ks vs cs val hs2 hs3 hvl
                    (fun hc => Bool.noConfusion hc) k
                · intro e he
                  exact Option.noConfusion he
                · intro _
                  rfl
                · intro hpres hrepc
                  exact Bool.noConfusion hrepc
            | false =>
              obtain ⟨hroute, hnotin⟩ := sc2 rfl
              have hjle := find_scan_le key ks
              have hhigh : ∀ p, btree_find_scan key ks ≤ p → p < ks.length →
                  key < ks.getD p 0 := by
                intro p h1 h2
                have h3 := find_scan_ge key ks (by omega)
                have h4 := hnotin p h2
                rcases Nat.eq_or_lt_of_le h1 with h5 | h5
                · rw [← h5] at h4 ⊢
                  omega
                · have := hg _ p h5 h2
                  omega
              have hnone : btree_find key (.node true ks vs cs) = none := by
                rw [find_leaf, if_neg (fun hc => hnotin _ hc.1 hc.2)]
              have hE : btree_add_nonfull (f + 1) (.node true ks vs cs)
                  key val replace = (none, btree_node_insert_key_at
                    (.node true ks vs cs) (childIdx iv) key val) := by
                simp only [btree_add_nonfull, BNode.keys, BNode.isleaf,
                  BNode.children, BNode.values, hsp, ite_true, ite_false,
                  eq_self_iff_true, Bool.false_eq_true, if_true, if_false,
                  Bool.not_false, Bool.not_true, Option.getD_some]
              have hEi : btree_node_insert_key_at (.node true ks vs cs)
                  (childIdx iv) key val = .node true
                    (ks.take (btree_find_scan key ks) ++ key ::
                      ks.drop (btree_find_scan key ks))
                    (vs.take (btree_find_scan key ks) ++ val ::
                      vs.drop (btree_find_scan key ks)) cs := by
                rw [hroute]
                rfl
              rw [hEi] at hE
              rw [hE]
              refine ⟨?_, ?_, ?_, ?_, ?_⟩
              · refine ⟨rfl, hch, ?_, ?_, ?_⟩
                · exact keysSorted_insertAt lo hi ks key _ hsort hjle hklo hkhi
                    (find_scan_lt key ks) hhigh
                · rw [length_insertAt _ _ _ hjle,
                    length_insertAt _ _ _ (by omega)]
                  omega
                · rw [length_insertAt _ _ _ hjle]
                  have h7 : BTREE_MAX_KEYS = 7 := rfl
                  omega
              · intro _ k
                exact find_leaf_insert ks vs key val cs hvl hhigh k
              · intro e he
                exact Option.noConfusion he
              · intro _
                rfl
              · intro hpres _
                exact absurd hnone hpres
        | succ g =>
          -- internal
          obtain ⟨hil, hmax, hchain⟩ := id hw
          subst hil
          have hsort := chain_keysSorted lo hi ks vs cs hchain
          obtain ⟨hvl, hcl⟩ := chain_lengths lo hi ks vs cs hchain
          have hg := keysSorted_getD lo hi ks hsort
          obtain ⟨sc1, sc2⟩ := seek_char key lo hi ks hsort
          cases hsp : btree_seek key ks with
          | mk iv fv =>
            simp only [hsp] at sc1 sc2
            cases fv with
            | true =>
              obtain ⟨hs1, hs2, hs3⟩ := sc1 rfl
              subst hs1
              have hfind : btree_find key (.node false ks vs cs) =
                  some (vs.getD (btree_find_scan key ks) []) := by
                rw [find_internal _ _ _ _ hcl, if_pos ⟨hs2, hs3⟩]
              cases replace with
              | false =>
                have hE : btree_add_nonfull (f + 1) (.node false ks vs cs)
                    key val false = (some .dup, .node false ks vs cs) := by
                  simp only [btree_add_nonfull, BNode.keys, BNode.isleaf,
                    BNode.children, BNode.values, hsp, ite_true, ite_false,
                    eq_self_iff_true, Bool.false_eq_true, if_true, if_false,
                    Bool.not_false, Bool.not_true, Option.getD_some]
                rw [hE]
                refine ⟨hw, ?_, ?_, ?_, ?_⟩
                · intro h0
                  exact Option.noConfusion h0
                · intro e he
                  cases he
                  refine ⟨rfl, rfl, ?_, fun k => rfl⟩
                  rw [hfind]
                  simp
                · intro habs
                  rw [hfind] at habs
                  exact Option.noConfusion habs
                · intro _ _
                  rfl
              | true =>
                have hE : btree_add_nonfull (f + 1) (.node false ks vs cs)
                    key val true = (none, .node false ks
                      (vs.set (btree_find_scan key ks) val) cs) := by
                  simp only [btree_add_nonfull, BNode.keys, BNode.isleaf,
                    BNode.children, BNode.values, hsp, ite_true, ite_false,
                    eq_self_iff_true, Bool.false_eq_true, if_true, if_false,
                    Bool.not_false, Bool.not_true, Option.getD_some]
                rw [hE]
                refine ⟨?_, ?_, ?_, ?_, ?_⟩
                · exact ⟨rfl, hmax, chain_value_set lo hi ks vs cs _ val hchain⟩
                · intro _ k
                  exact find_value_set key false ks vs cs val hs2 hs3 hvl
                    (fun _ => hcl) k
                · intro e he
                  exact Option.noConfusion he
                · intro _
                  rfl
                · intro hpres hrepc
                  exact Bool.noConfusion hrepc
            | false =>
              obtain ⟨hroute, hnotin⟩ := sc2 rfl
              have hjle := find_scan_le key ks
              have hdesc : btree_find key (.node false ks vs cs) =
                  btree_find key (cs.getD (btree_find_scan key ks) default) := by
                rw [find_internal _ _ _ _ hcl,
                  if_neg (fun hc => hnotin _ hc.1 hc.2)]
              by_cases hfull0 : btree_node_is_full
                  (cs.getD (childIdx iv) default) = true
              · -- full child: split, then take one more step at the new node
                have hfullk : (cs.getD (childIdx iv) default).numkeys =
                    BTREE_MAX_KEYS := by
                  simpa [btree_node_is_full] using hfull0
                have hsplit := split_child_eq false ks vs cs (childIdx iv)
                  (cs.getD (childIdx iv) default) hfullk hnf'
                have hE : btree_add_nonfull (f + 1) (.node false ks vs cs)
                    key val replace = btree_add_nonfull f
                      (.node false
                        (ks.take (childIdx iv) ++
                          (cs.getD (childIdx iv) default).keys.getD 3 0 ::
                          ks.drop (childIdx iv))
                        (vs.take (childIdx iv) ++
                          (cs.getD (childIdx iv) default).values.getD 3 [] ::
                          vs.drop (childIdx iv))
                        (cs.take (childIdx iv) ++
                          (.node (cs.getD (childIdx iv) default).isleaf
                            ((cs.getD (childIdx iv) default).keys.take 3)
                            ((cs.getD (childIdx iv) default).values.take 3)
                            ((cs.getD (childIdx iv) default).children.take 4)) ::
                          (.node (cs.getD (childIdx iv) default).isleaf
                            ((cs.getD (childIdx iv) default).keys.drop 4)
                            ((cs.getD (childIdx iv) default).values.drop 4)
                            ((cs.getD (childIdx iv) default).children.drop 4)) ::
                          cs.drop (childIdx iv + 1)))
                      key val replace := by
                  simp only [btree_add_nonfull, BNode.keys, BNode.isleaf,
                    BNode.children, BNode.values, hsp, hfull0, hsplit,
                    ite_true, ite_false, eq_self_iff_true, Bool.false_eq_true,
                    if_true, if_false, Bool.not_false, Bool.not_true,
                    Option.getD_some]
                rw [hroute] at hE hfullk
                obtain ⟨lo', hi', hP, hlo', hhi', hset0, hsplice, hm1, hm2,
                  hlowr, hhighr⟩ :=
                  chain_route key lo hi ks vs cs hchain hklo hkhi hnotin
                obtain ⟨hWL, hWR, hmlo', hmhi', hpl, hpm, hpr⟩ :=
                  split_halves (g + 1) lo' hi'
                    (cs.getD (btree_find_scan key ks) default) hP hfullk
                have hchainN := hsplice _
                  ((cs.getD (btree_find_scan key ks) default).values.getD 3 [])
                  _ _ hmlo' hmhi' hWL hWR
                have hsortN := chain_keysSorted lo hi _ _ _ hchainN
                obtain ⟨hvlN, hclN⟩ := chain_lengths lo hi _ _ _ hchainN
                have hlowm := hlowr _ hmlo'
                have hhighm := hhighr _ hmhi'
                have hfsp := find_splice ks vs cs (btree_find_scan key ks)
                  ((cs.getD (btree_find_scan key ks) default).keys.getD 3 0)
                  ((cs.getD (btree_find_scan key ks) default).values.getD 3 [])
                  _ _ hcl hvl hjle hlowm hhighm hpl hpm hpr
                have hlenN := length_insertAt ks (btree_find_scan key ks)
                  ((cs.getD (btree_find_scan key ks) default).keys.getD 3 0) hjle
                have hmaxN : (ks.take (btree_find_scan key ks) ++
                    (cs.getD (btree_find_scan key ks) default).keys.getD 3 0 ::
                    ks.drop (btree_find_scan key ks)).length ≤
                    BTREE_MAX_KEYS := by
                  rw [hlenN]
                  have h7 : BTREE_MAX_KEYS = 7 := rfl
                  omega
                cases f with
                | zero => exact absurd hfuel (by omega)
                | succ f2 =>
                  obtain ⟨sc1N, sc2N⟩ := seek_char key lo hi _ hsortN
                  cases hspN : btree_seek key (ks.take (btree_find_scan key ks) ++
                      (cs.getD (btree_find_scan key ks) default).keys.getD 3 0 ::
                      ks.drop (btree_find_scan key ks)) with
                  | mk ivN fvN =>
                    simp only [hspN] at sc1N sc2N
                    simp only [BNode.keys, BNode.isleaf, BNode.children,
                      BNode.values] at hspN
                    by_cases hkm : key =
                        (cs.getD (btree_find_scan key ks) default).keys.getD 3 0
                    · -- the key is exactly the promoted median
                      have hmemN : (ks.take (btree_find_scan key ks) ++
                          (cs.getD (btree_find_scan key ks) default).keys.getD 3 0 ::
                          ks.drop (btree_find_scan key ks)).getD
                            (btree_find_scan key ks) 0 = key := by
                        rw [getD_insertAt_self ks _ _ 0 hjle]
                        exact hkm.symm
                      have hfindm : btree_find key (.node false ks vs cs) =
                          some ((cs.getD (btree_find_scan key ks)
                            default).values.getD 3 []) := by
                        rw [hdesc]
                        have hpm2 := hpm
                        rw [← hkm] at hpm2
                        exact hpm2
                      cases fvN with
                      | false =>
                        exact absurd hmemN ((sc2N rfl).2 _ (by rw [hlenN]; omega))
                      | true =>
                        obtain ⟨hs1N, hs2N, hs3N⟩ := sc1N rfl
                        subst hs1N
                        cases replace with
                        | false =>
                          have hE2 : btree_add_nonfull (f2 + 1)
                              (.node false (ks.take (btree_find_scan key ks) ++ (cs.getD (btree_find_scan key ks) default).keys.getD 3 0 :: ks.drop (btree_find_scan key ks)) (vs.take (btree_find_scan key ks) ++ (cs.getD (btree_find_scan key ks) default).values.getD 3 [] :: vs.drop (btree_find_scan key ks)) (cs.take (btree_find_scan key ks) ++ (.node (cs.getD (btree_find_scan key ks) default).isleaf ((cs.getD (btree_find_scan key ks) default).keys.take 3) ((cs.getD (btree_find_scan key ks) default).values.take 3) ((cs.getD (btree_find_scan key ks) default).children.take 4)) :: (.node (cs.getD (btree_find_scan key ks) default).isleaf ((cs.getD (btree_find_scan key ks) default).keys.drop 4) ((cs.getD (btree_find_scan key ks) default).values.drop 4) ((cs.getD (btree_find_scan key ks) default).children.drop 4)) :: cs.drop (btree_find_scan key ks + 1))) key val false =
                              (some .dup, .node false
                                (ks.take (btree_find_scan key ks) ++
                                  (cs.getD (btree_find_scan key ks)
                                    default).keys.getD 3 0 ::
                                  ks.drop (btree_find_scan key ks))
                                (vs.take (btree_find_scan key ks) ++
                                  (cs.getD (btree_find_scan key ks)
                                    default).values.getD 3 [] ::
                                  vs.drop (btree_find_scan key ks))
                                (cs.take (btree_find_scan key ks) ++
                                  (.node (cs.getD (btree_find_scan key ks)
                                      default).isleaf
                                    ((cs.getD (btree_find_scan key ks)
                                      default).keys.take 3)
                                    ((cs.getD (btree_find_scan key ks)
                                      default).values.take 3)
                                    ((cs.getD (btree_find_scan key ks)
                                      default).children.take 4)) ::
                                  (.node (cs.getD (btree_find_scan key ks)
                                      default).isleaf
                                    ((cs.getD (btree_find_scan key ks)
                                      default).keys.drop 4)
                                    ((cs.getD (btree_find_scan key ks)
                                      default).values.drop 4)
                                    ((cs.getD (btree_find_scan key ks)
                                      default).children.drop 4)) ::
                                  cs.drop (btree_find_scan key ks + 1))) := by
                            simp only [btree_add_nonfull, BNode.keys,
                              BNode.isleaf, BNode.children, BNode.values, hspN,
                              ite_true, ite_false, eq_self_iff_true,
                              Bool.false_eq_true, if_true, if_false,
                              Bool.not_false, Bool.not_true, Option.getD_some]
                          rw [hE2] at hE
                          rw [hE]
                          refine ⟨⟨rfl, hmaxN, hchainN⟩, ?_, ?_, ?_, ?_⟩
                          · intro h0
                            exact Option.noConfusion h0
                          · intro e he
                            cases he
                            refine ⟨rfl, rfl, ?_, ?_⟩
                            · rw [hfindm]
                              simp
                            · intro k2
                              exact hfsp k2
                          · intro habs
                            rw [hfindm] at habs
                            exact Option.noConfusion habs
                          · intro _ _
                            rfl
                        | true =>
                          have hE2 : btree_add_nonfull (f2 + 1)
                              (.node false (ks.take (btree_find_scan key ks) ++ (cs.getD (btree_find_scan key ks) default).keys.getD 3 0 :: ks.drop (btree_find_scan key ks)) (vs.take (btree_find_scan key ks) ++ (cs.getD (btree_find_scan key ks) default).values.getD 3 [] :: vs.drop (btree_find_scan key ks)) (cs.take (btree_find_scan key ks) ++ (.node (cs.getD (btree_find_scan key ks) default).isleaf ((cs.getD (btree_find_scan key ks) default).keys.take 3) ((cs.getD (btree_find_scan key ks) default).values.take 3) ((cs.getD (btree_find_scan key ks) default).children.take 4)) :: (.node (cs.getD (btree_find_scan key ks) default).isleaf ((cs.getD (btree_find_scan key ks) default).keys.drop 4) ((cs.getD (btree_find_scan key ks) default).values.drop 4) ((cs.getD (btree_find_scan key ks) default).children.drop 4)) :: cs.drop (btree_find_scan key ks + 1))) key val true =
                              (none, .node false
                                (ks.take (btree_find_scan key ks) ++
                                  (cs.getD (btree_find_scan key ks)
                                    default).keys.getD 3 0 ::
                                  ks.drop (btree_find_scan key ks))
                                ((vs.take (btree_find_scan key ks) ++
                                  (cs.getD (btree_find_scan key ks)
                                    default).values.getD 3 [] ::
                                  vs.drop (btree_find_scan key ks)).set
                                  (btree_find_scan key
                                    (ks.take (btree_find_scan key ks) ++
                                    (cs.getD (btree_find_scan key ks)
                                      default).keys.getD 3 0 ::
                                    ks.drop (btree_find_scan key ks))) val)
                                (cs.take (btree_find_scan key ks) ++
                                  (.node (cs.getD (btree_find_scan key ks)
                                      default).isleaf
                                    ((cs.getD (btree_find_scan key ks)
                                      default).keys.take 3)
                                    ((cs.getD (btree_find_scan key ks)
                                      default).values.take 3)
                                    ((cs.getD (btree_find_scan key ks)
                                      default).children.take 4)) ::
                                  (.node (cs.getD (btree_find_scan key ks)
                                      default).isleaf
                                    ((cs.getD (btree_find_scan key ks)
                                      default).keys.drop 4)
                                    ((cs.getD (btree_find_scan key ks)
                                      default).values.drop 4)
                                    ((cs.getD (btree_find_scan key ks)
                                      default).children.drop 4)) ::
                                  cs.drop (btree_find_scan key ks + 1))) := by
                            simp only [btree_add_nonfull, BNode.keys,
                              BNode.isleaf, BNode.children, BNode.values, hspN,
                              ite_true, ite_false, eq_self_iff_true,
                              Bool.false_eq_true, if_true, if_false,
                              Bool.not_false, Bool.not_true, Option.getD_some]
                          rw [hE2] at hE
                          rw [hE]
                          have hf1N : btree_find_scan key
                              (ks.take (btree_find_scan key ks) ++
                              (cs.getD (btree_find_scan key ks)
                                default).keys.getD 3 0 ::
                              ks.drop (btree_find_scan key ks)) <
                              (ks.take (btree_find_scan key ks) ++
                              (cs.getD (btree_find_scan key ks)
                                default).keys.getD 3 0 ::
                              ks.drop (btree_find_scan key ks)).length := hs2N
                          refine ⟨?_, ?_, ?_, ?_, ?_⟩
                          · exact ⟨rfl, hmaxN, chain_value_set lo hi _ _ _ _ val
                              hchainN⟩
                          · intro _ k2
                            rw [find_value_set key false _ _ _ val hs2N hs3N
                              hvlN (fun _ => hclN) k2]
                            by_cases hk2 : k2 = key
                            · rw [if_pos hk2, if_pos hk2]
                            · rw [if_neg hk2, if_neg hk2]
                              exact hfsp k2
                          · intro e he
                            exact Option.noConfusion he
                          · intro _
                            rfl
                          · intro hpres hrepc
                            exact Bool.noConfusion hrepc
                    · -- the key is not the median: descend into a half
                      have hscN := scan_insertAt key
                        ((cs.getD (btree_find_scan key ks) default).keys.getD 3 0)
                        ks (btree_find_scan key ks) hjle hlowm hhighm
                      have hnotinN : ∀ p, p < (ks.take (btree_find_scan key ks) ++
                          (cs.getD (btree_find_scan key ks) default).keys.getD 3 0 ::
                          ks.drop (btree_find_scan key ks)).length →
                          (ks.take (btree_find_scan key ks) ++
                          (cs.getD (btree_find_scan key ks) default).keys.getD 3 0 ::
                          ks.drop (btree_find_scan key ks)).getD p 0 ≠ key := by
                        intro p hp
                        rw [hlenN] at hp
                        rcases Nat.lt_trichotomy p (btree_find_scan key ks) with
                          h1 | h1 | h1
                        · rw [getD_insertAt_lt ks _ _ _ 0 h1 hjle]
                          exact hnotin p (by omega)
                        · rw [h1, getD_insertAt_self ks _ _ 0 hjle]
                          exact fun hc => hkm hc.symm
                        · rw [getD_insertAt_gt ks _ _ _ 0 h1 hjle]
                          by_cases hpl2 : p - 1 < ks.length
                          · exact hnotin (p - 1) hpl2
                          · rw [List.getD_eq_default _ _ (by omega)]
                            intro hc
                            rw [← hc] at hkm
                            have := hhighm (p - 1)
                            omega
                      cases fvN with
                      | true =>
                        obtain ⟨hs1N, hs2N, hs3N⟩ := sc1N rfl
                        exact absurd hs3N (hnotinN _ hs2N)
                      | false =>
                        obtain ⟨hrouteN, _⟩ := sc2N rfl
                        have hckeys : (cs.getD (btree_find_scan key ks)
                            default).keys.length = 7 := hfullk
                        have hnotfullN : ((cs.take (btree_find_scan key ks) ++
                            (.node (cs.getD (btree_find_scan key ks)
                                default).isleaf
                              ((cs.getD (btree_find_scan key ks)
                                default).keys.take 3)
                              ((cs.getD (btree_find_scan key ks)
                                default).values.take 3)
                              ((cs.getD (btree_find_scan key ks)
                                default).children.take 4)) ::
                            (.node (cs.getD (btree_find_scan key ks)
                                default).isleaf
                              ((cs.getD (btree_find_scan key ks)
                                default).keys.drop 4)
                              ((cs.getD (btree_find_scan key ks)
                                default).values.drop 4)
                              ((cs.getD (btree_find_scan key ks)
                                default).children.drop 4)) ::
                            cs.drop (btree_find_scan key ks + 1)).getD
                            (btree_find_scan key
                              (ks.take (btree_find_scan key ks) ++
                              (cs.getD (btree_find_scan key ks)
                                default).keys.getD 3 0 ::
                              ks.drop (btree_find_scan key ks))) default).numkeys ≠
                            BTREE_MAX_KEYS := by
                          rcases Nat.lt_or_ge key
                              ((cs.getD (btree_find_scan key ks)
                                default).keys.getD 3 0) with hlt | hge
                          · rw [hscN, if_pos (by omega),
                              getD_splice_self cs _ _ _ default (by omega)]
                            show ((cs.getD (btree_find_scan key ks)
                              default).keys.take 3).length ≠ BTREE_MAX_KEYS
                            rw [List.length_take, hckeys]
                            decide
                          · rw [hscN, if_neg (by omega),
                              getD_splice_succ cs _ _ _ default (by omega)]
                            show ((cs.getD (btree_find_scan key ks)
                              default).keys.drop 4).length ≠ BTREE_MAX_KEYS
                            rw [List.length_drop, hckeys]
                            decide
                        have hfullN0 : btree_node_is_full
                            ((cs.take (btree_find_scan key ks) ++
                            (.node (cs.getD (btree_find_scan key ks)
                                default).isleaf
                              ((cs.getD (btree_find_scan key ks)
                                default).keys.take 3)
                              ((cs.getD (btree_find_scan key ks)
                                default).values.take 3)
                              ((cs.getD (btree_find_scan key ks)
                                default).children.take 4)) ::
                            (.node (cs.getD (btree_find_scan key ks)
                                default).isleaf
                              ((cs.getD (btree_find_scan key ks)
                                default).keys.drop 4)
                              ((cs.getD (btree_find_scan key ks)
                                default).values.drop 4)
                              ((cs.getD (btree_find_scan key ks)
                                default).children.drop 4)) ::
                            cs.drop (btree_find_scan key ks + 1)).getD
                            (childIdx ivN) default) = false := by
                          rw [hrouteN]
                          exact beq_eq_false_iff_ne.mpr hnotfullN
                        simp only [BNode.keys, BNode.isleaf, BNode.children,
                          BNode.values] at hfullN0
                        have hE2 : btree_add_nonfull (f2 + 1)
                            (.node false (ks.take (btree_find_scan key ks) ++ (cs.getD (btree_find_scan key ks) default).keys.getD 3 0 :: ks.drop (btree_find_scan key ks)) (vs.take (btree_find_scan key ks) ++ (cs.getD (btree_find_scan key ks) default).values.getD 3 [] :: vs.drop (btree_find_scan key ks)) (cs.take (btree_find_scan key ks) ++ (.node (cs.getD (btree_find_scan key ks) default).isleaf ((cs.getD (btree_find_scan key ks) default).keys.take 3) ((cs.getD (btree_find_scan key ks) default).values.take 3) ((cs.getD (btree_find_scan key ks) default).children.take 4)) :: (.node (cs.getD (btree_find_scan key ks) default).isleaf ((cs.getD (btree_find_scan key ks) default).keys.drop 4) ((cs.getD (btree_find_scan key ks) default).values.drop 4) ((cs.getD (btree_find_scan key ks) default).children.drop 4)) :: cs.drop (btree_find_scan key ks + 1))) key val replace =
                            ((btree_add_nonfull f2
                              ((cs.take (btree_find_scan key ks) ++
                                (.node (cs.getD (btree_find_scan key ks)
                                    default).isleaf
                                  ((cs.getD (btree_find_scan key ks)
                                    default).keys.take 3)
                                  ((cs.getD (btree_find_scan key ks)
                                    default).values.take 3)
                                  ((cs.getD (btree_find_scan key ks)
                                    default).children.take 4)) ::
                                (.node (cs.getD (btree_find_scan key ks)
                                    default).isleaf
                                  ((cs.getD (btree_find_scan key ks)
                                    default).keys.drop 4)
                                  ((cs.getD (btree_find_scan key ks)
                                    default).values.drop 4)
                                  ((cs.getD (btree_find_scan key ks)
                                    default).children.drop 4)) ::
                                cs.drop (btree_find_scan key ks + 1)).getD
                                (childIdx ivN) default) key val replace).1,
                             .node false
                              (ks.take (btree_find_scan key ks) ++
                                (cs.getD (btree_find_scan key ks)
                                  default).keys.getD 3 0 ::
                                ks.drop (btree_find_scan key ks))
                              (vs.take (btree_find_scan key ks) ++
                                (cs.getD (btree_find_scan key ks)
                                  default).values.getD 3 [] ::
                                vs.drop (btree_find_scan key ks))
                              ((cs.take (btree_find_scan key ks) ++
                                (.node (cs.getD (btree_find_scan key ks)
                                    default).isleaf
                                  ((cs.getD (btree_find_scan key ks)
                                    default).keys.take 3)
                                  ((cs.getD (btree_find_scan key ks)
                                    default).values.take 3)
                                  ((cs.getD (btree_find_scan key ks)
                                    default).children.take 4)) ::
                                (.node (cs.getD (btree_find_scan key ks)
                                    default).isleaf
                                  ((cs.getD (btree_find_scan key ks)
                                    default).keys.drop 4)
                                  ((cs.getD (btree_find_scan key ks)
                                    default).values.drop 4)
                                  ((cs.getD (btree_find_scan key ks)
                                    default).children.drop 4)) ::
                                cs.drop (btree_find_scan key ks + 1)).set
                                (childIdx ivN)
                                (btree_add_nonfull f2
                                  ((cs.take (btree_find_scan key ks) ++
                                    (.node (cs.getD (btree_find_scan key ks)
                                        default).isleaf
                                      ((cs.getD (btree_find_scan key ks)
                                        default).keys.take 3)
                                      ((cs.getD (btree_find_scan key ks)
                                        default).values.take 3)
                                      ((cs.getD (btree_find_scan key ks)
                                        default).children.take 4)) ::
                                    (.node (cs.getD (btree_find_scan key ks)
                                        default).isleaf
                                      ((cs.getD (btree_find_scan key ks)
                                        default).keys.drop 4)
                                      ((cs.getD (btree_find_scan key ks)
                                        default).values.drop 4)
                                      ((cs.getD (btree_find_scan key ks)
                                        default).children.drop 4)) ::
                                    cs.drop (btree_find_scan key ks + 1)).getD
                                    (childIdx ivN) default)
                                  key val replace).2)) := by
                          simp only [btree_add_nonfull, BNode.keys,
                            BNode.isleaf, BNode.children, BNode.values, hspN,
                            hfullN0, ite_true, ite_false, eq_self_iff_true,
                            Bool.false_eq_true, if_true, if_false,
                            Bool.not_false, Bool.not_true, Option.getD_some]
                        rw [hrouteN] at hE2
                        rw [hE2] at hE
                        rw [hE]
                        obtain ⟨hd1, hd2, hd3, hd4, hd5⟩ :=
                          add_descend_step g f2 lo hi _ _ _ key val replace ih
                            hchainN hmaxN hklo hkhi hnotinN hnotfullN
                            (by omega)
                        refine ⟨hd1, ?_, ?_, ?_, ?_⟩
                        · intro he k2
                          by_cases hk2 : k2 = key
                          · rw [hd2 he k2, if_pos hk2, if_pos hk2]
                          · rw [hd2 he k2, if_neg hk2, if_neg hk2]
                            exact hfsp k2
                        · intro e he
                          obtain ⟨x1, x2, x3, x4⟩ := hd3 e he
                          refine ⟨x1, x2, ?_, ?_⟩
                          · rw [← hfsp key]
                            exact x3
                          · intro k2
                            rw [x4 k2]
                            exact hfsp k2
                        · intro habs
                          exact hd4 (by rw [hfsp key]; exact habs)
                        · intro hpres hrepc
                          exact hd5 (by rw [hfsp key]; exact hpres) hrepc
              · -- child not full: descend directly
                rw [Bool.not_eq_true] at hfull0
                have hE : btree_add_nonfull (f + 1) (.node false ks vs cs)
                    key val replace =
                    ((btree_add_nonfull f (cs.getD (childIdx iv) default)
                        key val replace).1,
                     .node false ks vs (cs.set (childIdx iv)
                        (btree_add_nonfull f (cs.getD (childIdx iv) default)
                          key val replace).2)) := by
                  simp only [btree_add_nonfull, BNode.keys, BNode.isleaf,
                    BNode.children, BNode.values, hsp, hfull0, ite_true,
                    ite_false, eq_self_iff_true, Bool.false_eq_true, if_true,
                    if_false, Bool.not_false, Bool.not_true, Option.getD_some]
                rw [hroute] at hE hfull0
                have hnotfullc : (cs.getD (btree_find_scan key ks)
                    default).numkeys ≠ BTREE_MAX_KEYS :=
                  beq_eq_false_iff_ne.mp hfull0
                obtain ⟨hd1, hd2, hd3, hd4, hd5⟩ :=
                  add_descend_step g f lo hi ks vs cs key val replace ih
                    hchain hmax hklo hkhi hnotin hnotfullc (by omega)
                rw [hE]
                exact ⟨hd1, hd2, hd3, hd4, hd5⟩

/-- Correctness of `btree_add`: from a well-formed root of any height the
height grows by at most one (exactly when the root was full), and the
find/error behaviour is that of `AddSpec`. -/
theorem btree_add_spec (h fuel : Nat) (t : BNode) (key : Nat) (val : List Nat)
    (replace : Bool) (hw : WFB h none none t) (hfuel : 2 * h + 2 ≤ fuel) :
    (∃ h2, h2 ≤ h + 1 ∧
      WFB h2 none none (btree_add fuel t key val replace).2) ∧
    ((btree_add fuel t key val replace).1 = none →
      ∀ k, btree_find k (btree_add fuel t key val replace).2 =
        if k = key then some val else btree_find k t) ∧
    (∀ e, (btree_add fuel t key val replace).1 = some e →
      e = .dup ∧ replace = false ∧ btree_find key t ≠ none ∧
      ∀ k, btree_find k (btree_add fuel t key val replace).2 =
        btree_find k t) ∧
    (btree_find key t = none →
      (btree_add fuel t key val replace).1 = none) ∧
    (btree_find key t ≠ none → replace = false →
      (btree_add fuel t key val replace).1 = some .dup) := by
  by_cases hfull : btree_node_is_full t = true
  · -- full root: split it under a fresh empty parent
    cases h with
    | zero => exact hw.elim
    | succ h0 =>
      have hfullk : t.numkeys = BTREE_MAX_KEYS := by
        simpa [btree_node_is_full] using hfull
      obtain ⟨hWL, hWR, hmlo, hmhi, hpl, hpm, hpr⟩ :=
        split_halves (h0 + 1) none none t hw hfullk
      have hsplit := split_child_eq false [] [] [] 0 t hfullk (by decide)
      simp only [List.take_nil, List.drop_nil, List.nil_append] at hsplit
      have hfsp := find_splice [] [] [t] 0 (t.keys.getD 3 0)
        (t.values.getD 3 []) (.node t.isleaf (t.keys.take 3) (t.values.take 3) (t.children.take 4)) (.node t.isleaf (t.keys.drop 4) (t.values.drop 4) (t.children.drop 4))
        rfl rfl (Nat.le_refl 0)
        (fun p hp => (Nat.not_lt_zero p hp).elim)
        (fun p _ h2 => (Nat.not_lt_zero p h2).elim)
        hpl hpm hpr
      simp only [List.take_nil, List.drop_nil, List.nil_append] at hfsp
      have hfor : ∀ k, btree_find k (.node false [] [] [t]) =
          btree_find k t := by
        intro k
        rw [find_internal k [] [] [t] rfl,
          if_neg (fun hc => Nat.not_lt_zero _ hc.1)]
        rfl
      have hNfind : ∀ k, btree_find k (.node false [t.keys.getD 3 0] [t.values.getD 3 []] [(.node t.isleaf (t.keys.take 3) (t.values.take 3) (t.children.take 4)), (.node t.isleaf (t.keys.drop 4) (t.values.drop 4) (t.children.drop 4))]) = btree_find k t :=
        fun k => (hfsp k).trans (hfor k)
      obtain ⟨a1, a2, a3, a4, a5⟩ := add_nonfull_spec (h0 + 2) fuel none none
        (.node false [t.keys.getD 3 0] [t.values.getD 3 []] [(.node t.isleaf (t.keys.take 3) (t.values.take 3) (t.children.take 4)), (.node t.isleaf (t.keys.drop 4) (t.values.drop 4) (t.children.drop 4))]) key val replace
        ⟨rfl, by show (1 : Nat) ≤ 7; omega, ⟨hWL, trivial, trivial, hWR⟩⟩
        trivial trivial
        (by show ¬ (1 : Nat) = 7; omega) (by omega)
      unfold btree_add
      rw [if_pos hfull, hsplit]
      refine ⟨⟨h0 + 2, by omega, a1⟩, ?_, ?_, ?_, ?_⟩
      · intro he k
        rw [a2 he k]
        by_cases hk : k = key
        · rw [if_pos hk, if_pos hk]
        · rw [if_neg hk, if_neg hk, hNfind k]
      · intro e he
        obtain ⟨x1, x2, x3, x4⟩ := a3 e he
        refine ⟨x1, x2, ?_, ?_⟩
        · rw [← hNfind key]
          exact x3
        · intro k
          rw [x4 k, hNfind k]
      · intro hnone
        exact a4 (by rw [hNfind key]; exact hnone)
      · intro hpres hrep
        exact a5 (by rw [hNfind key]; exact hpres) hrep
  · -- root not full: direct non-full insert
    rw [Bool.not_eq_true] at hfull
    have hEadd : btree_add fuel t key val replace =
        btree_add_nonfull fuel t key val replace := by
      unfold btree_add
      rw [if_neg (by rw [hfull]; exact Bool.false_ne_true)]
    rw [hEadd]
    obtain ⟨a1, a2, a3, a4, a5⟩ := add_nonfull_spec h fuel none none t key val
      replace hw trivial trivial (beq_eq_false_iff_ne.mp hfull) (by omega)
    exact ⟨⟨h, by omega, a1⟩, a2, a3, a4, a5⟩

/-- Lookup ignores filtered-out keys: removing all pairs with key `key`
does not change the lookup of any other key. -/
theorem alkup_filter_ne (k key : Nat) (hk : k ≠ key) :
    ∀ m : List (Nat × List Nat),
    alkup k (m.filter (fun q => q.1 ≠ key)) = alkup k m := by
  intro m
  induction m with
  | nil => rfl
  | cons a rest ih =>
    obtain ⟨a1, a2⟩ := a
    by_cases ha : a1 = key
    · subst ha
      rw [List.filter_cons, if_neg (by simp), ih]
      rw [show alkup k ((a1, a2) :: rest) =
        if k = a1 then some a2 else alkup k rest from rfl, if_neg hk]
    · rw [List.filter_cons, if_pos (by simpa using ha)]
      rw [show alkup k ((a1, a2) :: rest.filter (fun q => q.1 ≠ key)) =
        if k = a1 then some a2 else alkup k (rest.filter (fun q => q.1 ≠ key))
        from rfl]
      rw [show alkup k ((a1, a2) :: rest) =
        if k = a1 then some a2 else alkup k rest from rfl]
      by_cases hka : k = a1
      · rw [if_pos hka, if_pos hka]
      · rw [if_neg hka, if_neg hka, ih]

/-- The reference insert behaves like a map update under lookup. -/
theorem alkup_specInsert (k key : Nat) (val : List Nat)
    (m : List (Nat × List Nat)) :
    alkup k (specInsert m key val) = if k = key then some val else alkup k m := by
  rw [show alkup k (specInsert m key val) =
    if k = key then some val
    else alkup k (m.filter (fun q => q.1 ≠ key)) from rfl]
  by_cases hk : k = key
  · rw [if_pos hk, if_pos hk]
  · rw [if_neg hk, if_neg hk, alkup_filter_ne k key hk m]

/-- A run of `btree_add` calls refines the association-list semantics:
starting from a well-formed tree whose `find` agrees with the lookup on a
map `m`, the tree after the run is well formed at some height and its
`find` agrees with the lookup on `m` updated by exactly the successful
calls (in order). -/
theorem runAdds_spec (ops : List AddOp) :
    ∀ (b h : Nat) (t : BNode) (m : List (Nat × List Nat)),
    WFB h none none t → 2 * h + 2 ≤ b →
    (∀ k, btree_find k t = alkup k m) →
    (∃ h2, WFB h2 none none (runAdds b t ops).1) ∧
    ∀ k, btree_find k (runAdds b t ops).1 =
      alkup k (specRun m (ops.zip (runAdds b t ops).2)) := by
  induction ops with
  | nil =>
    intro b h t m hw hb hf
    exact ⟨⟨h, hw⟩, hf⟩
  | cons op ops ih =>
    intro b h t m hw hb hf
    cases hadd : btree_add b t op.key op.val op.replace with
    | mk e t2 =>
      have hrun : runAdds b t (op :: ops) =
          ((runAdds (b + 2) t2 ops).1,
            e.isNone :: (runAdds (b + 2) t2 ops).2) := by
        simp only [runAdds, hadd]
      obtain ⟨⟨h2, hh2, hw2⟩, a2, a3, a4, a5⟩ :=
        btree_add_spec h b t op.key op.val op.replace hw (by omega)
      simp only [hadd] at hw2 a2 a3
      cases e with
      | none =>
        have hf2 : ∀ k, btree_find k t2 =
            alkup k (specInsert m op.key op.val) := by
          intro k
          rw [a2 rfl k, alkup_specInsert]
          by_cases hk : k = op.key
          · rw [if_pos hk, if_pos hk]
          · rw [if_neg hk, if_neg hk, hf k]
        obtain ⟨ihWF, ihF⟩ := ih (b + 2) h2 t2 (specInsert m op.key op.val) hw2
          (by omega) hf2
        rw [hrun]
        refine ⟨ihWF, ?_⟩
        intro k
        have hspec : specRun m ((op :: ops).zip
            ((none : Option AddErr).isNone :: (runAdds (b + 2) t2 ops).2)) =
            specRun (specInsert m op.key op.val)
              (ops.zip (runAdds (b + 2) t2 ops).2) := rfl
        rw [hspec]
        exact ihF k
      | some err =>
        obtain ⟨he1, he2, he3, he4⟩ := a3 err rfl
        have hf2 : ∀ k, btree_find k t2 = alkup k m :=
          fun k => (he4 k).trans (hf k)
        obtain ⟨ihWF, ihF⟩ := ih (b + 2) h2 t2 m hw2 (by omega) hf2
        rw [hrun]
        refine ⟨ihWF, ?_⟩
        intro k
        have hspec : specRun m ((op :: ops).zip
            ((some err : Option AddErr).isNone :: (runAdds (b + 2) t2 ops).2)) =
            specRun m (ops.zip (runAdds (b + 2) t2 ops).2) := rfl
        rw [hspec]
        exact ihF k

/-! ## Claim C2 -/

/-- C2: inserting the 16-byte left-zero-padded keys "001" … "008" in order
(with distinct values) into a freshly created tree succeeds at every step
and leaves the root a non-leaf with exactly one key, "004", whose two
children are leaves holding exactly the keys "001","002","003" and
"005","006","007","008" respectively (in the model the 16-byte keys are
the big-endian numbers `asciiKey d = 0x303030 + d`). -/
theorem c2_root_split_shape :
    (runAdds 4 root0 c2ops).2 =
      [true, true, true, true, true, true, true, true] ∧
    c2tree = .node false [asciiKey 4] [[4]]
      [.node true [asciiKey 1, asciiKey 2, asciiKey 3] [[1], [2], [3]] [],
       .node true [asciiKey 5, asciiKey 6, asciiKey 7, asciiKey 8]
         [[5], [6], [7], [8]] []] :=
  ⟨rfl, rfl⟩

/-! ## Claim C1 -/

/-- C1: after any sequence of `btree_add` calls run against a freshly
created (empty-leaf) root, `btree_find k` answers exactly the
association-list semantics of the run: the value of the most recent
*successful* add for `k` (when a later add's `replace` was permitted this
is the replacing value; a rejected duplicate add leaves the earlier value
in place), and `none` — the C `ENOENT` path — for a key that no
successful add ever inserted.  `runAdds` records each call's success bit,
`specMap` folds the key/value of exactly the successful calls in call
order, and `alkup` is association-list lookup. -/
theorem c1_find_after_adds (ops : List AddOp) :
    ∀ k, btree_find k (runAdds 4 root0 ops).1 =
      alkup k (specMap (ops.zip (runAdds 4 root0 ops).2)) := by
  have hw0 : WFB 1 none none root0 :=
    ⟨rfl, rfl, trivial, rfl, Nat.zero_le _⟩
  have hf0 : ∀ k, btree_find k root0 = alkup k [] := by
    intro k
    rw [show (root0 : BNode) = .node true [] [] [] from rfl, find_leaf,
      if_neg (fun hc => Nat.not_lt_zero _ hc.1)]
    rfl
  exact (runAdds_spec ops 4 1 root0 [] hw0 (by omega) hf0).2

/-! ## Claim C3 -/

/-- C3: on any well-formed tree in which `key` is present (with some value
`v`), `btree_add key vnew (replace := false)` returns the duplicate error
(C: -1 with `errno = EBUSY`), and afterwards `btree_find` answers exactly
as before the call for every key — in particular `find key` still yields
`v`.  The tree is arbitrary, so this includes the case of a full root,
where `btree_add` first splits the root and only then runs into the
duplicate. -/
theorem c3_duplicate_add_rejected (h fuel : Nat) (t : BNode) (key : Nat)
    (v vnew : List Nat) (hw : WFB h none none t)
    (hpres : btree_find key t = some v) (hfuel : 2 * h + 2 ≤ fuel) :
    (btree_add fuel t key vnew false).1 = some .dup ∧
    ∀ k, btree_find k (btree_add fuel t key vnew false).2 = btree_find k t := by
  obtain ⟨hWF, a2, a3, a4, a5⟩ := btree_add_spec h fuel t key vnew false hw hfuel
  have hdup : (btree_add fuel t key vnew false).1 = some .dup :=
    a5 (by rw [hpres]; exact fun hc => Option.noConfusion hc) rfl
  exact ⟨hdup, fun k => (a3 .dup hdup).2.2.2 k⟩

/-- Witness for `c3_duplicate_add_rejected`: the full (7-key) root holding
"001" … "007"; adding key "003" again with `replace = false` returns the
duplicate error, and the lookup of "003" is unchanged — exercising the
full-root path, where `btree_add` splits the root before the duplicate is
detected. -/
theorem c3_duplicate_add_rejected_witness :
    btree_find (asciiKey 3) c3tree = some [3] ∧
    (btree_add 4 c3tree (asciiKey 3) [9] false).1 = some .dup ∧
    btree_find (asciiKey 3) (btree_add 4 c3tree (asciiKey 3) [9] false).2 =
      btree_find (asciiKey 3) c3tree := by
  have hc3 : c3tree = .node true
      [asciiKey 1, asciiKey 2, asciiKey 3, asciiKey 4, asciiKey 5, asciiKey 6,
        asciiKey 7]
      [[1], [2], [3], [4], [5], [6], [7]] [] := rfl
  have hpres : btree_find (asciiKey 3) c3tree = some [3] := by
    rw [hc3, find_leaf, if_pos (by decide)]
    decide
  have hw : WFB 1 none none c3tree := by
    rw [hc3]
    refine ⟨rfl, rfl, ?_, rfl, by decide⟩
    norm_num [keysSorted, optLtK, optKLt, asciiKey]
  have hmain := c3_duplicate_add_rejected 1 4 c3tree (asciiKey 3) [3] [9] hw
    hpres (by decide)
  exact ⟨hpres, hmain.1, hmain.2 (asciiKey 3)⟩

end OTree
